import Mathlib

/-!
Disaster-management backend: graph, shortest path, resource allocator

A shallow embedding of `backend-cpp` (`graph.cpp`, `dijkstra.cpp`, `resources.cpp`) and the
properties of its specification that are settled against it.

Modelling conventions

* C++ `int` values are `Int`.  The only addition of the shortest-path search,
  `dist[u] + weight`, is performed by a parameter `add`, so that the search can be read with
  exact arithmetic (`exactAdd`, "no integer overflow") or with 32-bit signed
  wrap-around (`wrapAdd`).  The subtraction `resources -= required_resources` is exact.
* `std::vector` is `List`; an index outside the vector is the fault `outOfBounds` instead of
  undefined behaviour.
* Loops whose termination is not structural (`while (!pq.empty())`, `while (curr != -1)`) take a
  step budget and end in the fault `outOfFuel` when it is used up.
* `std::unordered_map<int, std::vector<Edge>>` is an association list with unique keys.
* `double` fields are never computed with by the core; they are carried as their 64-bit pattern.
-/

namespace Disaster

/-! ## Data model (`graph.hpp`, `dijkstra.hpp`, `resources.hpp`) -/

/-- The value of `INT_MAX` for a 32-bit `int`. -/
def INT_MAX : Int := 2147483647

structure City where
  id : Int
  name : String
  population : Int
  damage_level : Int
  resources : Int
  latitude : Nat
  longitude : Nat
deriving DecidableEq, Repr

structure Edge where
  dest_id : Int
  distance : Int
deriving DecidableEq, Repr

structure Graph where
  cities : List City
  adj_list : List (Int × List Edge)
  city_count : Int
deriving DecidableEq, Repr

structure PathResult where
  path : List Int
  total_distance : Int
  success : Bool
deriving DecidableEq, Repr

structure DisasterRequest where
  id : Int
  city_id : Int
  priority : Int
  required_resources : Int
  status : String
deriving DecidableEq, Repr

structure AllocationResult where
  request_id : Int
  affected_city_id : Int
  support_city_id : Int
  allocated_resources : Int
  distance : Int
  status : String
deriving DecidableEq, Repr

structure ResourceManager where
  requests : List DisasterRequest
  next_id : Int
deriving DecidableEq, Repr

/-- Ways in which a run leaves the defined behaviour of the program. -/
inductive Fault where
  | outOfBounds
  | badAlloc
  | outOfFuel
deriving DecidableEq, Repr

instance instDecidableEqExcept {ε α : Type} [DecidableEq ε] [DecidableEq α] :
    DecidableEq (Except ε α) := fun a b =>
  match a, b with
  | .ok x, .ok y => if h : x = y then isTrue (by rw [h]) else isFalse (fun h2 => h (by cases h2; rfl))
  | .error x, .error y =>
    if h : x = y then isTrue (by rw [h]) else isFalse (fun h2 => h (by cases h2; rfl))
  | .ok _, .error _ => isFalse (fun h => by cases h)
  | .error _, .ok _ => isFalse (fun h => by cases h)

/-! ## Machine arithmetic -/

/-- Exact integer addition: the reading of `dist[u] + weight` without overflow. -/
def exactAdd (a b : Int) : Int := a + b

/-- Reduction of an integer to the range of a 32-bit signed `int`. -/
def wrap32 (x : Int) : Int := (x + 2147483648) % 4294967296 - 2147483648

/-- Addition of two `int` values with 32-bit wrap-around. -/
def wrapAdd (a b : Int) : Int := wrap32 (a + b)

/-! ## Vectors indexed by `int` -/

/-- Read `a[i]`; a fault when `i` is not an index of `a`. -/
def rd {α : Type} (a : List α) (i : Int) : Except Fault α :=
  if 0 ≤ i then
    match a[i.toNat]? with
    | some x => .ok x
    | none => .error .outOfBounds
  else .error .outOfBounds

/-- Write `a[i] = x`; a fault when `i` is not an index of `a`. -/
def wr {α : Type} (a : List α) (i : Int) (x : α) : Except Fault (List α) :=
  if 0 ≤ i ∧ i.toNat < a.length then .ok (a.set i.toNat x) else .error .outOfBounds

/-! ## Graph (`graph.cpp`) -/

/-- The constructor `Graph::Graph()`. -/
def Graph.empty : Graph := { cities := [], adj_list := [], city_count := 0 }

/-- The map operation `adj_list[key]` followed by a change `f` of the entry; a missing entry is
created empty first, as `operator[]` does. -/
def adjUpdate (f : List Edge → List Edge) (key : Int) :
    List (Int × List Edge) → List (Int × List Edge)
  | [] => [(key, f [])]
  | (k, es) :: rest => if k = key then (k, f es) :: rest else (k, es) :: adjUpdate f key rest

def Graph.add_city (g : Graph) (name : String) (pop damage res : Int) (lat lon : Nat) :
    Graph × Int :=
  let city : City :=
    { id := g.city_count, name := name, population := pop, damage_level := damage,
      resources := res, latitude := lat, longitude := lon }
  ({ cities := g.cities ++ [city],
     adj_list := adjUpdate (fun _ => []) city.id g.adj_list,
     city_count := g.city_count + 1 }, city.id)

def Graph.add_road (g : Graph) (src dest dist : Int) : Graph :=
  let a1 := adjUpdate (fun es => es ++ [{ dest_id := dest, distance := dist }]) src g.adj_list
  let a2 := adjUpdate (fun es => es ++ [{ dest_id := src, distance := dist }]) dest a1
  { g with adj_list := a2 }

/-- The position in `cities` of the record `find_city_by_id` returns a pointer to. -/
def findCityIdx : List City → Int → Option Nat
  | [], _ => none
  | c :: cs, id => if c.id = id then some 0 else (findCityIdx cs id).map (· + 1)

def Graph.find_city_by_id (g : Graph) (id : Int) : Option Nat := findCityIdx g.cities id

def Graph.get_edges (g : Graph) (city_id : Int) : List Edge :=
  match g.adj_list.lookup city_id with
  | some es => es
  | none => []

def Graph.clear (_g : Graph) : Graph := { cities := [], adj_list := [], city_count := 0 }

/-! ## Shortest path (`dijkstra.cpp`) -/

/-- The order `operator<` of `std::pair<int,int>`. -/
def pairLt (a b : Int × Int) : Bool := a.1 < b.1 || (a.1 == b.1 && a.2 < b.2)

/-- The least element of the queue under `std::greater`, i.e. `pq.top()`. -/
def pqTop : List (Int × Int) → Option (Int × Int)
  | [] => none
  | x :: xs =>
    match pqTop xs with
    | none => some x
    | some m => if pairLt m x then some m else some x

/-- The queue after `pq.pop()`. -/
def pqPop (pq : List (Int × Int)) : List (Int × Int) :=
  match pqTop pq with
  | none => pq
  | some m => pq.erase m

/-- The queue after `pq.push(x)`. -/
def pqPush (pq : List (Int × Int)) (x : Int × Int) : List (Int × Int) := x :: pq

/-- The local state of `dijkstra`: the three vectors and the priority queue. -/
structure DState where
  dist : List Int
  parent : List Int
  visited : List Bool
  pq : List (Int × Int)
deriving DecidableEq, Repr

/-- The body of `for (const Edge& edge : graph.get_edges(u))`, over the edges still to come. -/
def relaxEdges (add : Int → Int → Int) (u : Int) : List Edge → DState → Except Fault DState
  | [], s => .ok s
  | edge :: rest, s =>
    let v := edge.dest_id
    let weight := edge.distance
    match rd s.visited v with
    | .error f => .error f
    | .ok vis =>
      if vis then relaxEdges add u rest s
      else
        match rd s.dist u with
        | .error f => .error f
        | .ok du =>
          if du = INT_MAX then relaxEdges add u rest s
          else
            match rd s.dist v with
            | .error f => .error f
            | .ok dv =>
              if add du weight < dv then
                match wr s.dist v (add du weight), wr s.parent v u with
                | .ok dist1, .ok parent1 =>
                  relaxEdges add u rest
                    { s with dist := dist1, parent := parent1,
                             pq := pqPush s.pq (add du weight, v) }
                | _, _ => .error .outOfBounds
              else relaxEdges add u rest s

/-- The loop `while (!pq.empty())` with a budget of iterations. -/
def searchLoop (add : Int → Int → Int) (g : Graph) (dest : Int) :
    Nat → DState → Except Fault DState
  | fuel, s =>
    match pqTop s.pq with
    | none => .ok s
    | some top =>
      match fuel with
      | 0 => .error .outOfFuel
      | fuel1 + 1 =>
        let u := top.2
        let s1 := { s with pq := pqPop s.pq }
        match rd s1.visited u with
        | .error f => .error f
        | .ok vis =>
          if vis then searchLoop add g dest fuel1 s1
          else
            match wr s1.visited u true with
            | .error f => .error f
            | .ok visited1 =>
              let s2 := { s1 with visited := visited1 }
              if u = dest then .ok s2
              else
                match relaxEdges add u (g.get_edges u) s2 with
                | .error f => .error f
                | .ok s3 => searchLoop add g dest fuel1 s3

/-- The loop `while (curr != -1)` of the path reconstruction, with a budget of iterations;
`acc` is `result.path` so far. -/
def reconstruct (parent : List Int) : Nat → Int → List Int → Except Fault (List Int)
  | fuel, curr, acc =>
    if curr = -1 then .ok acc
    else
      match fuel with
      | 0 => .error .outOfFuel
      | fuel1 + 1 =>
        match rd parent curr with
        | .error f => .error f
        | .ok p => reconstruct parent fuel1 p (acc ++ [curr])

/-- The number of `Edge` records in the adjacency lists of the cities `0 .. n-1`. -/
def edgeCount (g : Graph) (n : Nat) : Nat :=
  ((List.range n).map (fun (u : Nat) => (g.get_edges (u : Int)).length)).sum

/-- The budget given to the search loop: one more than the number of pushes it can make. -/
def searchFuel (g : Graph) (n : Nat) : Nat := edgeCount g n + 1

def dijkstra (add : Int → Int → Int) (g : Graph) (src dest : Int) : Except Fault PathResult :=
  let result : PathResult := { path := [], total_distance := -1, success := false }
  if g.city_count = 0 then .ok result
  else if g.city_count < 0 then .error .badAlloc
  else
    let n := g.city_count.toNat
    let dist := List.replicate n INT_MAX
    let parent := List.replicate n (-1 : Int)
    let visited := List.replicate n false
    match wr dist src 0 with
    | .error f => .error f
    | .ok dist0 =>
      let s0 : DState :=
        { dist := dist0, parent := parent, visited := visited, pq := pqPush [] (0, src) }
      match searchLoop add g dest (searchFuel g n) s0 with
      | .error f => .error f
      | .ok s =>
        match rd s.dist dest with
        | .error f => .error f
        | .ok dd =>
          if dd = INT_MAX then .ok result
          else
            match reconstruct s.parent n dest [] with
            | .error f => .error f
            | .ok path => .ok { path := path.reverse, total_distance := dd, success := true }

/-! ## Scenario graphs of the specification -/

/-- A city record with the given id, resources and damage level. -/
def mkCity (id res dmg : Int) : City :=
  { id := id, name := "", population := 0, damage_level := dmg, resources := res,
    latitude := 0, longitude := 0 }

/-- The graph obtained by `add_city` for each `(resources, damage)` pair, then `add_road` for
each `(src, dest, distance)` triple. -/
def buildGraph (cs : List (Int × Int)) (roads : List (Int × Int × Int)) : Graph :=
  let g1 := cs.foldl (fun g c => (g.add_city "" 0 c.2 c.1 0 0).1) Graph.empty
  roads.foldl (fun g r => g.add_road r.1 r.2.1 r.2.2) g1

def graphS1 : Graph := buildGraph [(0, 0), (0, 0)] [(0, 1, 10)]

def graphS2 : Graph := buildGraph [(0, 0), (0, 0), (0, 0)] [(0, 1, 5)]

def graphS3 : Graph :=
  buildGraph [(0, 0), (0, 0), (0, 0), (0, 0)] [(0, 1, 1), (1, 2, 1), (2, 3, 1), (0, 3, 10)]

/-! ## Reading the search state -/

/-- The entry `a[i]` as a total function: `d` outside the vector. -/
def getI {α : Type} (a : List α) (d : α) (i : Int) : α :=
  if 0 ≤ i then a.getD i.toNat d else d

/-- The value `dist[x]`. -/
def DState.dAt (s : DState) (x : Int) : Int := getI s.dist INT_MAX x

/-- The value `parent[x]`. -/
def DState.pAt (s : DState) (x : Int) : Int := getI s.parent (-1) x

/-- The value `visited[x]`. -/
def DState.vAt (s : DState) (x : Int) : Bool := getI s.visited false x

/-- The state after `pq.pop()`. -/
def DState.pop (s : DState) : DState := { s with pq := pqPop s.pq }

/-- The state after `pq.pop(); visited[u] = true`. -/
def DState.mark (s : DState) (u : Int) : DState :=
  { s with pq := pqPop s.pq, visited := s.visited.set u.toNat true }

/-- The guard of a relaxation. -/
def relaxes (add : Int → Int → Int) (u : Int) (e : Edge) (s : DState) : Prop :=
  s.vAt e.dest_id = false ∧ s.dAt u ≠ INT_MAX ∧ add (s.dAt u) e.distance < s.dAt e.dest_id

/-- One pass through the body of the edge loop, for in-range indices. -/
def relaxStep (add : Int → Int → Int) (u : Int) (e : Edge) (s : DState) : DState :=
  if s.vAt e.dest_id = false ∧ s.dAt u ≠ INT_MAX ∧ add (s.dAt u) e.distance < s.dAt e.dest_id then
    { s with dist := s.dist.set e.dest_id.toNat (add (s.dAt u) e.distance),
             parent := s.parent.set e.dest_id.toNat u,
             pq := pqPush s.pq (add (s.dAt u) e.distance, e.dest_id) }
  else s

/-- The whole edge loop, for in-range indices. -/
def relaxAll (add : Int → Int → Int) (u : Int) (es : List Edge) (s : DState) : DState :=
  es.foldl (fun t e => relaxStep add u e t) s

/-- Every `dest_id` in the adjacency list of a city `0 .. city_count-1` is such a city. -/
def Graph.edgesInRange (g : Graph) : Bool :=
  (List.range g.city_count.toNat).all fun (u : Nat) =>
    (g.get_edges (u : Int)).all fun e => decide (0 ≤ e.dest_id ∧ e.dest_id < g.city_count)

/-- Every `distance` in the adjacency list of a city `0 .. city_count-1` is non-negative. -/
def Graph.nonnegDistances (g : Graph) : Bool :=
  (List.range g.city_count.toNat).all fun (u : Nat) =>
    (g.get_edges (u : Int)).all fun e => decide (0 ≤ e.distance)

/-- The edge list `es` is a walk from `a` to `b`: each edge is in the adjacency list of the city
the walk has reached. -/
def isWalk (g : Graph) : Int → List Edge → Int → Prop
  | a, [], b => a = b
  | a, e :: es, b => e ∈ g.get_edges a ∧ isWalk g e.dest_id es b

instance instDecidableIsWalk (g : Graph) : (a : Int) → (es : List Edge) → (b : Int) →
    Decidable (isWalk g a es b)
  | a, [], b => inferInstanceAs (Decidable (a = b))
  | a, e :: es, b =>
    have := instDecidableIsWalk g e.dest_id es b
    inferInstanceAs (Decidable (e ∈ g.get_edges a ∧ isWalk g e.dest_id es b))

/-- The summed distance of a list of edges. -/
def walkLen (es : List Edge) : Int := (es.map (·.distance)).sum

/-- The edge list `es` joins the consecutive cities of `path`: its `i`-th edge is in the adjacency
list of `path[i]` and leads to `path[i+1]`. -/
def joins (g : Graph) : List Int → List Edge → Prop
  | [], _ => False
  | [_], es => es = []
  | _ :: _ :: _, [] => False
  | a :: b :: rest, e :: es => e ∈ g.get_edges a ∧ e.dest_id = b ∧ joins g (b :: rest) es

/-- Sizes and index ranges of the search state for `n` cities. -/
structure Shape (n : Nat) (s : DState) : Prop where
  hd : s.dist.length = n
  hp : s.parent.length = n
  hv : s.visited.length = n
  hq : ∀ p ∈ s.pq, 0 ≤ p.2 ∧ p.2 < n

/-- The list `l` follows the parent links from its head back to `src`; every city after the head
is finalised, and each link is an edge that accounts for the distance of the child. -/
def Chain (add : Int → Int → Int) (g : Graph) (n : Nat) (src : Int) (s : DState) :
    List Int → Prop
  | [] => False
  | [x] => x = src
  | x :: u :: rest =>
    s.pAt x = u ∧ (0 ≤ u ∧ u < n) ∧ s.vAt u = true ∧
      (∃ e ∈ g.get_edges u, e.dest_id = x ∧ s.dAt x = add (s.dAt u) e.distance) ∧
      x ∉ u :: rest ∧ Chain add g n src s (u :: rest)

/-- The invariant of the search loop that holds for every reading of the addition. -/
structure Basic (add : Int → Int → Int) (g : Graph) (n : Nat) (src : Int) (s : DState) :
    Prop where
  shape : Shape n s
  src_range : 0 ≤ src ∧ src < n
  src_dist : s.dAt src = 0
  src_parent : s.pAt src = -1
  src_first : s.vAt src = true ∨ ∀ x : Int, 0 ≤ x → x < n → x ≠ src → s.dAt x = INT_MAX
  dist_le : ∀ x : Int, 0 ≤ x → x < n → s.dAt x ≤ INT_MAX
  pq_reached : ∀ p ∈ s.pq, s.dAt p.2 ≠ INT_MAX
  chain : ∀ x : Int, 0 ≤ x → x < n → s.dAt x ≠ INT_MAX → ∃ l, Chain add g n src s (x :: l)

/-- The number of edge records of the cities not yet finalised, plus the queue length: it
decreases with every iteration of the search loop. -/
def measure (g : Graph) (n : Nat) (s : DState) : Nat :=
  s.pq.length +
    ((List.range n).map fun (u : Nat) =>
      if s.vAt (u : Int) then 0 else (g.get_edges (u : Int)).length).sum

/-- The proposition decided by `Graph.edgesInRange`, for `n` cities. -/
def InRange (g : Graph) (n : Nat) : Prop :=
  ∀ u : Int, 0 ≤ u → u < n → ∀ e ∈ g.get_edges u, 0 ≤ e.dest_id ∧ e.dest_id < n

/-- The proposition decided by `Graph.nonnegDistances`, for `n` cities. -/
def NonNeg (g : Graph) (n : Nat) : Prop :=
  ∀ u : Int, 0 ≤ u → u < n → ∀ e ∈ g.get_edges u, 0 ≤ e.distance

/-- The two ways in which the search loop ends from a state satisfying `P`: with an empty queue,
or by the `break` on popping `dest`. -/
def Stopped (P : DState → Prop) (dest : Int) (t : DState) : Prop :=
  (P t ∧ t.pq = []) ∨
    ∃ s1 top, P s1 ∧ pqTop s1.pq = some top ∧ top.2 = dest ∧ s1.vAt dest = false ∧
      t = s1.mark dest

/-- The result `dijkstra` returns when it finds no path. -/
def noPath : PathResult := { path := [], total_distance := -1, success := false }

/-- The state of `dijkstra` on entry to the search loop. -/
def initState (n : Nat) (src : Int) : DState :=
  { dist := (List.replicate n INT_MAX).set src.toNat 0,
    parent := List.replicate n (-1 : Int),
    visited := List.replicate n false,
    pq := pqPush [] (0, src) }

/-- The part of the optimality invariant that every step of the search keeps (exact addition,
distances `≥ 0`): tentative distances are non-negative, queue entries are not below the current
tentative distance, every reached city not yet finalised is in the queue with its tentative
distance, and finalised cities are not farther than the others. -/
structure Core (n : Nat) (s : DState) : Prop where
  nonneg : ∀ x : Int, 0 ≤ x → x < n → 0 ≤ s.dAt x
  pq_ge : ∀ p ∈ s.pq, s.dAt p.2 ≤ p.1
  pq_has : ∀ x : Int, 0 ≤ x → x < n → s.vAt x = false → s.dAt x ≠ INT_MAX →
    (s.dAt x, x) ∈ s.pq
  settled : ∀ x y : Int, 0 ≤ x → x < n → 0 ≤ y → y < n → s.vAt x = true → s.vAt y = false →
    s.dAt x ≤ s.dAt y

/-- The edges `es` out of `x` are relaxed: no endpoint is farther than through `x`. -/
def Relaxed (s : DState) (x : Int) (es : List Edge) : Prop :=
  ∀ e ∈ es, s.dAt e.dest_id ≤ s.dAt x + e.distance

/-- The optimality invariant at the head of the search loop. -/
structure Opt (g : Graph) (n : Nat) (s : DState) : Prop where
  core : Core n s
  relaxed : ∀ x : Int, 0 ≤ x → x < n → s.vAt x = true → Relaxed s x (g.get_edges x)

/-- The optimality invariant inside the edge loop of `u`, after the edges `done`. -/
structure Mid (g : Graph) (n : Nat) (u : Int) (done : List Edge) (s : DState) : Prop where
  core : Core n s
  cur : ∀ x : Int, 0 ≤ x → x < n → s.vAt x = true → s.dAt x ≤ s.dAt u
  relaxed : ∀ x : Int, 0 ≤ x → x < n → s.vAt x = true → x ≠ u → Relaxed s x (g.get_edges x)
  done : Relaxed s u done

/-- The invariant of the search loop under exact addition and non-negative distances. -/
def Full (g : Graph) (n : Nat) (src : Int) (s : DState) : Prop :=
  Basic exactAdd g n src s ∧ Opt g n s

/-- Two cities joined by one road of distance `INT_MAX`. -/
def graphMax : Graph := buildGraph [(0, 0), (0, 0)] [(0, 1, 2147483647)]

/-! ## Resource manager (`resources.cpp`) -/

/-- The constructor `ResourceManager::ResourceManager()`. -/
def ResourceManager.init : ResourceManager := { requests := [], next_id := 1 }

/-- The effect of `requests.insert(it, req)` after the scan
`while (it != requests.end() && it->priority >= priority) ++it`. -/
def insertRequest (req : DisasterRequest) : List DisasterRequest → List DisasterRequest
  | [] => [req]
  | r :: rs => if r.priority ≥ req.priority then r :: insertRequest req rs else req :: r :: rs

def ResourceManager.add_request (rm : ResourceManager) (city_id priority required_resources : Int) :
    ResourceManager × Int :=
  let req : DisasterRequest :=
    { id := rm.next_id, city_id := city_id, priority := priority,
      required_resources := required_resources, status := "pending" }
  ({ requests := insertRequest req rm.requests, next_id := rm.next_id + 1 }, req.id)

def ResourceManager.get_all_requests (rm : ResourceManager) : List DisasterRequest := rm.requests

def ResourceManager.clear (_rm : ResourceManager) : ResourceManager :=
  { requests := [], next_id := 1 }

/-- The test `potential.id != req.city_id && potential.resources >= req.required_resources &&
potential.damage_level < 5` of the donor scan. -/
def viable (req : DisasterRequest) (potential : City) : Bool :=
  decide (potential.id ≠ req.city_id) && decide (potential.resources ≥ req.required_resources) &&
    decide (potential.damage_level < 5)

/-- The loop `for (auto& potential : graph.cities)` of one request, over the cities still to
come; `best` is the pair `(best_support_id, best_distance)`. -/
def scanDonors (add : Int → Int → Int) (g : Graph) (req : DisasterRequest) :
    List City → Int × Int → Except Fault (Int × Int)
  | [], best => .ok best
  | potential :: rest, best =>
    if viable req potential then
      match dijkstra add g req.city_id potential.id with
      | .error f => .error f
      | .ok path =>
        if path.success = true ∧ path.total_distance ≥ 0 ∧ path.total_distance < best.2 then
          scanDonors add g req rest (potential.id, path.total_distance)
        else scanDonors add g req rest best
    else scanDonors add g req rest best

/-- The statement `support->resources -= amount` on the record at position `i` of the cities,
read in exact integers; `deductSub` has the subtraction of `int` as a parameter. -/
def deductAt : List City → Nat → Int → List City
  | [], _, _ => []
  | c :: cs, 0, amount => { c with resources := c.resources - amount } :: cs
  | c :: cs, i + 1, amount => c :: deductAt cs i amount

/-- The body of the request loop of `process_allocations` for one pending request: the result
record, the graph and the request afterwards. -/
def processRequest (add : Int → Int → Int) (g : Graph) (req : DisasterRequest) :
    Except Fault (AllocationResult × Graph × DisasterRequest) :=
  match scanDonors add g req g.cities (-1, INT_MAX) with
  | .error f => .error f
  | .ok (best_support_id, best_distance) =>
    if best_support_id ≠ -1 then
      let g1 : Graph :=
        match g.find_city_by_id best_support_id with
        | some i => { g with cities := deductAt g.cities i req.required_resources }
        | none => g
      .ok ({ request_id := req.id, affected_city_id := req.city_id,
             support_city_id := best_support_id, allocated_resources := req.required_resources,
             distance := best_distance, status := "allocated" },
           g1, { req with status := "allocated" })
    else
      .ok ({ request_id := req.id, affected_city_id := req.city_id,
             support_city_id := best_support_id, allocated_resources := 0,
             distance := best_distance, status := "no_resources" },
           g, req)

/-- The loop `for (auto& req : requests)` of `process_allocations`, over the requests still to
come: the results, the graph and the requests afterwards. -/
def processRequests (add : Int → Int → Int) :
    Graph → List DisasterRequest →
      Except Fault (List AllocationResult × Graph × List DisasterRequest)
  | g, [] => .ok ([], g, [])
  | g, req :: rest =>
    if req.status ≠ "pending" then
      match processRequests add g rest with
      | .error f => .error f
      | .ok (results, g1, rest1) => .ok (results, g1, req :: rest1)
    else
      match processRequest add g req with
      | .error f => .error f
      | .ok (res, g1, req1) =>
        match processRequests add g1 rest with
        | .error f => .error f
        | .ok (results, g2, rest1) => .ok (res :: results, g2, req1 :: rest1)

def ResourceManager.process_allocations (add : Int → Int → Int) (rm : ResourceManager)
    (g : Graph) : Except Fault (List AllocationResult × ResourceManager × Graph) :=
  match processRequests add g rm.requests with
  | .error f => .error f
  | .ok (results, g1, requests1) => .ok (results, { rm with requests := requests1 }, g1)

/-- The manager after `add_request` for each `(city_id, priority, required_resources)`. -/
def buildRequests (rs : List (Int × Int × Int)) : ResourceManager :=
  rs.foldl (fun rm r => (rm.add_request r.1 r.2.1 r.2.2).1) ResourceManager.init

/-- Scenario S5: A(res 0, dmg 5), B(res 10), C(res 10); roads (0,1,100), (0,2,50), (1,2,10). -/
def graphS5 : Graph := buildGraph [(0, 5), (10, 0), (10, 0)] [(0, 1, 100), (0, 2, 50), (1, 2, 10)]

/-- Scenario S6: A(res 0, dmg 0), B(res 10, dmg 5), no road. -/
def graphS6 : Graph := buildGraph [(0, 0), (10, 5)] []

/-- Cities 0 (res 0), 1 (res 10), 2 (res 10) with roads (0,1,-5) and (0,2,50). -/
def graphNeg : Graph := buildGraph [(0, 0), (10, 0), (10, 0)] [(0, 1, -5), (0, 2, 50)]


/-! ## Reading a pass of the allocator -/

/-- The city is a viable donor for the request and is reached by `dijkstra` from the affected
city with the non-negative total distance `d`: the conditions under which the scan considers
it. -/
def Candidate (add : Int → Int → Int) (g : Graph) (req : DisasterRequest) (c : City)
    (d : Int) : Prop :=
  viable req c = true ∧
    ∃ p, dijkstra add g req.city_id c.id = .ok p ∧ p.success = true ∧ 0 ≤ p.total_distance ∧
      p.total_distance = d

/-- The result record of a request that found the donor `k` at distance `d`. -/
def allocatedResult (req : DisasterRequest) (k d : Int) : AllocationResult :=
  { request_id := req.id, affected_city_id := req.city_id, support_city_id := k,
    allocated_resources := req.required_resources, distance := d, status := "allocated" }

/-- The result record of a request that found no donor. -/
def noResourcesResult (req : DisasterRequest) : AllocationResult :=
  { request_id := req.id, affected_city_id := req.city_id, support_city_id := -1,
    allocated_resources := 0, distance := INT_MAX, status := "no_resources" }

/-- The result `res` of a pass over `reqs` from the graph `g` belongs to the pending request
`req`, which the pass reached in the graph state `gpre` (after the deductions of the earlier
requests) and left as `req1`, at the same position of the request list `reqs1` after the
pass. -/
def StateBefore (add : Int → Int → Int) (g : Graph) (reqs reqs1 : List DisasterRequest)
    (gpre : Graph) (req req1 : DisasterRequest) (res : AllocationResult) : Prop :=
  ∃ pre post rs pre1 post1 g1,
    reqs = pre ++ req :: post ∧ reqs1 = pre1 ++ req1 :: post1 ∧ pre1.length = pre.length ∧
      req.status = "pending" ∧ processRequests add g pre = .ok (rs, gpre, pre1) ∧
      processRequest add gpre req = .ok (res, g1, req1)

/-- The city ids are dense: `city_count` is the number of cities and the `i`-th city has
id `i`. -/
def Graph.denseIds (g : Graph) : Bool :=
  decide (g.city_count = g.cities.length) &&
    decide (g.cities.map (·.id) = (List.range g.cities.length).map (fun (i : Nat) => (i : Int)))


/-- The test `req.status == "pending"` of the request loop. -/
def isPending (req : DisasterRequest) : Bool := decide (req.status = "pending")

/-- The test `res.status == "allocated"` on a result record. -/
def isAllocated (res : AllocationResult) : Bool := decide (res.status = "allocated")

/-- The graph `g1` has the cities of `g`, record by record, up to their `resources`, and the
adjacency lists and `city_count` of `g`. -/
def SameShape (g g1 : Graph) : Prop :=
  g1.adj_list = g.adj_list ∧ g1.city_count = g.city_count ∧
    g1.cities.map (fun c => { c with resources := 0 }) =
      g.cities.map (fun c => { c with resources := 0 })

/-- The graph is one on which `dijkstra` between city ids is defined: `city_count` is not
negative, the edges of the cities lead to cities, and every city id is below `city_count`. -/
def Graph.wellFormed (g : Graph) : Bool :=
  decide (0 ≤ g.city_count) && g.edgesInRange &&
    g.cities.all (fun c => decide (0 ≤ c.id ∧ c.id < g.city_count))

/-- Every request names a city of the graph (nothing to check for a graph without cities). -/
def validRequests (g : Graph) (reqs : List DisasterRequest) : Bool :=
  reqs.all (fun r => decide (g.city_count = 0 ∨ (0 ≤ r.city_id ∧ r.city_id < g.city_count)))

/-- The manager with one request on city 0 for 5 units. -/
def requestsS5 : ResourceManager := buildRequests [(0, 1, 5)]


/-- The proposition decided by `Graph.wellFormed`, for `n` cities. -/
def WF (g : Graph) (n : Nat) : Prop :=
  g.city_count = n ∧ InRange g n ∧ ∀ c ∈ g.cities, 0 ≤ c.id ∧ c.id < n

/-- The support city of the result `res` is the nearest viable donor of the request `req` in
the graph `gpre`: a city `k` of the graph with the id `res.support_city_id` that passes the
viability test, that `dijkstra` reaches from the affected city with the non-negative total
`res.distance`, and that beats every other viable donor `j` which `dijkstra` reaches with a
non-negative total: by distance, or at equal distance by the lower id. -/
def NearestDonor (add : Int → Int → Int) (gpre : Graph) (req : DisasterRequest)
    (res : AllocationResult) : Prop :=
  ∃ k ∈ gpre.cities, k.id = res.support_city_id ∧
    (k.id ≠ req.city_id ∧ k.resources ≥ req.required_resources ∧ k.damage_level < 5) ∧
    (∃ p, dijkstra add gpre req.city_id k.id = .ok p ∧ p.success = true ∧
      p.total_distance = res.distance ∧ 0 ≤ res.distance) ∧
    ∀ j ∈ gpre.cities, j.id ≠ k.id →
      (j.id ≠ req.city_id ∧ j.resources ≥ req.required_resources ∧ j.damage_level < 5) →
      ∀ q, dijkstra add gpre req.city_id j.id = .ok q → q.success = true →
        0 ≤ q.total_distance →
        res.distance < q.total_distance ∨ (res.distance = q.total_distance ∧ k.id < j.id)

/-- The graph has a city that passes the viability test for `req` and that `dijkstra` reaches
from the affected city with a non-negative total distance. -/
def HasDonor (add : Int → Int → Int) (gpre : Graph) (req : DisasterRequest) : Prop :=
  ∃ c ∈ gpre.cities,
    (c.id ≠ req.city_id ∧ c.resources ≥ req.required_resources ∧ c.damage_level < 5) ∧
    ∃ p, dijkstra add gpre req.city_id c.id = .ok p ∧ p.success = true ∧ 0 ≤ p.total_distance

/-- Cities 0 (res 0) and 1 (res 10) joined by a road of distance -5. -/
def graphNegOnly : Graph := buildGraph [(0, 0), (10, 0)] [(0, 1, -5)]


/-- Scenario S4: requests on cities 0, 1, 2 with priorities 1, 5, 5. -/
def requestsS4 : ResourceManager := buildRequests [(0, 1, 5), (1, 5, 3), (2, 5, 2)]


/-- The city record `c2` is `c` with possibly fewer resources. -/
def CityLe (c c2 : City) : Prop :=
  c2.id = c.id ∧ c2.damage_level = c.damage_level ∧ c2.resources ≤ c.resources

/-- The graph `g2` is `g` with possibly fewer resources in its cities. -/
def ResLe (g g2 : Graph) : Prop :=
  g2.adj_list = g.adj_list ∧ g2.city_count = g.city_count ∧ List.Forall₂ CityLe g.cities g2.cities


/-- The order of the request list: an earlier entry has a priority at least that of a later
one, and at equal priority the smaller id. -/
def Ordered (reqs : List DisasterRequest) : Prop :=
  List.Pairwise (fun a b => a.priority ≥ b.priority ∧ (a.priority = b.priority → a.id < b.id))
    reqs

/-- The states of a `ResourceManager` that calls of `add_request`, `process_allocations` (on
any graph, when it returns) and `clear` produce from the initial state. -/
inductive RMReachable : ResourceManager → Prop where
  | init : RMReachable ResourceManager.init
  | add_request (rm : ResourceManager) (city_id priority required_resources : Int) :
      RMReachable rm → RMReachable (rm.add_request city_id priority required_resources).1
  | process_allocations (add : Int → Int → Int) (rm rm1 : ResourceManager) (g g1 : Graph)
      (results : List AllocationResult) :
      RMReachable rm → rm.process_allocations add g = .ok (results, rm1, g1) → RMReachable rm1
  | clear (rm : ResourceManager) : RMReachable rm → RMReachable rm.clear


/-! ## Reachable graph states -/

/-- The states of a `Graph` that calls of `add_city`, `add_road` (with any arguments) and
`clear` produce from the empty graph. -/
inductive GraphReachable : Graph → Prop where
  | empty : GraphReachable Graph.empty
  | add_city (g : Graph) (name : String) (pop damage res : Int) (lat lon : Nat) :
      GraphReachable g → GraphReachable (g.add_city name pop damage res lat lon).1
  | add_road (g : Graph) (src dest dist : Int) :
      GraphReachable g → GraphReachable (g.add_road src dest dist)
  | clear (g : Graph) : GraphReachable g → GraphReachable g.clear

/-- The states of a `Graph` reached as in `GraphReachable`, with every `add_road` called on
two city ids in `[0, city_count)` of the state it is called on. -/
inductive GraphValid : Graph → Prop where
  | empty : GraphValid Graph.empty
  | add_city (g : Graph) (name : String) (pop damage res : Int) (lat lon : Nat) :
      GraphValid g → GraphValid (g.add_city name pop damage res lat lon).1
  | add_road (g : Graph) (src dest dist : Int) :
      GraphValid g → 0 ≤ src ∧ src < g.city_count → 0 ≤ dest ∧ dest < g.city_count →
      GraphValid (g.add_road src dest dist)
  | clear (g : Graph) : GraphValid g → GraphValid g.clear

/-- Every `Edge` has its mirror: an edge to `v` in the list of `u` comes with an edge to `u` of
the same distance in the list of `v`. -/
def Mirrored (g : Graph) : Prop :=
  ∀ (u : Int) (e : Edge), e ∈ g.get_edges u →
    ({ dest_id := u, distance := e.distance } : Edge) ∈ g.get_edges e.dest_id

/-- Only cities have edges: a non-empty adjacency list belongs to an id in
`[0, city_count)`. -/
def KeysInRange (g : Graph) : Prop :=
  0 ≤ g.city_count ∧ ∀ k : Int, g.get_edges k ≠ [] → 0 ≤ k ∧ k < g.city_count

/-- The graph after `add_road(0, 1, 7)` on the empty graph: a road laid before its cities
exist. -/
def graphEarlyRoad : Graph := Graph.empty.add_road 0 1 7

/-- How a pass may change one request: every field but `status` stays, and the status stays or
goes from "pending" to "allocated". -/
def Evolves (r r1 : DisasterRequest) : Prop :=
  r1.id = r.id ∧ r1.city_id = r.city_id ∧ r1.priority = r.priority ∧
    r1.required_resources = r.required_resources ∧
    (r1.status = r.status ∨ (r.status = "pending" ∧ r1.status = "allocated"))

/-- The request list that the returned results prescribe: a request that is not pending stays
as it is; the pending requests take the results in order, and a pending request becomes
"allocated" exactly when its result has the status "allocated". -/
def statusAfter : List DisasterRequest → List AllocationResult → List DisasterRequest
  | [], _ => []
  | req :: rest, results =>
    if req.status ≠ "pending" then req :: statusAfter rest results
    else
      match results with
      | [] => req :: statusAfter rest []
      | res :: more =>
        (if res.status = "allocated" then { req with status := "allocated" } else req) ::
          statusAfter rest more

/-- The sum of `allocated_resources` over the results whose `support_city_id` is `id`. -/
def chargedTo (results : List AllocationResult) (id : Int) : Int :=
  ((results.filter (fun r => decide (r.support_city_id = id))).map (·.allocated_resources)).sum

/-- The city with `amount` taken off its resources. -/
def City.charge (c : City) (amount : Int) : City := { c with resources := c.resources - amount }

/-- One iteration of the search loop on a non-empty queue with top `top`, with `k` standing for
the rest of the loop. -/
def loopBody (add : Int → Int → Int) (g : Graph) (dest : Int)
    (k : DState → Except Fault DState) (s : DState) (top : Int × Int) : Except Fault DState :=
  match rd s.visited top.2 with
  | .error f => .error f
  | .ok vis =>
    if vis then k { s with pq := pqPop s.pq }
    else
      match wr s.visited top.2 true with
      | .error f => .error f
      | .ok visited1 =>
        if top.2 = dest then .ok { s with pq := pqPop s.pq, visited := visited1 }
        else
          match relaxEdges add top.2 (g.get_edges top.2)
              { s with pq := pqPop s.pq, visited := visited1 } with
          | .error f => .error f
          | .ok s3 => k s3

/-! ## The sums evaluated by the relaxation -/

/-- The operands `(dist[u], weight)` of the sums `dist[u] + weight` the edge loop evaluates, in
the order of evaluation: the guard `!visited[v] && dist[u] != INT_MAX && dist[u] + weight <
dist[v]` evaluates its sum only when the first two conjuncts hold. -/
def relaxSums (add : Int → Int → Int) (u : Int) : List Edge → DState → List (Int × Int)
  | [], _ => []
  | edge :: rest, s =>
    let v := edge.dest_id
    let weight := edge.distance
    match rd s.visited v with
    | .error _ => []
    | .ok vis =>
      if vis then relaxSums add u rest s
      else
        match rd s.dist u with
        | .error _ => []
        | .ok du =>
          if du = INT_MAX then relaxSums add u rest s
          else
            match rd s.dist v with
            | .error _ => []
            | .ok dv =>
              (du, weight) ::
                if add du weight < dv then
                  match wr s.dist v (add du weight), wr s.parent v u with
                  | .ok dist1, .ok parent1 =>
                    relaxSums add u rest
                      { s with dist := dist1, parent := parent1,
                               pq := pqPush s.pq (add du weight, v) }
                  | _, _ => []
                else relaxSums add u rest s

/-- The operands of the sums evaluated by the loop `while (!pq.empty())`, in the order of
evaluation. -/
def searchSums (add : Int → Int → Int) (g : Graph) (dest : Int) :
    Nat → DState → List (Int × Int)
  | fuel, s =>
    match pqTop s.pq with
    | none => []
    | some top =>
      match fuel with
      | 0 => []
      | fuel1 + 1 =>
        let u := top.2
        let s1 := { s with pq := pqPop s.pq }
        match rd s1.visited u with
        | .error _ => []
        | .ok vis =>
          if vis then searchSums add g dest fuel1 s1
          else
            match wr s1.visited u true with
            | .error _ => []
            | .ok visited1 =>
              let s2 := { s1 with visited := visited1 }
              if u = dest then []
              else
                relaxSums add u (g.get_edges u) s2 ++
                  match relaxEdges add u (g.get_edges u) s2 with
                  | .error _ => []
                  | .ok s3 => searchSums add g dest fuel1 s3

/-- The operands of the sums `dist[u] + weight` evaluated by a call of `dijkstra`. -/
def dijkstraSums (add : Int → Int → Int) (g : Graph) (src dest : Int) : List (Int × Int) :=
  if g.city_count = 0 then []
  else if g.city_count < 0 then []
  else
    let n := g.city_count.toNat
    let dist := List.replicate n INT_MAX
    let parent := List.replicate n (-1 : Int)
    let visited := List.replicate n false
    match wr dist src 0 with
    | .error _ => []
    | .ok dist0 =>
      let s0 : DState :=
        { dist := dist0, parent := parent, visited := visited, pq := pqPush [] (0, src) }
      searchSums add g dest (searchFuel g n) s0

/-- The summed distance of the `Edge` records in the adjacency lists of the cities
`0 .. n-1`. -/
def edgeTotal (g : Graph) (n : Nat) : Int :=
  ((List.range n).map (fun (u : Nat) => walkLen (g.get_edges (u : Int)))).sum

/-- The summed distance of the `Edge` records in the adjacency lists of the finalised cities. -/
def visitedWeight (g : Graph) (n : Nat) (s : DState) : Int :=
  ((List.range n).map fun (u : Nat) =>
    if s.vAt (u : Int) then walkLen (g.get_edges (u : Int)) else 0).sum

/-- Every tentative distance other than the sentinel is at most the summed distance of the edge
records of the finalised cities. -/
def Bounded (g : Graph) (n : Nat) (s : DState) : Prop :=
  ∀ x : Int, 0 ≤ x → x < n → s.dAt x ≠ INT_MAX → s.dAt x ≤ visitedWeight g n s

/-- The addition `add` is exact on the operands `a ≥ 0`, `b ≥ 0` with `a` not the sentinel and
`a + b ≤ INT_MAX`; nothing is assumed of it elsewhere. -/
def ExactInRange (add : Int → Int → Int) : Prop :=
  ∀ a b : Int, a ≠ INT_MAX → 0 ≤ a → 0 ≤ b → a + b ≤ INT_MAX → add a b = a + b

/-- Three cities in a row, each road of distance `2^30`: the two roads sum to `2^31`. -/
def graphWide : Graph :=
  buildGraph [(0, 0), (0, 0), (0, 0)] [(0, 1, 1073741824), (1, 2, 1073741824)]

/-! ## The deduction in machine arithmetic -/

/-- Exact integer subtraction: the reading of `resources -= amount` without overflow. -/
def exactSub (a b : Int) : Int := a - b

/-- Subtraction of two `int` values with 32-bit wrap-around. -/
def wrapSub (a b : Int) : Int := wrap32 (a - b)

/-- The statement `support->resources -= amount` on the record at position `i` of the cities,
with `sub` for the subtraction of `int`; `deductAt` is its reading in exact integers. -/
def deductSub (sub : Int → Int → Int) : List City → Nat → Int → List City
  | [], _, _ => []
  | c :: cs, 0, amount => { c with resources := sub c.resources amount } :: cs
  | c :: cs, i + 1, amount => c :: deductSub sub cs i amount

/-- The body of the request loop of `process_allocations` for one pending request, with `sub`
for the subtraction of `int` in `support->resources -= req.required_resources`: the result
record, the graph and the request afterwards. -/
def processRequestSub (add sub : Int → Int → Int) (g : Graph) (req : DisasterRequest) :
    Except Fault (AllocationResult × Graph × DisasterRequest) :=
  match scanDonors add g req g.cities (-1, INT_MAX) with
  | .error f => .error f
  | .ok (best_support_id, best_distance) =>
    if best_support_id ≠ -1 then
      let g1 : Graph :=
        match g.find_city_by_id best_support_id with
        | some i => { g with cities := deductSub sub g.cities i req.required_resources }
        | none => g
      .ok ({ request_id := req.id, affected_city_id := req.city_id,
             support_city_id := best_support_id, allocated_resources := req.required_resources,
             distance := best_distance, status := "allocated" },
           g1, { req with status := "allocated" })
    else
      .ok ({ request_id := req.id, affected_city_id := req.city_id,
             support_city_id := best_support_id, allocated_resources := 0,
             distance := best_distance, status := "no_resources" },
           g, req)

/-- The loop `for (auto& req : requests)` of `process_allocations`, over the requests still to
come, with `sub` for the subtraction of `int`: the results, the graph and the requests
afterwards. -/
def processRequestsSub (add sub : Int → Int → Int) :
    Graph → List DisasterRequest →
      Except Fault (List AllocationResult × Graph × List DisasterRequest)
  | g, [] => .ok ([], g, [])
  | g, req :: rest =>
    if req.status ≠ "pending" then
      match processRequestsSub add sub g rest with
      | .error f => .error f
      | .ok (results, g1, rest1) => .ok (results, g1, req :: rest1)
    else
      match processRequestSub add sub g req with
      | .error f => .error f
      | .ok (res, g1, req1) =>
        match processRequestsSub add sub g1 rest with
        | .error f => .error f
        | .ok (results, g2, rest1) => .ok (res :: results, g2, req1 :: rest1)

/-- The method `process_allocations` with `add` for the addition of `int` in `dijkstra` and
`sub` for the subtraction of `int` in the deduction; `process_allocations add` is its reading
with exact subtraction. -/
def ResourceManager.process_allocations_sub (add sub : Int → Int → Int) (rm : ResourceManager)
    (g : Graph) : Except Fault (List AllocationResult × ResourceManager × Graph) :=
  match processRequestsSub add sub g rm.requests with
  | .error f => .error f
  | .ok (results, g1, requests1) => .ok (results, { rm with requests := requests1 }, g1)

/-- The subtraction `sub` is exact on the operands `0 ≤ b ≤ a ≤ INT_MAX`; nothing is assumed of
it elsewhere. -/
def ExactSubInRange (sub : Int → Int → Int) : Prop :=
  ∀ a b : Int, 0 ≤ b → b ≤ a → a ≤ INT_MAX → sub a b = a - b

/-- Cities 0 (resources 0) and 1 (resources `INT_MAX`) joined by a road of distance 1. -/
def graphRich : Graph := buildGraph [(0, 0), (2147483647, 0)] [(0, 1, 1)]

/-- One request on city 0 for `-1` units. -/
def requestsNeg : ResourceManager := buildRequests [(0, 1, -1)]

/-! ## Evaluation on the scenario graphs -/

theorem graphS1_eval :
    dijkstra exactAdd graphS1 0 1 =
      .ok { path := [0, 1], total_distance := 10, success := true } := by
  decide!

theorem graphS2_eval :
    dijkstra exactAdd graphS2 0 2 =
      .ok { path := [], total_distance := -1, success := false } := by
  decide!

theorem graphS3_eval :
    dijkstra exactAdd graphS3 0 3 =
      .ok { path := [0, 1, 2, 3], total_distance := 3, success := true } := by
  decide!

/-! ## Vectors -/

theorem rd_ok {α : Type} (a : List α) (d : α) (i : Int) (h0 : 0 ≤ i) (h1 : i < a.length) :
    rd a i = .ok (getI a d i) := by
  have h2 : i.toNat < a.length := by omega
  simp [rd, getI, h0, List.getD, List.getElem?_eq_getElem h2]

theorem rd_ok_inv {α : Type} (a : List α) (d : α) (i : Int) (x : α) (h : rd a i = .ok x) :
    0 ≤ i ∧ i < a.length ∧ getI a d i = x := by
  unfold rd at h
  split at h
  · rename_i h0
    split at h
    · rename_i y hy
      have h2 := (List.getElem?_eq_some_iff.mp hy).1
      injection h with h
      refine ⟨h0, by omega, ?_⟩
      simp [getI, h0, List.getD, hy, h]
    · cases h
  · cases h

theorem wr_ok {α : Type} (a : List α) (i : Int) (x : α) (h0 : 0 ≤ i) (h1 : i < a.length) :
    wr a i x = .ok (a.set i.toNat x) := by
  have h2 : i.toNat < a.length := by omega
  simp [wr, h0, h2]

theorem wr_ok_inv {α : Type} (a b : List α) (i : Int) (x : α) (h : wr a i x = .ok b) :
    0 ≤ i ∧ i < a.length ∧ b = a.set i.toNat x := by
  unfold wr at h
  split at h
  · rename_i h0
    injection h with h
    exact ⟨h0.1, by omega, h.symm⟩
  · cases h

theorem getI_set_eq {α : Type} (a : List α) (d : α) (i : Int) (x : α) (h0 : 0 ≤ i)
    (h1 : i < a.length) : getI (a.set i.toNat x) d i = x := by
  have h2 : i.toNat < a.length := by omega
  simp [getI, h0, List.getD, List.getElem?_set, h2]

theorem getI_set_ne {α : Type} (a : List α) (d : α) (i j : Int) (x : α) (h0 : 0 ≤ i)
    (hne : j ≠ i) : getI (a.set i.toNat x) d j = getI a d j := by
  unfold getI
  split
  · rename_i hj
    have h2 : i.toNat ≠ j.toNat := by omega
    simp [List.getD, List.getElem?_set, h2]
  · rfl

theorem getI_replicate {α : Type} (n : Nat) (d : α) (i : Int) :
    getI (List.replicate n d) d i = d := by
  unfold getI
  split
  · rw [List.getD_eq_getElem?_getD, List.getElem?_replicate]
    split <;> rfl
  · rfl

/-! ## Priority queue -/

theorem pqTop_eq_none {l : List (Int × Int)} (h : pqTop l = none) : l = [] := by
  cases l with
  | nil => rfl
  | cons x xs =>
    simp only [pqTop] at h
    split at h
    · cases h
    · split at h <;> cases h

theorem pqTop_mem {l : List (Int × Int)} {m : Int × Int} (h : pqTop l = some m) : m ∈ l := by
  induction l generalizing m with
  | nil => simp [pqTop] at h
  | cons x xs ih =>
    simp only [pqTop] at h
    split at h
    · injection h with h; simp [h]
    · rename_i m1 hm1
      split at h
      · injection h with h; subst h; exact List.mem_cons_of_mem _ (ih hm1)
      · injection h with h; simp [h]

theorem pqTop_le {l : List (Int × Int)} {m : Int × Int} (h : pqTop l = some m) :
    ∀ y ∈ l, m.1 ≤ y.1 := by
  induction l generalizing m with
  | nil => simp
  | cons x xs ih =>
    simp only [pqTop] at h
    split at h
    · rename_i hn
      injection h with h
      have := pqTop_eq_none hn
      subst this; subst h
      simp
    · rename_i m1 hm1
      have ih1 := ih hm1
      split at h
      · rename_i hlt
        injection h with h; subst h
        intro y hy
        rcases List.mem_cons.mp hy with rfl | hy
        · simp only [pairLt, Bool.or_eq_true, decide_eq_true_eq, Bool.and_eq_true, beq_iff_eq] at hlt
          omega
        · exact ih1 y hy
      · rename_i hlt
        injection h with h; subst h
        intro y hy
        rcases List.mem_cons.mp hy with rfl | hy
        · exact le_refl _
        · have := ih1 y hy
          simp only [pairLt, Bool.or_eq_true, decide_eq_true_eq, Bool.and_eq_true, beq_iff_eq,
            not_or, not_and] at hlt
          omega

theorem pqPop_eq {l : List (Int × Int)} {m : Int × Int} (h : pqTop l = some m) :
    pqPop l = l.erase m := by
  simp [pqPop, h]

theorem pqPop_length {l : List (Int × Int)} {m : Int × Int} (h : pqTop l = some m) :
    (pqPop l).length + 1 = l.length := by
  have hm := pqTop_mem h
  rw [pqPop_eq h, List.length_erase_of_mem hm]
  have : 0 < l.length := List.length_pos_of_mem hm
  omega

theorem mem_pqPop {l : List (Int × Int)} {y : Int × Int} (hy : y ∈ pqPop l) : y ∈ l := by
  unfold pqPop at hy
  split at hy
  · exact hy
  · exact List.mem_of_mem_erase hy

theorem mem_pqPop_of_ne {l : List (Int × Int)} {m y : Int × Int} (h : pqTop l = some m)
    (hy : y ∈ l) (hne : y ≠ m) : y ∈ pqPop l := by
  rw [pqPop_eq h]
  exact (List.mem_erase_of_ne hne).mpr hy

/-! ## Effect of the state changes on the vectors -/

@[simp] theorem pop_dAt (s : DState) (x : Int) : s.pop.dAt x = s.dAt x := rfl

@[simp] theorem pop_pAt (s : DState) (x : Int) : s.pop.pAt x = s.pAt x := rfl

@[simp] theorem pop_vAt (s : DState) (x : Int) : s.pop.vAt x = s.vAt x := rfl

@[simp] theorem mark_dAt (s : DState) (u x : Int) : (s.mark u).dAt x = s.dAt x := rfl

@[simp] theorem mark_pAt (s : DState) (u x : Int) : (s.mark u).pAt x = s.pAt x := rfl

theorem mark_vAt {n : Nat} {s : DState} (hs : Shape n s) {u : Int} (h0 : 0 ≤ u) (h1 : u < n)
    (x : Int) : (s.mark u).vAt x = if x = u then true else s.vAt x := by
  have hlen : u < s.visited.length := by rw [hs.hv]; exact h1
  by_cases hx : x = u
  · subst hx
    simp [DState.mark, DState.vAt, getI_set_eq _ _ _ _ h0 hlen]
  · simp [DState.mark, DState.vAt, getI_set_ne _ _ _ _ _ h0 hx, hx]

theorem shape_pop {n : Nat} {s : DState} (hs : Shape n s) : Shape n s.pop :=
  ⟨hs.hd, hs.hp, hs.hv, fun p hp => hs.hq p (mem_pqPop hp)⟩

theorem shape_mark {n : Nat} {s : DState} (hs : Shape n s) (u : Int) : Shape n (s.mark u) :=
  ⟨hs.hd, hs.hp, by simp [DState.mark, hs.hv], fun p hp => hs.hq p (mem_pqPop hp)⟩

theorem relaxStep_of_not {add : Int → Int → Int} {u : Int} {e : Edge} {s : DState}
    (h : ¬ relaxes add u e s) : relaxStep add u e s = s := by
  unfold relaxes at h
  unfold relaxStep
  rw [if_neg h]

theorem relaxStep_vAt (add : Int → Int → Int) (u : Int) (e : Edge) (s : DState) (x : Int) :
    (relaxStep add u e s).vAt x = s.vAt x := by
  unfold relaxStep
  split <;> rfl

theorem relaxStep_dAt {add : Int → Int → Int} {n : Nat} {u : Int} {e : Edge} {s : DState}
    (hs : Shape n s) (he : 0 ≤ e.dest_id ∧ e.dest_id < n) (h : relaxes add u e s) (x : Int) :
    (relaxStep add u e s).dAt x =
      if x = e.dest_id then add (s.dAt u) e.distance else s.dAt x := by
  have hlen : e.dest_id < s.dist.length := by rw [hs.hd]; exact he.2
  unfold relaxes at h
  unfold relaxStep
  rw [if_pos h]
  by_cases hx : x = e.dest_id
  · subst hx
    simp [DState.dAt, getI_set_eq _ _ _ _ he.1 hlen]
  · simp [DState.dAt, getI_set_ne _ _ _ _ _ he.1 hx, hx]

theorem relaxStep_pAt {add : Int → Int → Int} {n : Nat} {u : Int} {e : Edge} {s : DState}
    (hs : Shape n s) (he : 0 ≤ e.dest_id ∧ e.dest_id < n) (h : relaxes add u e s) (x : Int) :
    (relaxStep add u e s).pAt x = if x = e.dest_id then u else s.pAt x := by
  have hlen : e.dest_id < s.parent.length := by rw [hs.hp]; exact he.2
  unfold relaxes at h
  unfold relaxStep
  rw [if_pos h]
  by_cases hx : x = e.dest_id
  · subst hx
    simp [DState.pAt, getI_set_eq _ _ _ _ he.1 hlen]
  · simp [DState.pAt, getI_set_ne _ _ _ _ _ he.1 hx, hx]

theorem relaxStep_pq {add : Int → Int → Int} {u : Int} {e : Edge} {s : DState}
    (h : relaxes add u e s) :
    (relaxStep add u e s).pq = (add (s.dAt u) e.distance, e.dest_id) :: s.pq := by
  unfold relaxes at h
  unfold relaxStep
  rw [if_pos h]
  rfl

theorem shape_relaxStep {add : Int → Int → Int} {n : Nat} {u : Int} {e : Edge} {s : DState}
    (hs : Shape n s) (he : 0 ≤ e.dest_id ∧ e.dest_id < n) : Shape n (relaxStep add u e s) := by
  unfold relaxStep
  split
  · refine ⟨by simp [hs.hd], by simp [hs.hp], hs.hv, ?_⟩
    intro p hp
    simp only [pqPush, List.mem_cons] at hp
    rcases hp with rfl | hp
    · exact he
    · exact hs.hq p hp
  · exact hs

theorem shape_relaxAll {add : Int → Int → Int} {n : Nat} {u : Int} :
    ∀ (es : List Edge) (s : DState), Shape n s →
      (∀ e ∈ es, 0 ≤ e.dest_id ∧ e.dest_id < n) → Shape n (relaxAll add u es s) := by
  intro es
  induction es with
  | nil => intro s hs _; exact hs
  | cons e es ih =>
    intro s hs hr
    exact ih _ (shape_relaxStep hs (hr e (List.mem_cons_self _ _)))
      (fun e1 he1 => hr e1 (List.mem_cons_of_mem _ he1))

/-- Inside the index range the edge loop never faults and is the fold of `relaxStep`. -/
theorem relaxEdges_eq {add : Int → Int → Int} {n : Nat} {u : Int} (hu : 0 ≤ u ∧ u < n) :
    ∀ (es : List Edge) (s : DState), Shape n s →
      (∀ e ∈ es, 0 ≤ e.dest_id ∧ e.dest_id < n) →
      relaxEdges add u es s = .ok (relaxAll add u es s) := by
  intro es
  induction es with
  | nil => intro s _ _; rfl
  | cons e es ih =>
    intro s hs hr
    have he := hr e (List.mem_cons_self _ _)
    have hr1 : ∀ e1 ∈ es, 0 ≤ e1.dest_id ∧ e1.dest_id < n :=
      fun e1 he1 => hr e1 (List.mem_cons_of_mem _ he1)
    have hvis : rd s.visited e.dest_id = .ok (s.vAt e.dest_id) :=
      rd_ok _ _ _ he.1 (by rw [hs.hv]; exact he.2)
    have hdu : rd s.dist u = .ok (s.dAt u) := rd_ok _ _ _ hu.1 (by rw [hs.hd]; exact hu.2)
    have hdv : rd s.dist e.dest_id = .ok (s.dAt e.dest_id) :=
      rd_ok _ _ _ he.1 (by rw [hs.hd]; exact he.2)
    have hwd := fun x => wr_ok s.dist e.dest_id x he.1 (by rw [hs.hd]; exact he.2)
    have hwp := fun x => wr_ok s.parent e.dest_id x he.1 (by rw [hs.hp]; exact he.2)
    have hnext := ih (relaxStep add u e s) (shape_relaxStep hs he) hr1
    have hfold : relaxAll add u (e :: es) s = relaxAll add u es (relaxStep add u e s) := rfl
    rw [hfold, ← hnext]
    simp only [relaxEdges, hvis, hdu, hdv, hwd, hwp]
    by_cases h : relaxes add u e s
    · obtain ⟨h1, h2, h3⟩ := h
      have hstep : relaxStep add u e s =
          { s with dist := s.dist.set e.dest_id.toNat (add (s.dAt u) e.distance),
                   parent := s.parent.set e.dest_id.toNat u,
                   pq := pqPush s.pq (add (s.dAt u) e.distance, e.dest_id) } := by
        unfold relaxStep
        rw [if_pos ⟨h1, h2, h3⟩]
      simp [h1, h2, h3, hstep]
    · rw [relaxStep_of_not h]
      unfold relaxes at h
      by_cases h1 : s.vAt e.dest_id = true
      · simp [h1]
      · by_cases h2 : s.dAt u = INT_MAX
        · simp [h1, h2]
        · have h3 : ¬ add (s.dAt u) e.distance < s.dAt e.dest_id := by
            intro h3
            exact h ⟨by simpa using h1, h2, h3⟩
          simp [h1, h2, h3]

/-! ## The search loop: unfolding and termination -/

theorem edgesInRange_spec {g : Graph} {n : Nat} (hn : g.city_count = n)
    (h : g.edgesInRange = true) : InRange g n := by
  intro u h0 h1 e he
  unfold Graph.edgesInRange at h
  rw [List.all_eq_true] at h
  have h2 := h u.toNat (by rw [List.mem_range]; omega)
  rw [List.all_eq_true] at h2
  have h3 : ((u.toNat : Nat) : Int) = u := Int.toNat_of_nonneg h0
  rw [h3] at h2
  have h4 := h2 e he
  rw [hn] at h4
  simpa using h4

theorem nonnegDistances_spec {g : Graph} {n : Nat} (hn : g.city_count = n)
    (h : g.nonnegDistances = true) : NonNeg g n := by
  intro u h0 h1 e he
  unfold Graph.nonnegDistances at h
  rw [List.all_eq_true] at h
  have h2 := h u.toNat (by rw [List.mem_range]; omega)
  rw [List.all_eq_true] at h2
  have h3 : ((u.toNat : Nat) : Int) = u := Int.toNat_of_nonneg h0
  rw [h3] at h2
  have h4 := h2 e he
  simpa using h4

theorem searchLoop_empty (add : Int → Int → Int) (g : Graph) (dest : Int) (fuel : Nat)
    (s : DState) (h : s.pq = []) : searchLoop add g dest fuel s = .ok s := by
  unfold searchLoop
  simp [h, pqTop]

theorem searchLoop_step {add : Int → Int → Int} {g : Graph} {n : Nat} {dest : Int}
    {s : DState} {top : Int × Int} (fuel : Nat) (hs : Shape n s) (hr : InRange g n)
    (ht : pqTop s.pq = some top) :
    searchLoop add g dest (fuel + 1) s =
      if s.vAt top.2 = true then searchLoop add g dest fuel s.pop
      else if top.2 = dest then .ok (s.mark top.2)
      else searchLoop add g dest fuel (relaxAll add top.2 (g.get_edges top.2) (s.mark top.2)) := by
  have hu := hs.hq top (pqTop_mem ht)
  have hvis : rd s.visited top.2 = .ok (s.vAt top.2) :=
    rd_ok _ _ _ hu.1 (by rw [hs.hv]; exact hu.2)
  have hw : wr s.visited top.2 true = .ok (s.visited.set top.2.toNat true) :=
    wr_ok _ _ _ hu.1 (by rw [hs.hv]; exact hu.2)
  have hrel := @relaxEdges_eq add n top.2 hu (g.get_edges top.2) (s.mark top.2)
    (shape_mark hs _) (hr top.2 hu.1 hu.2)
  rw [searchLoop]
  simp only [ht, hvis, hw]
  have hrel1 : relaxEdges add top.2 (g.get_edges top.2)
      { dist := s.dist, parent := s.parent, visited := s.visited.set top.2.toNat true,
        pq := pqPop s.pq } =
      .ok (relaxAll add top.2 (g.get_edges top.2) (s.mark top.2)) := hrel
  rw [hrel1]
  rfl

theorem sum_range_clear (f f1 : Nat → Nat) (k : Nat) :
    ∀ n : Nat, k < n → (∀ i, i ≠ k → f1 i = f i) → f1 k = 0 →
      ((List.range n).map f1).sum + f k = ((List.range n).map f).sum := by
  intro n
  induction n with
  | zero => intro h; omega
  | succ n ih =>
    intro hk hne hz
    rw [List.range_succ, List.map_append, List.map_append, List.sum_append, List.sum_append]
    simp only [List.map_cons, List.map_nil, List.sum_cons, List.sum_nil, add_zero]
    by_cases hkn : k = n
    · subst hkn
      have hsame : (List.range k).map f1 = (List.range k).map f := by
        apply List.map_congr_left
        intro i hi
        rw [List.mem_range] at hi
        exact hne i (by omega)
      rw [hsame, hz]
      omega
    · have := ih (by omega) hne hz
      rw [hne n (fun h => hkn h.symm)]
      omega

theorem measure_pop {g : Graph} {n : Nat} {s : DState} {top : Int × Int}
    (ht : pqTop s.pq = some top) : measure g n s.pop + 1 = measure g n s := by
  have := pqPop_length ht
  simp only [measure, DState.pop, pop_vAt]
  have hv : ∀ x, ({ s with pq := pqPop s.pq } : DState).vAt x = s.vAt x := fun _ => rfl
  simp only [hv]
  omega

theorem measure_mark {g : Graph} {n : Nat} {s : DState} {top : Int × Int} (hs : Shape n s)
    (ht : pqTop s.pq = some top) (hv : s.vAt top.2 = false) :
    measure g n (s.mark top.2) + (g.get_edges top.2).length + 1 = measure g n s := by
  have hu := hs.hq top (pqTop_mem ht)
  have hlen := pqPop_length ht
  have hcast : ((top.2.toNat : Nat) : Int) = top.2 := Int.toNat_of_nonneg hu.1
  have hsum := sum_range_clear
    (fun u : Nat => if s.vAt (u : Int) then 0 else (g.get_edges (u : Int)).length)
    (fun u : Nat => if (s.mark top.2).vAt (u : Int) then 0 else (g.get_edges (u : Int)).length)
    top.2.toNat n (by omega)
    (by
      intro i hi
      have hne : (i : Int) ≠ top.2 := by omega
      simp only [mark_vAt hs hu.1 hu.2, hne, if_false])
    (by simp only [mark_vAt hs hu.1 hu.2, hcast, if_true])
  simp only [hcast, hv] at hsum
  simp only [measure]
  have hpq : (s.mark top.2).pq = pqPop s.pq := rfl
  rw [hpq]
  simp only [Bool.false_eq_true, if_false] at hsum
  omega

theorem measure_relaxStep (add : Int → Int → Int) (g : Graph) (n : Nat) (u : Int) (e : Edge)
    (s : DState) : measure g n (relaxStep add u e s) ≤ measure g n s + 1 := by
  simp only [measure, relaxStep_vAt]
  unfold relaxStep
  split
  · simp only [pqPush, List.length_cons]
    omega
  · omega

theorem measure_relaxAll (add : Int → Int → Int) (g : Graph) (n : Nat) (u : Int) :
    ∀ (es : List Edge) (s : DState),
      measure g n (relaxAll add u es s) ≤ measure g n s + es.length := by
  intro es
  induction es with
  | nil => intro s; simp [relaxAll]
  | cons e es ih =>
    intro s
    have h1 := ih (relaxStep add u e s)
    have h2 := measure_relaxStep add g n u e s
    have hfold : relaxAll add u (e :: es) s = relaxAll add u es (relaxStep add u e s) := rfl
    rw [hfold, List.length_cons]
    omega

/-- The loop rule: a property kept by the two kinds of iteration holds when the loop stops, and
the loop does stop within the budget given by `measure`. -/
theorem searchLoop_rule {add : Int → Int → Int} {g : Graph} {n : Nat} {dest : Int}
    (P : DState → Prop) (hshape : ∀ s, P s → Shape n s) (hr : InRange g n)
    (hpop : ∀ s top, P s → pqTop s.pq = some top → s.vAt top.2 = true → P s.pop)
    (hexp : ∀ s top, P s → pqTop s.pq = some top → s.vAt top.2 = false → top.2 ≠ dest →
      P (relaxAll add top.2 (g.get_edges top.2) (s.mark top.2))) :
    ∀ (fuel : Nat) (s : DState), P s → measure g n s ≤ fuel →
      ∃ t, searchLoop add g dest fuel s = .ok t ∧ Stopped P dest t := by
  intro fuel
  induction fuel with
  | zero =>
    intro s hP hm
    have hpq : s.pq = [] := by
      have : s.pq.length = 0 := by
        simp only [measure] at hm
        omega
      exact List.length_eq_zero.mp this
    exact ⟨s, searchLoop_empty _ _ _ _ _ hpq, Or.inl ⟨hP, hpq⟩⟩
  | succ fuel ih =>
    intro s hP hm
    cases ht : pqTop s.pq with
    | none =>
      have hpq := pqTop_eq_none ht
      exact ⟨s, searchLoop_empty _ _ _ _ _ hpq, Or.inl ⟨hP, hpq⟩⟩
    | some top =>
      have hs := hshape s hP
      rw [searchLoop_step fuel hs hr ht]
      by_cases h1 : s.vAt top.2 = true
      · rw [if_pos h1]
        have := measure_pop (g := g) (n := n) ht
        exact ih s.pop (hpop s top hP ht h1) (by omega)
      · have h1f : s.vAt top.2 = false := by simpa using h1
        rw [if_neg h1]
        by_cases h2 : top.2 = dest
        · rw [if_pos h2]
          refine ⟨s.mark top.2, rfl, Or.inr ⟨s, top, hP, ht, h2, ?_, ?_⟩⟩
          · rw [← h2]; exact h1f
          · rw [h2]
        · rw [if_neg h2]
          have hm1 := measure_mark (g := g) hs ht h1f
          have hm2 := measure_relaxAll add g n top.2 (g.get_edges top.2) (s.mark top.2)
          exact ih _ (hexp s top hP ht h1f h2) (by omega)

/-! ## The parent chain -/

theorem chain_frame {add : Int → Int → Int} {g : Graph} {n : Nat} {src : Int} {s t : DState}
    (hv : ∀ y, s.vAt y = true → t.vAt y = true) :
    ∀ l, Chain add g n src s l → (∀ y ∈ l, t.dAt y = s.dAt y ∧ t.pAt y = s.pAt y) →
      Chain add g n src t l := by
  intro l
  induction l with
  | nil => intro h _; exact h
  | cons x l ih =>
    intro h hf
    cases l with
    | nil => exact h
    | cons u rest =>
      obtain ⟨h1, h2, h3, ⟨e, he, hex, hd⟩, h5, h6⟩ := h
      have fx := hf x (List.mem_cons_self _ _)
      have fu := hf u (List.mem_cons_of_mem _ (List.mem_cons_self _ _))
      refine ⟨by rw [fx.2]; exact h1, h2, hv u h3, ⟨e, he, hex, ?_⟩, h5,
        ih h6 (fun y hy => hf y (List.mem_cons_of_mem _ hy))⟩
      rw [fx.1, fu.1]
      exact hd

theorem chain_visited {add : Int → Int → Int} {g : Graph} {n : Nat} {src : Int} {s : DState} :
    ∀ l x, Chain add g n src s (x :: l) → ∀ y ∈ l, s.vAt y = true ∧ 0 ≤ y ∧ y < n := by
  intro l
  induction l with
  | nil => intro x _ y hy; cases hy
  | cons u rest ih =>
    intro x h y hy
    obtain ⟨_, h2, h3, _, _, h6⟩ := h
    rcases List.mem_cons.mp hy with rfl | hy
    · exact ⟨h3, h2⟩
    · exact ih u h6 y hy

theorem chain_nodup {add : Int → Int → Int} {g : Graph} {n : Nat} {src : Int} {s : DState} :
    ∀ l x, Chain add g n src s (x :: l) → (x :: l).Nodup := by
  intro l
  induction l with
  | nil => intro x _; simp
  | cons u rest ih =>
    intro x h
    obtain ⟨_, _, _, _, h5, h6⟩ := h
    exact List.nodup_cons.mpr ⟨h5, ih u h6⟩

theorem chain_getLast {add : Int → Int → Int} {g : Graph} {n : Nat} {src : Int} {s : DState} :
    ∀ l x, Chain add g n src s (x :: l) → (x :: l).getLast? = some src := by
  intro l
  induction l with
  | nil => intro x h; simp only [Chain] at h; simp [h]
  | cons u rest ih =>
    intro x h
    obtain ⟨_, _, _, _, _, h6⟩ := h
    rw [List.getLast?_cons_cons]
    exact ih u h6

theorem nodup_range_length (n : Nat) (l : List Int) (hn : l.Nodup)
    (hr : ∀ y ∈ l, 0 ≤ y ∧ y < n) : l.length ≤ n := by
  have hsub : l ⊆ (List.range n).map (fun (k : Nat) => (k : Int)) := by
    intro y hy
    have := hr y hy
    rw [List.mem_map]
    exact ⟨y.toNat, by rw [List.mem_range]; omega, Int.toNat_of_nonneg this.1⟩
  have := (List.subperm_of_subset hn hsub).length_le
  simpa using this

theorem reconstruct_chain {add : Int → Int → Int} {g : Graph} {n : Nat} {src : Int}
    {s : DState} (hs : Shape n s) (hsr : 0 ≤ src ∧ src < n) (hsp : s.pAt src = -1) :
    ∀ (l : List Int) (x : Int) (acc : List Int) (fuel : Nat),
      Chain add g n src s (x :: l) → 0 ≤ x ∧ x < n → l.length + 1 ≤ fuel →
      reconstruct s.parent fuel x acc = .ok (acc ++ x :: l) := by
  intro l
  induction l with
  | nil =>
    intro x acc fuel h hx hf
    have hxs : x = src := h
    subst hxs
    obtain ⟨f, rfl⟩ : ∃ f, fuel = f + 1 := ⟨fuel - 1, by simp at hf; omega⟩
    have hrd : rd s.parent x = .ok (s.pAt x) := rd_ok _ _ _ hx.1 (by rw [hs.hp]; exact hx.2)
    have hne : x ≠ -1 := by omega
    rw [reconstruct.eq_def]
    simp only [hne, if_false, hrd, hsp]
    rw [reconstruct.eq_def]
    simp
  | cons u rest ih =>
    intro x acc fuel h hx hf
    obtain ⟨f, rfl⟩ : ∃ f, fuel = f + 1 := ⟨fuel - 1, by simp at hf; omega⟩
    obtain ⟨h1, h2, _, _, _, h6⟩ := h
    have hrd : rd s.parent x = .ok (s.pAt x) := rd_ok _ _ _ hx.1 (by rw [hs.hp]; exact hx.2)
    have hne : x ≠ -1 := by omega
    rw [reconstruct.eq_def]
    simp only [hne, if_false, hrd, h1]
    rw [ih u (acc ++ [x]) f h6 h2 (by simp at hf ⊢; omega)]
    simp

/-! ## The basic invariant -/

theorem basic_pop {add : Int → Int → Int} {g : Graph} {n : Nat} {src : Int} {s : DState}
    (hB : Basic add g n src s) : Basic add g n src s.pop where
  shape := shape_pop hB.shape
  src_range := hB.src_range
  src_dist := hB.src_dist
  src_parent := hB.src_parent
  src_first := hB.src_first
  dist_le := hB.dist_le
  pq_reached := fun p hp => hB.pq_reached p (mem_pqPop hp)
  chain := fun x h0 h1 hx => by
    obtain ⟨l, hl⟩ := hB.chain x h0 h1 hx
    exact ⟨l, chain_frame (s := s) (t := s.pop) (fun _ h => h) _ hl (fun _ _ => ⟨rfl, rfl⟩)⟩

theorem basic_mark {add : Int → Int → Int} {g : Graph} {n : Nat} {src : Int} {s : DState}
    {top : Int × Int} (hB : Basic add g n src s) (ht : pqTop s.pq = some top) :
    Basic add g n src (s.mark top.2) ∧ (s.mark top.2).vAt src = true ∧
      (s.mark top.2).vAt top.2 = true := by
  have hu := hB.shape.hq top (pqTop_mem ht)
  have hmv := mark_vAt hB.shape hu.1 hu.2
  have hsrc : (s.mark top.2).vAt src = true := by
    rw [hmv]
    by_cases h : src = top.2
    · simp [h]
    · rw [if_neg h]
      rcases hB.src_first with h1 | h1
      · exact h1
      · exact absurd (h1 top.2 hu.1 hu.2 (fun h2 => h h2.symm))
          (hB.pq_reached top (pqTop_mem ht))
  refine ⟨⟨shape_mark hB.shape _, hB.src_range, hB.src_dist, hB.src_parent, Or.inl hsrc,
    hB.dist_le, fun p hp => hB.pq_reached p (mem_pqPop hp), ?_⟩, hsrc, by rw [hmv]; simp⟩
  intro x h0 h1 hx
  obtain ⟨l, hl⟩ := hB.chain x h0 h1 hx
  refine ⟨l, chain_frame (s := s) (t := s.mark top.2) ?_ _ hl (fun _ _ => ⟨rfl, rfl⟩)⟩
  intro y hy
  rw [hmv]
  split
  · rfl
  · exact hy

theorem basic_relaxStep {add : Int → Int → Int} {g : Graph} {n : Nat} {src u : Int}
    {s : DState} {e : Edge} (hB : Basic add g n src s) (hu : 0 ≤ u ∧ u < n)
    (huv : s.vAt u = true) (hsv : s.vAt src = true) (he : e ∈ g.get_edges u)
    (her : 0 ≤ e.dest_id ∧ e.dest_id < n) : Basic add g n src (relaxStep add u e s) := by
  by_cases h : relaxes add u e s
  · have hd := relaxStep_dAt hB.shape her h
    have hp := relaxStep_pAt hB.shape her h
    have hvv := relaxStep_vAt add u e s
    obtain ⟨hv, hdu, hlt⟩ := h
    have hvs : src ≠ e.dest_id := by
      intro h2; rw [← h2, hsv] at hv; cases hv
    have hvu : u ≠ e.dest_id := by
      intro h2; rw [← h2, huv] at hv; cases hv
    have hnew : add (s.dAt u) e.distance ≠ INT_MAX := by
      have := hB.dist_le e.dest_id her.1 her.2
      omega
    have hframe : ∀ l : List Int, (∀ y ∈ l, y ≠ e.dest_id) →
        ∀ y ∈ l, (relaxStep add u e s).dAt y = s.dAt y ∧ (relaxStep add u e s).pAt y = s.pAt y := by
      intro l hl y hy
      rw [hd, hp, if_neg (hl y hy), if_neg (hl y hy)]
      exact ⟨rfl, rfl⟩
    have hvis : ∀ y, s.vAt y = true → (relaxStep add u e s).vAt y = true := by
      intro y hy; rw [hvv]; exact hy
    have hnotin : ∀ (l : List Int) (x : Int), Chain add g n src s (x :: l) →
        ∀ y ∈ l, y ≠ e.dest_id := by
      intro l x hl y hy h2
      have := (chain_visited l x hl y hy).1
      rw [h2, hv] at this
      cases this
    refine ⟨shape_relaxStep hB.shape her, hB.src_range, ?_, ?_, Or.inl (by rw [hvv]; exact hsv),
      ?_, ?_, ?_⟩
    · rw [hd, if_neg hvs]; exact hB.src_dist
    · rw [hp, if_neg hvs]; exact hB.src_parent
    · intro x h0 h1
      rw [hd]
      split
      · have := hB.dist_le e.dest_id her.1 her.2
        omega
      · exact hB.dist_le x h0 h1
    · intro p hpq
      rw [relaxStep_pq ⟨hv, hdu, hlt⟩] at hpq
      rw [hd]
      split
      · exact hnew
      · rcases List.mem_cons.mp hpq with rfl | hpq
        · rename_i hne; exact absurd rfl hne
        · exact hB.pq_reached p hpq
    · intro x h0 h1 hx
      by_cases hxv : x = e.dest_id
      · subst hxv
        obtain ⟨lu, hlu⟩ := hB.chain u hu.1 hu.2 hdu
        have hni := hnotin lu u hlu
        have hall : ∀ y ∈ u :: lu, y ≠ e.dest_id := by
          intro y hy
          rcases List.mem_cons.mp hy with rfl | hy
          · exact hvu
          · exact hni y hy
        refine ⟨u :: lu, ?_, hu, by rw [hvv]; exact huv, ⟨e, he, rfl, ?_⟩, ?_,
          chain_frame hvis _ hlu (hframe _ hall)⟩
        · rw [hp, if_pos rfl]
        · rw [hd, hd, if_pos rfl, if_neg hvu]
        · intro hmem
          exact hall _ hmem rfl
      · rw [hd, if_neg hxv] at hx
        obtain ⟨l, hl⟩ := hB.chain x h0 h1 hx
        have hall : ∀ y ∈ x :: l, y ≠ e.dest_id := by
          intro y hy
          rcases List.mem_cons.mp hy with rfl | hy
          · exact hxv
          · exact hnotin l x hl y hy
        exact ⟨l, chain_frame hvis _ hl (hframe _ hall)⟩
  · rw [relaxStep_of_not h]
    exact hB

theorem basic_relaxAll {add : Int → Int → Int} {g : Graph} {n : Nat} {src u : Int}
    (hr : InRange g n) (hu : 0 ≤ u ∧ u < n) :
    ∀ (es : List Edge) (s : DState), Basic add g n src s → s.vAt u = true →
      s.vAt src = true → (∀ e ∈ es, e ∈ g.get_edges u) →
      Basic add g n src (relaxAll add u es s) := by
  intro es
  induction es with
  | nil => intro s hB _ _ _; exact hB
  | cons e es ih =>
    intro s hB huv hsv hes
    have he := hes e (List.mem_cons_self _ _)
    exact ih (relaxStep add u e s)
      (basic_relaxStep hB hu huv hsv he (hr u hu.1 hu.2 e he))
      (by rw [relaxStep_vAt]; exact huv) (by rw [relaxStep_vAt]; exact hsv)
      (fun e1 he1 => hes e1 (List.mem_cons_of_mem _ he1))

theorem basic_expand {add : Int → Int → Int} {g : Graph} {n : Nat} {src : Int} {s : DState}
    {top : Int × Int} (hr : InRange g n) (hB : Basic add g n src s)
    (ht : pqTop s.pq = some top) :
    Basic add g n src (relaxAll add top.2 (g.get_edges top.2) (s.mark top.2)) := by
  obtain ⟨h1, h2, h3⟩ := basic_mark hB ht
  exact basic_relaxAll hr (hB.shape.hq top (pqTop_mem ht)) _ _ h1 h3 h2 (fun _ h => h)

theorem initState_dAt (n : Nat) (src : Int) (hs : 0 ≤ src ∧ src < n) (x : Int) :
    (initState n src).dAt x = if x = src then 0 else INT_MAX := by
  unfold initState DState.dAt
  by_cases hx : x = src
  · subst hx
    rw [if_pos rfl, getI_set_eq _ _ _ _ hs.1 (by simp; exact hs.2)]
  · rw [if_neg hx, getI_set_ne _ _ _ _ _ hs.1 hx, getI_replicate]

theorem initState_pAt (n : Nat) (src : Int) (x : Int) : (initState n src).pAt x = -1 := by
  unfold initState DState.pAt
  exact getI_replicate _ _ _

theorem initState_vAt (n : Nat) (src : Int) (x : Int) : (initState n src).vAt x = false := by
  unfold initState DState.vAt
  exact getI_replicate _ _ _

theorem basic_init (add : Int → Int → Int) (g : Graph) (n : Nat) (src : Int)
    (hs : 0 ≤ src ∧ src < n) : Basic add g n src (initState n src) := by
  have hd := initState_dAt n src hs
  refine ⟨⟨by simp [initState], by simp [initState], by simp [initState], ?_⟩, hs, ?_,
    initState_pAt n src src, Or.inr ?_, ?_, ?_, ?_⟩
  · intro p hp
    simp only [initState, pqPush, List.mem_singleton] at hp
    subst hp
    exact hs
  · rw [hd, if_pos rfl]
  · intro x _ _ hx
    rw [hd, if_neg hx]
  · intro x _ _
    rw [hd]
    split
    · decide
    · exact le_refl _
  · intro p hp
    simp only [initState, pqPush, List.mem_singleton] at hp
    subst hp
    rw [hd, if_pos rfl]
    decide
  · intro x _ _ hx
    rw [hd] at hx
    by_cases hxs : x = src
    · exact ⟨[], hxs⟩
    · rw [if_neg hxs] at hx
      exact absurd rfl hx

theorem measure_init (g : Graph) (n : Nat) (src : Int) :
    measure g n (initState n src) = searchFuel g n := by
  simp only [measure, searchFuel, edgeCount, initState_vAt]
  simp [initState, pqPush]
  omega

/-! ## From the search loop to the result of `dijkstra` -/

theorem dijkstra_unfold (add : Int → Int → Int) {g : Graph} {n : Nat} {src : Int} (dest : Int)
    (hn : g.city_count = n) (hpos : 0 < n) (hs : 0 ≤ src ∧ src < n) :
    dijkstra add g src dest =
      match searchLoop add g dest (searchFuel g n) (initState n src) with
      | .error f => .error f
      | .ok s =>
        match rd s.dist dest with
        | .error f => .error f
        | .ok dd =>
          if dd = INT_MAX then .ok noPath
          else
            match reconstruct s.parent n dest [] with
            | .error f => .error f
            | .ok path => .ok { path := path.reverse, total_distance := dd, success := true } := by
  have h0 : g.city_count ≠ 0 := by omega
  have h1 : ¬ g.city_count < 0 := by omega
  have h2 : g.city_count.toNat = n := by omega
  have hw : wr (List.replicate n INT_MAX) src 0 = .ok ((List.replicate n INT_MAX).set src.toNat 0) :=
    wr_ok _ _ _ hs.1 (by simp; exact hs.2)
  unfold dijkstra
  simp only [h0, h1, h2, if_false, hw]
  rfl

theorem stopped_basic {add : Int → Int → Int} {g : Graph} {n : Nat} {src dest : Int}
    {P : DState → Prop} (hPB : ∀ s, P s → Basic add g n src s) {t : DState}
    (h : Stopped P dest t) : Basic add g n src t := by
  rcases h with ⟨h, _⟩ | ⟨s1, top, hP, ht, hd, _, rfl⟩
  · exact hPB t h
  · rw [← hd]
    exact (basic_mark (hPB s1 hP) ht).1

/-- The run of `dijkstra` under its precondition: the search loop stops in a state `t` that
satisfies the invariant, and the result is read off `t`. -/
theorem dijkstra_run {add : Int → Int → Int} {g : Graph} {n : Nat} {src dest : Int}
    (P : DState → Prop) (hPB : ∀ s, P s → Basic add g n src s)
    (hn : g.city_count = n) (hpos : 0 < n) (hr : InRange g n)
    (hs : 0 ≤ src ∧ src < n) (hd : 0 ≤ dest ∧ dest < n)
    (hinit : P (initState n src))
    (hpop : ∀ s top, P s → pqTop s.pq = some top → s.vAt top.2 = true → P s.pop)
    (hexp : ∀ s top, P s → pqTop s.pq = some top → s.vAt top.2 = false → top.2 ≠ dest →
      P (relaxAll add top.2 (g.get_edges top.2) (s.mark top.2))) :
    ∃ t, Stopped P dest t ∧ Basic add g n src t ∧
      ((t.dAt dest = INT_MAX ∧ dijkstra add g src dest = .ok noPath) ∨
       (t.dAt dest ≠ INT_MAX ∧ ∃ l, Chain add g n src t (dest :: l) ∧
          dijkstra add g src dest =
            .ok { path := (dest :: l).reverse, total_distance := t.dAt dest, success := true })) := by
  obtain ⟨t, hrun, hstop⟩ := searchLoop_rule P (fun s h => (hPB s h).shape) hr hpop hexp
    (searchFuel g n) (initState n src) hinit (by rw [measure_init])
  have hB := stopped_basic hPB hstop
  refine ⟨t, hstop, hB, ?_⟩
  have hrd : rd t.dist dest = .ok (t.dAt dest) :=
    rd_ok _ _ _ hd.1 (by rw [hB.shape.hd]; exact hd.2)
  rw [dijkstra_unfold add dest hn hpos hs, hrun]
  simp only [hrd]
  by_cases hdd : t.dAt dest = INT_MAX
  · left
    exact ⟨hdd, by rw [if_pos hdd]⟩
  · right
    refine ⟨hdd, ?_⟩
    obtain ⟨l, hl⟩ := hB.chain dest hd.1 hd.2 hdd
    have hlen : (dest :: l).length ≤ n := by
      apply nodup_range_length n _ (chain_nodup l dest hl)
      intro y hy
      rcases List.mem_cons.mp hy with rfl | hy
      · exact hd
      · exact (chain_visited l dest hl y hy).2
    have hrec := reconstruct_chain hB.shape hB.src_range hB.src_parent l dest [] n hl hd
      (by simpa using hlen)
    refine ⟨l, hl, ?_⟩
    rw [if_neg hdd, hrec]
    rfl

/-- Under its precondition `dijkstra` returns a result, for every reading of the addition: a
failure record, or a success whose path follows the parent links of the final state. -/
theorem dijkstra_basic (add : Int → Int → Int) {g : Graph} {n : Nat} {src dest : Int}
    (hn : g.city_count = n) (hpos : 0 < n) (hr : InRange g n)
    (hs : 0 ≤ src ∧ src < n) (hd : 0 ≤ dest ∧ dest < n) :
    ∃ t, Basic add g n src t ∧
      ((t.dAt dest = INT_MAX ∧ dijkstra add g src dest = .ok noPath) ∨
       (t.dAt dest ≠ INT_MAX ∧ ∃ l, Chain add g n src t (dest :: l) ∧
          dijkstra add g src dest =
            .ok { path := (dest :: l).reverse, total_distance := t.dAt dest, success := true })) := by
  obtain ⟨t, _, hB, h⟩ := dijkstra_run (Basic add g n src) (fun _ h => h) hn hpos hr hs hd
    (basic_init add g n src hs) (fun s _ hP _ _ => basic_pop hP)
    (fun s top hP ht _ _ => basic_expand hr hP ht)
  exact ⟨t, hB, h⟩

/-! ## The optimality invariant -/

theorem core_pop {n : Nat} {s : DState} {top : Int × Int} (hC : Core n s)
    (ht : pqTop s.pq = some top) (hv : s.vAt top.2 = true) : Core n s.pop where
  nonneg := hC.nonneg
  pq_ge := fun p hp => hC.pq_ge p (mem_pqPop hp)
  pq_has := fun x h0 h1 hx hd => by
    have hmem := hC.pq_has x h0 h1 hx hd
    refine mem_pqPop_of_ne ht hmem ?_
    intro h
    have hx1 : s.vAt x = false := hx
    rw [← h] at hv
    simp only at hv
    rw [hv] at hx1
    cases hx1
  settled := hC.settled

theorem opt_pop {g : Graph} {n : Nat} {s : DState} {top : Int × Int} (hO : Opt g n s)
    (ht : pqTop s.pq = some top) (hv : s.vAt top.2 = true) : Opt g n s.pop :=
  ⟨core_pop hO.core ht hv, hO.relaxed⟩

theorem opt_mark {g : Graph} {n : Nat} {src : Int} {s : DState} {top : Int × Int}
    (hB : Basic exactAdd g n src s) (hO : Opt g n s) (ht : pqTop s.pq = some top)
    (hv : s.vAt top.2 = false) : Mid g n top.2 [] (s.mark top.2) := by
  have hu := hB.shape.hq top (pqTop_mem ht)
  have hmv := mark_vAt hB.shape hu.1 hu.2
  have hmin : ∀ y : Int, 0 ≤ y → y < n → s.vAt y = false → s.dAt top.2 ≤ s.dAt y := by
    intro y h0 h1 hy
    by_cases hd : s.dAt y = INT_MAX
    · rw [hd]; exact hB.dist_le _ hu.1 hu.2
    · have h2 := pqTop_le ht _ (hO.core.pq_has y h0 h1 hy hd)
      have h3 := hO.core.pq_ge top (pqTop_mem ht)
      simp only at h2
      omega
  refine ⟨⟨hO.core.nonneg, fun p hp => hO.core.pq_ge p (mem_pqPop hp), ?_, ?_⟩, ?_, ?_, ?_⟩
  · intro x h0 h1 hx hd
    rw [hmv] at hx
    by_cases hxu : x = top.2
    · rw [if_pos hxu] at hx; cases hx
    · rw [if_neg hxu] at hx
      refine mem_pqPop_of_ne ht (hO.core.pq_has x h0 h1 hx hd) ?_
      intro h
      exact hxu (by rw [← h])
  · intro x y hx0 hx1 hy0 hy1 hx hy
    rw [hmv] at hx hy
    by_cases hyu : y = top.2
    · rw [if_pos hyu] at hy; cases hy
    · rw [if_neg hyu] at hy
      by_cases hxu : x = top.2
      · rw [hxu]; exact hmin y hy0 hy1 hy
      · rw [if_neg hxu] at hx
        exact hO.core.settled x y hx0 hx1 hy0 hy1 hx hy
  · intro x h0 h1 hx
    rw [hmv] at hx
    by_cases hxu : x = top.2
    · rw [hxu]
    · rw [if_neg hxu] at hx
      exact hO.core.settled x top.2 h0 h1 hu.1 hu.2 hx hv
  · intro x h0 h1 hx hxu
    rw [hmv, if_neg hxu] at hx
    exact hO.relaxed x h0 h1 hx
  · intro e he; cases he

theorem relaxStep_dAt_le {n : Nat} {u : Int} {e : Edge} {s : DState} (hs : Shape n s)
    (he : 0 ≤ e.dest_id ∧ e.dest_id < n) (x : Int) :
    (relaxStep exactAdd u e s).dAt x ≤ s.dAt x := by
  by_cases h : relaxes exactAdd u e s
  · rw [relaxStep_dAt hs he h]
    split
    · rename_i hx
      rw [hx]
      exact le_of_lt h.2.2
    · exact le_refl _
  · rw [relaxStep_of_not h]

theorem mid_relaxStep {g : Graph} {n : Nat} {src u : Int} {s : DState} {e : Edge}
    {done : List Edge} (hB : Basic exactAdd g n src s) (hM : Mid g n u done s)
    (hu : 0 ≤ u ∧ u < n) (huv : s.vAt u = true) (her : 0 ≤ e.dest_id ∧ e.dest_id < n)
    (hw : 0 ≤ e.distance) : Mid g n u (done ++ [e]) (relaxStep exactAdd u e s) := by
  by_cases h : relaxes exactAdd u e s
  · have hd := relaxStep_dAt hB.shape her h
    have hvv := relaxStep_vAt exactAdd u e s
    have hle := relaxStep_dAt_le (u := u) hB.shape her
    have hpq := relaxStep_pq h
    obtain ⟨hv, hdu, hlt⟩ := h
    have hvu : u ≠ e.dest_id := by
      intro h2; rw [← h2, huv] at hv; cases hv
    have hvis : ∀ x, s.vAt x = true → x ≠ e.dest_id := by
      intro x hx h2; rw [h2, hv] at hx; cases hx
    have hdu1 : (relaxStep exactAdd u e s).dAt u = s.dAt u := by rw [hd, if_neg hvu]
    have hu0 := hM.core.nonneg u hu.1 hu.2
    simp only [exactAdd] at hd hlt hpq
    refine ⟨⟨?_, ?_, ?_, ?_⟩, ?_, ?_, ?_⟩
    · intro x h0 h1
      rw [hd]
      split
      · omega
      · exact hM.core.nonneg x h0 h1
    · intro p hp
      rw [hpq] at hp
      rw [hd]
      rcases List.mem_cons.mp hp with rfl | hp
      · simp
      · have := hM.core.pq_ge p hp
        split
        · rename_i hpv
          rw [hpv] at this
          omega
        · exact this
    · intro x h0 h1 hx hdx
      rw [hvv] at hx
      rw [hpq]
      by_cases hxv : x = e.dest_id
      · rw [hd, if_pos hxv, hxv]
        exact List.mem_cons_self _ _
      · rw [hd, if_neg hxv] at hdx ⊢
        exact List.mem_cons_of_mem _ (hM.core.pq_has x h0 h1 hx hdx)
    · intro x y hx0 hx1 hy0 hy1 hx hy
      rw [hvv] at hx hy
      rw [hd, hd, if_neg (hvis x hx)]
      split
      · have := hM.cur x hx0 hx1 hx
        omega
      · exact hM.core.settled x y hx0 hx1 hy0 hy1 hx hy
    · intro x h0 h1 hx
      rw [hvv] at hx
      rw [hdu1, hd, if_neg (hvis x hx)]
      exact hM.cur x h0 h1 hx
    · intro x h0 h1 hx hxu e1 he1
      rw [hvv] at hx
      have h1 := hM.relaxed x h0 h1 hx hxu e1 he1
      have h2 := hle e1.dest_id
      rw [hd x, if_neg (hvis x hx)]
      omega
    · intro e1 he1
      rw [hdu1]
      rcases List.mem_append.mp he1 with he1 | he1
      · have h1 := hM.done e1 he1
        have h2 := hle e1.dest_id
        omega
      · rw [List.mem_singleton] at he1
        subst he1
        rw [hd, if_pos rfl]
  · rw [relaxStep_of_not h]
    refine ⟨hM.core, hM.cur, hM.relaxed, ?_⟩
    intro e1 he1
    rcases List.mem_append.mp he1 with he1 | he1
    · exact hM.done e1 he1
    · rw [List.mem_singleton] at he1
      subst he1
      unfold relaxes at h
      simp only [exactAdd] at h
      by_cases hv : s.vAt e1.dest_id = true
      · have := hM.cur e1.dest_id her.1 her.2 hv
        omega
      · have hv1 : s.vAt e1.dest_id = false := by simpa using hv
        by_cases hdu : s.dAt u = INT_MAX
        · have := hB.dist_le e1.dest_id her.1 her.2
          omega
        · have : ¬ s.dAt u + e1.distance < s.dAt e1.dest_id := fun h3 => h ⟨hv1, hdu, h3⟩
          omega

theorem mid_relaxAll {g : Graph} {n : Nat} {src u : Int} (hr : InRange g n)
    (hnn : NonNeg g n) (hu : 0 ≤ u ∧ u < n) :
    ∀ (es done : List Edge) (s : DState), Basic exactAdd g n src s → Mid g n u done s →
      s.vAt u = true → s.vAt src = true → (∀ e ∈ es, e ∈ g.get_edges u) →
      Mid g n u (done ++ es) (relaxAll exactAdd u es s) := by
  intro es
  induction es with
  | nil => intro done s _ hM _ _ _; simpa [relaxAll] using hM
  | cons e es ih =>
    intro done s hB hM huv hsv hes
    have he := hes e (List.mem_cons_self _ _)
    have her := hr u hu.1 hu.2 e he
    have h1 := ih (done ++ [e]) (relaxStep exactAdd u e s)
      (basic_relaxStep hB hu huv hsv he her)
      (mid_relaxStep hB hM hu huv her (hnn u hu.1 hu.2 e he))
      (by rw [relaxStep_vAt]; exact huv) (by rw [relaxStep_vAt]; exact hsv)
      (fun e1 he1 => hes e1 (List.mem_cons_of_mem _ he1))
    simpa [relaxAll] using h1

theorem full_init (g : Graph) (n : Nat) (src : Int) (hs : 0 ≤ src ∧ src < n) :
    Full g n src (initState n src) := by
  have hd := initState_dAt n src hs
  have hv := initState_vAt n src
  refine ⟨basic_init exactAdd g n src hs, ⟨?_, ?_, ?_, ?_⟩, ?_⟩
  · intro x _ _
    rw [hd]
    split <;> decide
  · intro p hp
    simp only [initState, pqPush, List.mem_singleton] at hp
    subst hp
    rw [hd, if_pos rfl]
  · intro x _ _ _ hx
    rw [hd] at hx ⊢
    by_cases hxs : x = src
    · rw [if_pos hxs, hxs]
      simp [initState, pqPush]
    · rw [if_neg hxs] at hx
      exact absurd rfl hx
  · intro x y _ _ _ _ hx
    rw [hv] at hx; cases hx
  · intro x _ _ hx
    rw [hv] at hx; cases hx

theorem full_pop {g : Graph} {n : Nat} {src : Int} {s : DState} {top : Int × Int}
    (hF : Full g n src s) (ht : pqTop s.pq = some top) (hv : s.vAt top.2 = true) :
    Full g n src s.pop :=
  ⟨basic_pop hF.1, opt_pop hF.2 ht hv⟩

theorem full_expand {g : Graph} {n : Nat} {src : Int} {s : DState} {top : Int × Int}
    (hr : InRange g n) (hnn : NonNeg g n) (hF : Full g n src s)
    (ht : pqTop s.pq = some top) (hv : s.vAt top.2 = false) :
    Full g n src (relaxAll exactAdd top.2 (g.get_edges top.2) (s.mark top.2)) := by
  have hu := hF.1.shape.hq top (pqTop_mem ht)
  obtain ⟨h1, h2, h3⟩ := basic_mark hF.1 ht
  have hM := mid_relaxAll hr hnn hu (g.get_edges top.2) [] (s.mark top.2) h1
    (opt_mark hF.1 hF.2 ht hv) h3 h2 (fun _ h => h)
  have hvis : (relaxAll exactAdd top.2 (g.get_edges top.2) (s.mark top.2)).vAt top.2 = true := by
    have : ∀ (es : List Edge) (t : DState), (relaxAll exactAdd top.2 es t).vAt top.2 = t.vAt top.2 := by
      intro es
      induction es with
      | nil => intro t; rfl
      | cons e es ih => intro t; exact (ih _).trans (relaxStep_vAt _ _ _ _ _)
    rw [this]; exact h3
  refine ⟨basic_expand hr hF.1 ht, hM.core, ?_⟩
  intro x h0 h1 hx
  by_cases hxu : x = top.2
  · rw [hxu]
    simpa using hM.done
  · exact hM.relaxed x h0 h1 hx hxu

/-! ## Walks and the final state -/

theorem walkLen_nil : walkLen [] = 0 := rfl

theorem walkLen_cons (e : Edge) (es : List Edge) :
    walkLen (e :: es) = e.distance + walkLen es := by
  simp [walkLen]

theorem walkLen_snoc (es : List Edge) (e : Edge) :
    walkLen (es ++ [e]) = walkLen es + e.distance := by
  simp [walkLen]

/-- If the edges out of every city of a set `E` are relaxed and no city outside `E` is nearer
than `dest`, then `dist[dest]` is a lower bound for every walk that ends in `dest`. -/
theorem walk_bound {g : Graph} {n : Nat} {s : DState} {dest : Int} (E : Int → Prop)
    (hr : InRange g n) (hnn : NonNeg g n)
    (ha : ∀ x : Int, 0 ≤ x → x < n → E x → Relaxed s x (g.get_edges x))
    (hb : ∀ y : Int, 0 ≤ y → y < n → ¬ E y → s.dAt dest ≤ s.dAt y) :
    ∀ (es : List Edge) (a B : Int), 0 ≤ a ∧ a < n → (s.dAt dest ≤ B ∨ (E a ∧ s.dAt a ≤ B)) →
      isWalk g a es dest → s.dAt dest ≤ B + walkLen es := by
  intro es
  induction es with
  | nil =>
    intro a B _ hQ hw
    have hab : a = dest := hw
    rw [walkLen_nil]
    rcases hQ with h | ⟨_, h⟩
    · omega
    · rw [hab] at h; omega
  | cons e es ih =>
    intro a B ha0 hQ hw
    obtain ⟨he, hw1⟩ := hw
    have her := hr a ha0.1 ha0.2 e he
    have hwe := hnn a ha0.1 ha0.2 e he
    have hstep : s.dAt dest ≤ B + e.distance ∨ (E e.dest_id ∧ s.dAt e.dest_id ≤ B + e.distance) := by
      rcases hQ with h | ⟨hE, h⟩
      · left; omega
      · have h1 := ha a ha0.1 ha0.2 hE e he
        by_cases hE1 : E e.dest_id
        · right; exact ⟨hE1, by omega⟩
        · left
          have := hb e.dest_id her.1 her.2 hE1
          omega
    have := ih e.dest_id (B + e.distance) her hstep hw1
    rw [walkLen_cons]
    omega

theorem stopped_final {g : Graph} {n : Nat} {src dest : Int} {t : DState}
    (hd : 0 ≤ dest ∧ dest < n) (h : Stopped (Full g n src) dest t) :
    (∀ x : Int, 0 ≤ x → x < n → (t.vAt x = true ∧ x ≠ dest) → Relaxed t x (g.get_edges x)) ∧
    (∀ y : Int, 0 ≤ y → y < n → ¬ (t.vAt y = true ∧ y ≠ dest) → t.dAt dest ≤ t.dAt y) := by
  rcases h with ⟨hF, hpq⟩ | ⟨s1, top, hF, ht, hdt, hv, rfl⟩
  · refine ⟨fun x h0 h1 hx => hF.2.relaxed x h0 h1 hx.1, ?_⟩
    intro y h0 h1 hy
    by_cases hyd : y = dest
    · rw [hyd]
    · have hvy : t.vAt y = false := by
        by_contra h2
        exact hy ⟨by simpa using h2, hyd⟩
      have hdy : t.dAt y = INT_MAX := by
        by_contra h2
        have := hF.2.core.pq_has y h0 h1 hvy h2
        rw [hpq] at this
        cases this
      rw [hdy]
      exact hF.1.dist_le dest hd.1 hd.2
  · obtain ⟨d, u⟩ := top
    simp only at hdt
    subst hdt
    have hM := opt_mark hF.1 hF.2 ht hv
    have hmv := mark_vAt hF.1.shape hd.1 hd.2
    have hvu : (s1.mark u).vAt u = true := by rw [hmv]; simp
    refine ⟨fun x h0 h1 hx => hM.relaxed x h0 h1 hx.1 hx.2, ?_⟩
    intro y h0 h1 hy
    by_cases hyd : y = u
    · rw [hyd]
    · have hvy : (s1.mark u).vAt y = false := by
        by_contra h2
        exact hy ⟨by simpa using h2, hyd⟩
      exact hM.core.settled u y hd.1 hd.2 h0 h1 hvu hvy

/-- The final state of the search under exact addition and non-negative distances:
`dist[dest]` is a lower bound for the length of every walk from `src` to `dest`. -/
theorem dijkstra_exact {g : Graph} {n : Nat} {src dest : Int}
    (hn : g.city_count = n) (hpos : 0 < n) (hr : InRange g n) (hnn : NonNeg g n)
    (hs : 0 ≤ src ∧ src < n) (hd : 0 ≤ dest ∧ dest < n) :
    ∃ t, Basic exactAdd g n src t ∧
      (∀ es, isWalk g src es dest → t.dAt dest ≤ walkLen es) ∧
      ((t.dAt dest = INT_MAX ∧ dijkstra exactAdd g src dest = .ok noPath) ∨
       (t.dAt dest ≠ INT_MAX ∧ ∃ l, Chain exactAdd g n src t (dest :: l) ∧
          dijkstra exactAdd g src dest =
            .ok { path := (dest :: l).reverse, total_distance := t.dAt dest, success := true })) := by
  obtain ⟨t, hstop, hB, h⟩ := dijkstra_run (Full g n src) (fun _ h => h.1) hn hpos hr hs hd
    (full_init g n src hs) (fun s top hP ht hv => full_pop hP ht hv)
    (fun s top hP ht hv _ => full_expand hr hnn hP ht hv)
  refine ⟨t, hB, ?_, h⟩
  obtain ⟨h1, h2⟩ := stopped_final hd hstop
  intro es hw
  have hQ : t.dAt dest ≤ 0 ∨ ((t.vAt src = true ∧ src ≠ dest) ∧ t.dAt src ≤ 0) := by
    by_cases hE : t.vAt src = true ∧ src ≠ dest
    · right; exact ⟨hE, by rw [hB.src_dist]⟩
    · left
      have := h2 src hs.1 hs.2 hE
      rw [hB.src_dist] at this
      exact this
  have := walk_bound (fun x => t.vAt x = true ∧ x ≠ dest) hr hnn h1 h2 es src 0 hs hQ hw
  omega

theorem joins_snoc (g : Graph) :
    ∀ (p : List Int) (es : List Edge) (u x : Int) (e : Edge), joins g (p ++ [u]) es →
      e ∈ g.get_edges u → e.dest_id = x → joins g (p ++ [u] ++ [x]) (es ++ [e]) := by
  intro p
  induction p with
  | nil =>
    intro es u x e hj he hx
    have hes : es = [] := hj
    subst hes
    exact ⟨he, hx, rfl⟩
  | cons a p ih =>
    intro es u x e hj he hx
    cases hp : p ++ [u] with
    | nil => simp at hp
    | cons b q =>
      have hj1 : joins g (a :: b :: q) es := by
        rw [← hp]; exact hj
      cases es with
      | nil => exact hj1.elim
      | cons e1 es1 =>
        obtain ⟨h1, h2, h3⟩ := hj1
        have h4 := ih es1 u x e (by rw [hp]; exact h3) he hx
        rw [hp] at h4
        have hgoal : a :: p ++ [u] ++ [x] = a :: b :: (q ++ [x]) := by
          show a :: (p ++ [u] ++ [x]) = a :: b :: (q ++ [x])
          rw [hp]
          rfl
        rw [hgoal]
        exact ⟨h1, h2, h4⟩

theorem joins_isWalk (g : Graph) :
    ∀ (p : List Int) (a : Int) (es : List Edge) (b : Int), joins g (a :: p) es →
      (a :: p).getLast? = some b → isWalk g a es b := by
  intro p
  induction p with
  | nil =>
    intro a es b hj hl
    have hes : es = [] := hj
    subst hes
    simp at hl
    exact hl
  | cons c p ih =>
    intro a es b hj hl
    cases es with
    | nil => exact hj.elim
    | cons e es1 =>
      obtain ⟨h1, h2, h3⟩ := hj
      rw [List.getLast?_cons_cons] at hl
      refine ⟨h1, ?_⟩
      rw [h2]
      exact ih c es1 b h3 hl

theorem chain_joins {g : Graph} {n : Nat} {src : Int} {s : DState} (hsd : s.dAt src = 0) :
    ∀ (l : List Int) (x : Int), Chain exactAdd g n src s (x :: l) →
      ∃ es, joins g (x :: l).reverse es ∧ walkLen es = s.dAt x := by
  intro l
  induction l with
  | nil =>
    intro x h
    have hx : x = src := h
    subst hx
    exact ⟨[], rfl, by rw [hsd]; rfl⟩
  | cons u rest ih =>
    intro x h
    obtain ⟨_, _, _, ⟨e, he, hex, hd⟩, _, h6⟩ := h
    obtain ⟨es, hj, hlen⟩ := ih u h6
    refine ⟨es ++ [e], ?_, ?_⟩
    · have h1 : (x :: u :: rest).reverse = rest.reverse ++ [u] ++ [x] := by simp
      rw [h1]
      apply joins_snoc g _ _ _ _ _ _ he hex
      have h2 : (u :: rest).reverse = rest.reverse ++ [u] := by simp
      rw [← h2]
      exact hj
    · rw [walkLen_snoc, hlen, hd]
      rfl

/-- The successful result of `dijkstra` under exact addition: its path is joined by edges of the
graph whose distances sum to the reported total. -/
theorem chain_path {g : Graph} {n : Nat} {src dest : Int} {t : DState}
    (hB : Basic exactAdd g n src t) {l : List Int}
    (hl : Chain exactAdd g n src t (dest :: l)) :
    (dest :: l).reverse ≠ [] ∧ (dest :: l).reverse.head? = some src ∧
      (dest :: l).reverse.getLast? = some dest ∧
      (∃ es, joins g (dest :: l).reverse es ∧ walkLen es = t.dAt dest) ∧
      (∃ es, isWalk g src es dest ∧ walkLen es = t.dAt dest) := by
  have hhead : (dest :: l).reverse.head? = some src := by
    rw [List.head?_reverse]; exact chain_getLast l dest hl
  have hlast : (dest :: l).reverse.getLast? = some dest := by
    rw [List.getLast?_reverse]; rfl
  obtain ⟨es, hj, hlen⟩ := chain_joins hB.src_dist l dest hl
  refine ⟨by simp, hhead, hlast, ⟨es, hj, hlen⟩, es, ?_, hlen⟩
  cases hrev : (dest :: l).reverse with
  | nil => simp at hrev
  | cons a p =>
    rw [hrev] at hhead hlast hj
    simp only [List.head?_cons, Option.some.injEq] at hhead
    subst hhead
    exact joins_isWalk g p a es dest hj hlast

/-! ## Shortest path: the claims -/

theorem searchLoop_self (add : Int → Int → Int) (g : Graph) (n : Nat) (s : Int)
    (hs : 0 ≤ s ∧ s < n) (fuel : Nat) :
    searchLoop add g s (fuel + 1) (initState n s) = .ok ((initState n s).mark s) := by
  have hB := basic_init add g n s hs
  have hvis : rd (initState n s).visited s = .ok false := by
    rw [rd_ok _ false _ hs.1 (by rw [hB.shape.hv]; exact hs.2)]
    exact congrArg _ (initState_vAt n s s)
  have hw : wr (initState n s).visited s true = .ok ((initState n s).visited.set s.toNat true) :=
    wr_ok _ _ _ hs.1 (by rw [hB.shape.hv]; exact hs.2)
  have ht : pqTop (initState n s).pq = some (0, s) := rfl
  rw [searchLoop]
  simp only [ht, hvis, hw]
  rfl

/-- C4. Source equals destination: for every graph with `city_count > 0` and every `s` in
`[0, city_count)`, whatever the edges are and however `dist[u] + weight` is evaluated,
`dijkstra(graph, s, s)` returns success with path `[s]` and total distance `0`. -/
theorem dijkstra_self (add : Int → Int → Int) (g : Graph) (s : Int)
    (hpos : 0 < g.city_count) (hs : 0 ≤ s ∧ s < g.city_count) :
    dijkstra add g s s = .ok { path := [s], total_distance := 0, success := true } := by
  obtain ⟨n, hn⟩ : ∃ n : Nat, g.city_count = n := ⟨g.city_count.toNat, by omega⟩
  rw [hn] at hs hpos
  have hpos1 : 0 < n := by omega
  have hB := (@basic_mark add g n s (initState n s) (0, s) (basic_init add g n s hs) rfl).1
  have hrd : rd ((initState n s).mark s).dist s = .ok 0 := by
    rw [rd_ok _ INT_MAX _ hs.1 (by rw [hB.shape.hd]; exact hs.2)]
    exact congrArg _ hB.src_dist
  have hrec := @reconstruct_chain add g n s _ hB.shape hs hB.src_parent [] s [] n rfl hs
    (by simpa using hpos1)
  rw [dijkstra_unfold add s hn hpos1 hs]
  unfold searchFuel
  rw [searchLoop_self add g n s hs]
  simp only [hrd, hrec]
  rfl

theorem dijkstra_self_witness :
    dijkstra wrapAdd graphS3 2 2 = .ok { path := [2], total_distance := 0, success := true } :=
  dijkstra_self wrapAdd graphS3 2 (by decide!) (by decide!)

/-- C1. Path soundness: on a graph with `city_count > 0` whose edges lead to cities in range,
with `src` and `dest` in range and exact addition, `dijkstra` returns a result, and when the
result is a success its path is non-empty, starts with `src`, ends with `dest`, and is joined by
edges of the graph (the `i`-th edge lies in `get_edges(path[i])` and leads to `path[i+1]`) whose
distances sum to `total_distance`.  The sign of the distances plays no role. -/
theorem dijkstra_path_sound (g : Graph) (src dest : Int)
    (hpos : 0 < g.city_count) (hr : g.edgesInRange = true)
    (hs : 0 ≤ src ∧ src < g.city_count) (hd : 0 ≤ dest ∧ dest < g.city_count) :
    ∃ r, dijkstra exactAdd g src dest = .ok r ∧
      (r.success = true →
        r.path ≠ [] ∧ r.path.head? = some src ∧ r.path.getLast? = some dest ∧
        ∃ es, joins g r.path es ∧ walkLen es = r.total_distance) := by
  obtain ⟨n, hn⟩ : ∃ n : Nat, g.city_count = n := ⟨g.city_count.toNat, by omega⟩
  have hr1 := edgesInRange_spec hn hr
  rw [hn] at hs hd hpos
  obtain ⟨t, hB, h⟩ := dijkstra_basic exactAdd hn (by omega) hr1 hs hd
  rcases h with ⟨_, hrun⟩ | ⟨_, l, hl, hrun⟩
  · exact ⟨_, hrun, fun h => by cases h⟩
  · obtain ⟨h1, h2, h3, h4, _⟩ := chain_path hB hl
    exact ⟨_, hrun, fun _ => ⟨h1, h2, h3, h4⟩⟩

theorem dijkstra_path_sound_witness :
    ∃ r, dijkstra exactAdd graphS1 0 1 = .ok r ∧
      (r.success = true →
        r.path ≠ [] ∧ r.path.head? = some 0 ∧ r.path.getLast? = some 1 ∧
        ∃ es, joins graphS1 r.path es ∧ walkLen es = r.total_distance) :=
  dijkstra_path_sound graphS1 0 1 (by decide!) (by decide!) (by decide!) (by decide!)

/-- C2. Optimality: on a graph with `city_count > 0` whose edges lead to cities in range and
have distances `≥ 0`, with `src` and `dest` in range and exact addition, `dijkstra` returns a
result, and when the result is a success its `total_distance` is at most the summed distance of
every walk from `src` to `dest` (duplicate roads are separate edges of the adjacency lists).  On
the roads `(0,1,1), (1,2,1), (2,3,1), (0,3,10)` the result for `(0,3)` is the path `[0,1,2,3]`
with distance `3`. -/
theorem dijkstra_optimal (g : Graph) (src dest : Int)
    (hpos : 0 < g.city_count) (hr : g.edgesInRange = true) (hnn : g.nonnegDistances = true)
    (hs : 0 ≤ src ∧ src < g.city_count) (hd : 0 ≤ dest ∧ dest < g.city_count) :
    (∃ r, dijkstra exactAdd g src dest = .ok r ∧
      (r.success = true → ∀ es, isWalk g src es dest → r.total_distance ≤ walkLen es)) ∧
    dijkstra exactAdd graphS3 0 3 =
      .ok { path := [0, 1, 2, 3], total_distance := 3, success := true } := by
  refine ⟨?_, by decide!⟩
  obtain ⟨n, hn⟩ : ∃ n : Nat, g.city_count = n := ⟨g.city_count.toNat, by omega⟩
  have hr1 := edgesInRange_spec hn hr
  have hnn1 := nonnegDistances_spec hn hnn
  rw [hn] at hs hd hpos
  obtain ⟨t, _, hopt, h⟩ := dijkstra_exact hn (by omega) hr1 hnn1 hs hd
  rcases h with ⟨_, hrun⟩ | ⟨_, l, _, hrun⟩
  · exact ⟨_, hrun, fun h => by cases h⟩
  · exact ⟨_, hrun, fun _ => hopt⟩

theorem dijkstra_optimal_witness :
    (∃ r, dijkstra exactAdd graphS3 0 3 = .ok r ∧
      (r.success = true → ∀ es, isWalk graphS3 0 es 3 → r.total_distance ≤ walkLen es)) ∧
    dijkstra exactAdd graphS3 0 3 =
      .ok { path := [0, 1, 2, 3], total_distance := 3, success := true } :=
  dijkstra_optimal graphS3 0 3 (by decide!) (by decide!) (by decide!) (by decide!) (by decide!)

/-- C3 as stated fails: with one road of distance `INT_MAX` between cities 0 and 1 the
precondition holds and 1 is reachable from 0, but `dijkstra(graph, 0, 1)` reports failure,
with exact and with wrap-around addition alike (the sum `0 + INT_MAX` does not overflow). -/
theorem dijkstra_reachable_counterexample :
    0 < graphMax.city_count ∧ graphMax.edgesInRange = true ∧
      isWalk graphMax 0 [{ dest_id := 1, distance := 2147483647 }] 1 ∧
      dijkstra exactAdd graphMax 0 1 = .ok noPath ∧
      dijkstra wrapAdd graphMax 0 1 = .ok noPath := by
  decide!

/-- C3, amended.  On a graph with `city_count > 0` whose edges lead to cities in range, with
`src` and `dest` in range and exact addition, `dijkstra` returns a result; a success comes with
a walk from `src` to `dest` whose summed distance is `total_distance < INT_MAX`; a failure is
the record with `total_distance = -1` and an empty path; and when all distances are `≥ 0`, the
result is a success as soon as some walk from `src` to `dest` has a summed distance below
`INT_MAX` (so failure means that `dest` is unreachable within that bound). -/
theorem dijkstra_success_iff (g : Graph) (src dest : Int)
    (hpos : 0 < g.city_count) (hr : g.edgesInRange = true)
    (hs : 0 ≤ src ∧ src < g.city_count) (hd : 0 ≤ dest ∧ dest < g.city_count) :
    ∃ r, dijkstra exactAdd g src dest = .ok r ∧
      (r.success = true →
        ∃ es, isWalk g src es dest ∧ walkLen es = r.total_distance ∧
          r.total_distance < INT_MAX) ∧
      (r.success = false → r.total_distance = -1 ∧ r.path = []) ∧
      (g.nonnegDistances = true →
        (r.success = true ↔ ∃ es, isWalk g src es dest ∧ walkLen es < INT_MAX)) := by
  obtain ⟨n, hn⟩ : ∃ n : Nat, g.city_count = n := ⟨g.city_count.toNat, by omega⟩
  have hr1 := edgesInRange_spec hn hr
  rw [hn] at hs hd hpos
  have hpos1 : 0 < n := by omega
  obtain ⟨t, hB, h⟩ := dijkstra_basic exactAdd hn hpos1 hr1 hs hd
  rcases h with ⟨hdd, hrun⟩ | ⟨hdd, l, hl, hrun⟩
  · refine ⟨_, hrun, (fun h => by cases h), fun _ => ⟨rfl, rfl⟩, ?_⟩
    intro hnn
    have hnn1 := nonnegDistances_spec hn hnn
    obtain ⟨t1, _, hopt, h1⟩ := dijkstra_exact hn hpos1 hr1 hnn1 hs hd
    rcases h1 with ⟨hd1, _⟩ | ⟨_, l, _, hrun1⟩
    · constructor
      · intro h; cases h
      · rintro ⟨es, hw, hlen⟩
        have := hopt es hw
        omega
    · rw [hrun] at hrun1
      injection hrun1 with h2
      have : noPath.success = true := by rw [h2]
      cases this
  · obtain ⟨_, _, _, _, es, hw, hlen⟩ := chain_path hB hl
    have hlt : t.dAt dest < INT_MAX := by
      have := hB.dist_le dest hd.1 hd.2
      omega
    refine ⟨_, hrun, fun _ => ⟨es, hw, hlen, hlt⟩, (fun h => by cases h), ?_⟩
    intro _
    exact ⟨fun _ => ⟨es, hw, by omega⟩, fun _ => rfl⟩

theorem dijkstra_success_iff_witness :
    ∃ r, dijkstra exactAdd graphS2 0 2 = .ok r ∧
      (r.success = true →
        ∃ es, isWalk graphS2 0 es 2 ∧ walkLen es = r.total_distance ∧
          r.total_distance < INT_MAX) ∧
      (r.success = false → r.total_distance = -1 ∧ r.path = []) ∧
      (graphS2.nonnegDistances = true →
        (r.success = true ↔ ∃ es, isWalk graphS2 0 es 2 ∧ walkLen es < INT_MAX)) :=
  dijkstra_success_iff graphS2 0 2 (by decide!) (by decide!) (by decide!) (by decide!)

/-! ## Facts about `dijkstra` that need no precondition -/

theorem rd_mem {α : Type} {a : List α} {i : Int} {x : α} (h : rd a i = .ok x) : x ∈ a := by
  unfold rd at h
  split at h
  · split at h
    · rename_i y hy
      injection h with h
      subst h
      exact List.getElem?_mem hy
    · cases h
  · cases h

theorem relaxEdges_dist_le (add : Int → Int → Int) (u : Int) :
    ∀ (es : List Edge) (s t : DState), (∀ x ∈ s.dist, x ≤ INT_MAX) →
      relaxEdges add u es s = .ok t → ∀ x ∈ t.dist, x ≤ INT_MAX := by
  intro es
  induction es with
  | nil =>
    intro s t hs h
    simp only [relaxEdges] at h
    injection h with h
    subst h
    exact hs
  | cons e es ih =>
    intro s t hs h
    simp only [relaxEdges] at h
    split at h
    · cases h
    · split at h
      · exact ih s t hs h
      · split at h
        · cases h
        · split at h
          · exact ih s t hs h
          · split at h
            · cases h
            · rename_i dv hdv
              split at h
              · rename_i hlt
                split at h
                · rename_i dist1 parent1 hw1 hw2
                  refine ih _ t ?_ h
                  intro x hx
                  simp only at hx
                  obtain ⟨_, _, hd1⟩ := wr_ok_inv _ _ _ _ hw1
                  rw [hd1] at hx
                  rcases List.mem_or_eq_of_mem_set hx with hx | hx
                  · exact hs x hx
                  · have := hs dv (rd_mem hdv)
                    omega
                · cases h
              · exact ih s t hs h

theorem searchLoop_dist_le (add : Int → Int → Int) (g : Graph) (dest : Int) :
    ∀ (fuel : Nat) (s t : DState), (∀ x ∈ s.dist, x ≤ INT_MAX) →
      searchLoop add g dest fuel s = .ok t → ∀ x ∈ t.dist, x ≤ INT_MAX := by
  intro fuel
  induction fuel with
  | zero =>
    intro s t hs h
    rw [searchLoop.eq_def] at h
    cases hq : pqTop s.pq with
    | none =>
      simp only [hq] at h
      injection h with h; subst h; exact hs
    | some top =>
      simp only [hq] at h
      cases h
  | succ fuel ih =>
    intro s t hs h
    rw [searchLoop.eq_def] at h
    cases hq : pqTop s.pq with
    | none =>
      simp only [hq] at h
      injection h with h; subst h; exact hs
    | some top =>
      simp only [hq] at h
      split at h
      · cases h
      · split at h
        · refine ih _ t ?_ h
          exact hs
        · split at h
          · cases h
          · split at h
            · injection h with h; subst h; exact hs
            · split at h
              · cases h
              · rename_i s3 hs3
                refine ih s3 t (relaxEdges_dist_le add _ _ _ s3 ?_ hs3) h
                exact hs

/-- A successful result of `dijkstra`, on any graph at all: `dest` is not negative and the total
is below `INT_MAX`. -/
theorem dijkstra_success_lt {add : Int → Int → Int} {g : Graph} {src dest : Int}
    {p : PathResult} (h : dijkstra add g src dest = .ok p) (hs : p.success = true) :
    0 ≤ dest ∧ p.total_distance < INT_MAX := by
  unfold dijkstra at h
  simp only at h
  split at h
  · injection h with h; subst h; cases hs
  · split at h
    · cases h
    · split at h
      · cases h
      · rename_i dist0 hw
        split at h
        · cases h
        · rename_i t ht
          split at h
          · cases h
          · rename_i dd hdd
            split at h
            · injection h with h; subst h; cases hs
            · rename_i hne
              split at h
              · cases h
              · injection h with h
                subst h
                obtain ⟨_, _, hd0⟩ := wr_ok_inv _ _ _ _ hw
                have hinit : ∀ x ∈ dist0, x ≤ INT_MAX := by
                  intro x hx
                  rw [hd0] at hx
                  rcases List.mem_or_eq_of_mem_set hx with hx | hx
                  · rw [List.eq_of_mem_replicate hx]
                  · rw [hx]; decide
                have hle := searchLoop_dist_le add g dest _ _ t hinit ht dd (rd_mem hdd)
                have h0 := (rd_ok_inv _ INT_MAX _ _ hdd).1
                simp only
                exact ⟨h0, by omega⟩

theorem searchLoop_congr (add : Int → Int → Int) {g g1 : Graph} (dest : Int)
    (h : ∀ u, g.get_edges u = g1.get_edges u) :
    ∀ (fuel : Nat) (s : DState), searchLoop add g dest fuel s = searchLoop add g1 dest fuel s := by
  intro fuel
  induction fuel with
  | zero =>
    intro s
    rw [searchLoop.eq_def, searchLoop.eq_def add g1]
  | succ fuel ih =>
    intro s
    rw [searchLoop.eq_def, searchLoop.eq_def add g1]
    simp only [h, ih]

/-- The result of `dijkstra` depends on the graph only through the adjacency lists and
`city_count`. -/
theorem dijkstra_congr (add : Int → Int → Int) {g g1 : Graph} (src dest : Int)
    (ha : g.adj_list = g1.adj_list) (hc : g.city_count = g1.city_count) :
    dijkstra add g src dest = dijkstra add g1 src dest := by
  have he : ∀ u, g.get_edges u = g1.get_edges u := by
    intro u; unfold Graph.get_edges; rw [ha]
  have hfuel : ∀ n, searchFuel g n = searchFuel g1 n := by
    intro n; simp only [searchFuel, edgeCount, he]
  unfold dijkstra
  simp only [hc, hfuel, searchLoop_congr add dest he]

/-! ## The donor scan -/

theorem candidate_unique {add : Int → Int → Int} {g : Graph} {req : DisasterRequest} {c : City}
    {d1 d2 : Int} (h1 : Candidate add g req c d1) (h2 : Candidate add g req c d2) : d1 = d2 := by
  obtain ⟨_, p1, hp1, _, _, rfl⟩ := h1
  obtain ⟨_, p2, hp2, _, _, rfl⟩ := h2
  rw [hp1] at hp2
  injection hp2 with h
  rw [h]

theorem candidate_lt {add : Int → Int → Int} {g : Graph} {req : DisasterRequest} {c : City}
    {d : Int} (h : Candidate add g req c d) : 0 ≤ c.id ∧ 0 ≤ d ∧ d < INT_MAX := by
  obtain ⟨_, p, hp, hs, h0, rfl⟩ := h
  have := dijkstra_success_lt hp hs
  exact ⟨this.1, h0, this.2⟩

/-- What the scan computes: either no candidate beats the starting distance and the pair is
unchanged, or the pair names the first candidate of least distance below it. -/
theorem scan_spec (add : Int → Int → Int) (g : Graph) (req : DisasterRequest) :
    ∀ (cs : List City) (best out : Int × Int), scanDonors add g req cs best = .ok out →
      (out = best ∧ ∀ c ∈ cs, ∀ d, Candidate add g req c d → best.2 ≤ d) ∨
      (∃ pre k post, cs = pre ++ k :: post ∧ out.1 = k.id ∧ Candidate add g req k out.2 ∧
        out.2 < best.2 ∧ (∀ c ∈ pre, ∀ d, Candidate add g req c d → out.2 < d) ∧
        (∀ c ∈ post, ∀ d, Candidate add g req c d → out.2 ≤ d)) := by
  intro cs
  induction cs with
  | nil =>
    intro best out h
    simp only [scanDonors] at h
    injection h with h
    exact Or.inl ⟨h.symm, fun c hc => by cases hc⟩
  | cons c cs ih =>
    intro best out h
    simp only [scanDonors] at h
    split at h
    · rename_i hv
      split at h
      · cases h
      · rename_i p hp
        split at h
        · rename_i hacc
          have hcand : Candidate add g req c p.total_distance := ⟨hv, p, hp, hacc.1, hacc.2.1, rfl⟩
          rcases ih _ out h with ⟨ho, hall⟩ | ⟨pre, k, post, hcs, hk, hkc, hlt, hpre, hpost⟩
          · right
            refine ⟨[], c, cs, rfl, by rw [ho], by rw [ho]; exact hcand, by rw [ho]; exact hacc.2.2,
              (fun c1 hc1 => by cases hc1), ?_⟩
            intro c1 hc1 d hd
            rw [ho]
            exact hall c1 hc1 d hd
          · right
            refine ⟨c :: pre, k, post, by rw [hcs]; rfl, hk, hkc, ?_, ?_, hpost⟩
            · have := hacc.2.2
              simp only at hlt
              omega
            · intro c1 hc1 d hd
              rcases List.mem_cons.mp hc1 with rfl | hc1
              · rw [candidate_unique hd hcand]
                exact hlt
              · exact hpre c1 hc1 d hd
        · rename_i hacc
          have hrej : ∀ d, Candidate add g req c d → best.2 ≤ d := by
            intro d hd
            obtain ⟨_, p1, hp1, hs1, h01, rfl⟩ := hd
            rw [hp] at hp1
            injection hp1 with hp1
            subst hp1
            by_contra hlt
            exact hacc ⟨hs1, h01, by omega⟩
          rcases ih _ out h with ⟨ho, hall⟩ | ⟨pre, k, post, hcs, hk, hkc, hlt, hpre, hpost⟩
          · left
            refine ⟨ho, ?_⟩
            intro c1 hc1 d hd
            rcases List.mem_cons.mp hc1 with rfl | hc1
            · exact hrej d hd
            · exact hall c1 hc1 d hd
          · right
            refine ⟨c :: pre, k, post, by rw [hcs]; rfl, hk, hkc, hlt, ?_, hpost⟩
            intro c1 hc1 d hd
            rcases List.mem_cons.mp hc1 with rfl | hc1
            · have := hrej d hd
              omega
            · exact hpre c1 hc1 d hd
    · rename_i hv
      have hrej : ∀ d, ¬ Candidate add g req c d := fun d hd => hv hd.1
      rcases ih _ out h with ⟨ho, hall⟩ | ⟨pre, k, post, hcs, hk, hkc, hlt, hpre, hpost⟩
      · left
        refine ⟨ho, ?_⟩
        intro c1 hc1 d hd
        rcases List.mem_cons.mp hc1 with rfl | hc1
        · exact absurd hd (hrej d)
        · exact hall c1 hc1 d hd
      · right
        refine ⟨c :: pre, k, post, by rw [hcs]; rfl, hk, hkc, hlt, ?_, hpost⟩
        intro c1 hc1 d hd
        rcases List.mem_cons.mp hc1 with rfl | hc1
        · exact absurd hd (hrej d)
        · exact hpre c1 hc1 d hd

/-! ## Deducting from a city -/

theorem findCityIdx_of_mem : ∀ (cs : List City) (c : City), c ∈ cs →
    ∃ i, findCityIdx cs c.id = some i ∧ i < cs.length := by
  intro cs
  induction cs with
  | nil => intro c hc; cases hc
  | cons a cs ih =>
    intro c hc
    simp only [findCityIdx]
    by_cases ha : a.id = c.id
    · exact ⟨0, by rw [if_pos ha], by simp⟩
    · rcases List.mem_cons.mp hc with rfl | hc
      · exact absurd rfl ha
      · obtain ⟨i, hi, hlt⟩ := ih c hc
        exact ⟨i + 1, by rw [if_neg ha, hi]; rfl, by simp; omega⟩

/-- What the loop body does for one request: it allocates from the first candidate of least
distance and deducts from the first city with that id, or it finds no candidate and changes
nothing. -/
theorem processRequest_spec {add : Int → Int → Int} {g : Graph} {req : DisasterRequest}
    {res : AllocationResult} {g1 : Graph} {req1 : DisasterRequest}
    (h : processRequest add g req = .ok (res, g1, req1)) :
    (∃ pre k post d i, g.cities = pre ++ k :: post ∧ Candidate add g req k d ∧
        (∀ c ∈ pre, ∀ d1, Candidate add g req c d1 → d < d1) ∧
        (∀ c ∈ post, ∀ d1, Candidate add g req c d1 → d ≤ d1) ∧
        res = allocatedResult req k.id d ∧ req1 = { req with status := "allocated" } ∧
        g.find_city_by_id k.id = some i ∧ i < g.cities.length ∧
        g1 = { g with cities := deductAt g.cities i req.required_resources }) ∨
    ((∀ c ∈ g.cities, ∀ d, ¬ Candidate add g req c d) ∧ res = noResourcesResult req ∧
        g1 = g ∧ req1 = req) := by
  unfold processRequest at h
  split at h
  · cases h
  · rename_i bid bd hscan
    rcases scan_spec add g req _ _ _ hscan with ⟨ho, hall⟩ | ⟨pre, k, post, hcs, hk, hkc, _, hpre, hpost⟩
    · right
      injection ho with h1 h2
      subst h1; subst h2
      simp only [ne_eq, not_true_eq_false, if_false] at h
      injection h with h
      injection h with h1 h2
      injection h2 with h2 h3
      refine ⟨?_, h1.symm, h2.symm, h3.symm⟩
      intro c hc d hd
      have h4 := hall c hc d hd
      have h5 := (candidate_lt hd).2.2
      simp only at h4
      omega
    · left
      simp only at hk hkc hpre hpost
      have hne : bid ≠ -1 := by
        have := (candidate_lt hkc).1
        omega
      rw [if_pos hne] at h
      obtain ⟨i, hi, hlt⟩ := findCityIdx_of_mem g.cities k (by rw [hcs]; simp)
      have hfind : g.find_city_by_id bid = some i := by rw [hk]; exact hi
      simp only [hfind] at h
      injection h with h
      injection h with h1 h2
      injection h2 with h2 h3
      refine ⟨pre, k, post, bd, i, hcs, hkc, hpre, hpost, ?_, h3.symm, by rw [← hk]; exact hfind,
        hlt, h2.symm⟩
      rw [← h1, hk]
      rfl

/-! ## A pass of the allocator -/

theorem processRequests_inv {add : Int → Int → Int} {g g2 : Graph} {req : DisasterRequest}
    {rest reqs1 : List DisasterRequest} {results : List AllocationResult}
    (h : processRequests add g (req :: rest) = .ok (results, g2, reqs1)) :
    (req.status ≠ "pending" ∧ ∃ rest1, processRequests add g rest = .ok (results, g2, rest1) ∧
        reqs1 = req :: rest1) ∨
    (req.status = "pending" ∧ ∃ res g1 req1 results1 rest1,
        processRequest add g req = .ok (res, g1, req1) ∧
        processRequests add g1 rest = .ok (results1, g2, rest1) ∧
        results = res :: results1 ∧ reqs1 = req1 :: rest1) := by
  rw [processRequests] at h
  split at h
  · rename_i hst
    left
    split at h
    · cases h
    · rename_i r1 ga rest1 hrec
      injection h with h
      injection h with h1 h2
      injection h2 with h2 h3
      subst h1; subst h2
      exact ⟨hst, rest1, hrec, h3.symm⟩
  · rename_i hst
    right
    split at h
    · cases h
    · rename_i res g1 req1 hone
      split at h
      · cases h
      · rename_i r1 ga rest1 hrec
        injection h with h
        injection h with h1 h2
        injection h2 with h2 h3
        subst h2
        exact ⟨by simpa using hst, res, g1, req1, r1, rest1, hone, hrec, h1.symm, h3.symm⟩

theorem processRequests_skip {add : Int → Int → Int} {g g2 : Graph} {req : DisasterRequest}
    {rest rest1 : List DisasterRequest} {results : List AllocationResult}
    (hst : req.status ≠ "pending")
    (h : processRequests add g rest = .ok (results, g2, rest1)) :
    processRequests add g (req :: rest) = .ok (results, g2, req :: rest1) := by
  rw [processRequests, if_pos hst, h]

theorem processRequests_step {add : Int → Int → Int} {g g1 g2 : Graph}
    {req req1 : DisasterRequest} {rest rest1 : List DisasterRequest} {res : AllocationResult}
    {results : List AllocationResult} (hst : req.status = "pending")
    (h1 : processRequest add g req = .ok (res, g1, req1))
    (h2 : processRequests add g1 rest = .ok (results, g2, rest1)) :
    processRequests add g (req :: rest) = .ok (res :: results, g2, req1 :: rest1) := by
  rw [processRequests, if_neg (by simpa using hst), h1]
  simp only [h2]

/-- Every result of a pass belongs to a pending request, processed in the graph state the
earlier requests of the pass left. -/
theorem processRequests_mem (add : Int → Int → Int) :
    ∀ (reqs : List DisasterRequest) (g g2 : Graph) (results : List AllocationResult)
      (reqs1 : List DisasterRequest), processRequests add g reqs = .ok (results, g2, reqs1) →
      ∀ res ∈ results, ∃ gpre req req1, StateBefore add g reqs reqs1 gpre req req1 res := by
  intro reqs
  induction reqs with
  | nil =>
    intro g g2 results reqs1 h res hres
    simp only [processRequests] at h
    injection h with h
    injection h with h1 _
    subst h1
    cases hres
  | cons r rest ih =>
    intro g g2 results reqs1 h res hres
    rcases processRequests_inv h with ⟨hst, rest1, hrec, rfl⟩ |
      ⟨hst, res0, g1, r1, results1, rest1, hone, hrec, rfl, rfl⟩
    · obtain ⟨gpre, req, req1, pre, post, rs, pre1, post1, ga, h1, h2, h3, h4, h5, h6⟩ :=
        ih g g2 results rest1 hrec res hres
      exact ⟨gpre, req, req1, r :: pre, post, rs, r :: pre1, post1, ga, by rw [h1]; rfl,
        by rw [h2]; rfl, by simp [h3], h4, processRequests_skip hst h5, h6⟩
    · rcases List.mem_cons.mp hres with rfl | hres
      · exact ⟨g, r, r1, [], rest, [], [], rest1, g1, rfl, rfl, rfl, hst, rfl, hone⟩
      · obtain ⟨gpre, req, req1, pre, post, rs, pre1, post1, ga, h1, h2, h3, h4, h5, h6⟩ :=
          ih g1 g2 results1 rest1 hrec res hres
        exact ⟨gpre, req, req1, r :: pre, post, res0 :: rs, r1 :: pre1, post1, ga,
          by rw [h1]; rfl, by rw [h2]; rfl, by simp [h3], h4,
          processRequests_step hst hone h5, h6⟩

theorem deductAt_shape : ∀ (cs : List City) (i : Nat) (amount : Int),
    (deductAt cs i amount).map (fun c => { c with resources := 0 }) =
      cs.map (fun c => { c with resources := 0 }) := by
  intro cs
  induction cs with
  | nil => intro i amount; rfl
  | cons c cs ih =>
    intro i amount
    cases i with
    | zero => rfl
    | succ i =>
      simp only [deductAt, List.map_cons, ih]

theorem sameShape_refl (g : Graph) : SameShape g g := ⟨rfl, rfl, rfl⟩

theorem sameShape_trans {g g1 g2 : Graph} (h1 : SameShape g g1) (h2 : SameShape g1 g2) :
    SameShape g g2 :=
  ⟨h2.1.trans h1.1, h2.2.1.trans h1.2.1, h2.2.2.trans h1.2.2⟩

theorem processRequest_shape {add : Int → Int → Int} {g g1 : Graph} {req req1 : DisasterRequest}
    {res : AllocationResult} (h : processRequest add g req = .ok (res, g1, req1)) :
    SameShape g g1 := by
  rcases processRequest_spec h with ⟨_, _, _, _, i, _, _, _, _, _, _, _, _, hg⟩ | ⟨_, _, hg, _⟩
  · rw [hg]
    exact ⟨rfl, rfl, deductAt_shape _ _ _⟩
  · rw [hg]
    exact sameShape_refl g

theorem processRequests_shape (add : Int → Int → Int) :
    ∀ (reqs : List DisasterRequest) (g g2 : Graph) (results : List AllocationResult)
      (reqs1 : List DisasterRequest), processRequests add g reqs = .ok (results, g2, reqs1) →
      SameShape g g2 := by
  intro reqs
  induction reqs with
  | nil =>
    intro g g2 results reqs1 h
    simp only [processRequests] at h
    injection h with h
    injection h with _ h2
    injection h2 with h2 _
    subst h2
    exact sameShape_refl g
  | cons r rest ih =>
    intro g g2 results reqs1 h
    rcases processRequests_inv h with ⟨_, rest1, hrec, _⟩ |
      ⟨_, res0, g1, r1, results1, rest1, hone, hrec, _, _⟩
    · exact ih g g2 results rest1 hrec
    · exact sameShape_trans (processRequest_shape hone) (ih g1 g2 results1 rest1 hrec)

theorem sameShape_ids {g g1 : Graph} (h : SameShape g g1) :
    g1.cities.map (·.id) = g.cities.map (·.id) := by
  have := congrArg (List.map (·.id)) h.2.2
  simpa [List.map_map, Function.comp_def] using this

theorem sameShape_dense {g g1 : Graph} (h : SameShape g g1) (hd : g.denseIds = true) :
    g1.denseIds = true := by
  have hids := sameShape_ids h
  have hlen : g1.cities.length = g.cities.length := by
    have := congrArg List.length hids
    simpa using this
  unfold Graph.denseIds at hd ⊢
  rw [h.2.1, hids, hlen]
  exact hd

theorem process_allocations_inv {add : Int → Int → Int} {rm rm1 : ResourceManager}
    {g g1 : Graph} {results : List AllocationResult}
    (h : rm.process_allocations add g = .ok (results, rm1, g1)) :
    ∃ reqs1, processRequests add g rm.requests = .ok (results, g1, reqs1) ∧
      rm1 = { rm with requests := reqs1 } := by
  unfold ResourceManager.process_allocations at h
  split at h
  · cases h
  · rename_i r ga reqs1 hrun
    injection h with h
    injection h with h1 h2
    injection h2 with h2 h3
    subst h1; subst h3
    exact ⟨reqs1, hrun, h2.symm⟩

/-! ## The allocator never faults on a well-formed graph -/

theorem wellFormed_spec {g : Graph} (h : g.wellFormed = true) :
    ∃ n : Nat, WF g n := by
  unfold Graph.wellFormed at h
  simp only [Bool.and_eq_true, decide_eq_true_eq, List.all_eq_true] at h
  obtain ⟨⟨h0, hr⟩, hc⟩ := h
  have hn : g.city_count = (g.city_count.toNat : Int) := (Int.toNat_of_nonneg h0).symm
  refine ⟨g.city_count.toNat, hn, edgesInRange_spec hn hr, ?_⟩
  intro c hc1
  rw [← hn]
  exact hc c hc1

theorem wf_sameShape {g g1 : Graph} {n : Nat} (hs : SameShape g g1) (h : WF g n) : WF g1 n := by
  obtain ⟨hn, hr, hc⟩ := h
  refine ⟨hs.2.1.trans hn, ?_, ?_⟩
  · intro u h0 h1 e he
    have : g1.get_edges u = g.get_edges u := by unfold Graph.get_edges; rw [hs.1]
    rw [this] at he
    exact hr u h0 h1 e he
  · intro c hc1
    have hmem : c.id ∈ g1.cities.map (·.id) := List.mem_map_of_mem _ hc1
    rw [sameShape_ids hs, List.mem_map] at hmem
    obtain ⟨c0, hc0, hid⟩ := hmem
    rw [← hid]
    exact hc c0 hc0

theorem dijkstra_total (add : Int → Int → Int) {g : Graph} {n : Nat} (hn : g.city_count = n)
    (hr : InRange g n) {src dest : Int} (hs : g.city_count = 0 ∨ (0 ≤ src ∧ src < g.city_count))
    (hd : 0 ≤ dest ∧ dest < n) : ∃ p, dijkstra add g src dest = .ok p := by
  have hpos : 0 < n := by omega
  have hs1 : 0 ≤ src ∧ src < n := by
    rcases hs with h | h
    · omega
    · rw [hn] at h; exact h
  obtain ⟨t, _, h⟩ := dijkstra_basic add hn hpos hr hs1 hd
  rcases h with ⟨_, h⟩ | ⟨_, l, _, h⟩
  · exact ⟨_, h⟩
  · exact ⟨_, h⟩

theorem scanDonors_total (add : Int → Int → Int) {g : Graph} {n : Nat} (hn : g.city_count = n)
    (hr : InRange g n) (req : DisasterRequest)
    (hs : g.city_count = 0 ∨ (0 ≤ req.city_id ∧ req.city_id < g.city_count)) :
    ∀ (cs : List City) (best : Int × Int), (∀ c ∈ cs, 0 ≤ c.id ∧ c.id < n) →
      ∃ out, scanDonors add g req cs best = .ok out := by
  intro cs
  induction cs with
  | nil => intro best _; exact ⟨best, rfl⟩
  | cons c cs ih =>
    intro best hc
    have hcs : ∀ c1 ∈ cs, 0 ≤ c1.id ∧ c1.id < n := fun c1 h => hc c1 (List.mem_cons_of_mem _ h)
    obtain ⟨p, hp⟩ := dijkstra_total add hn hr hs (hc c (List.mem_cons_self _ _))
    simp only [scanDonors, hp]
    split
    · split
      · exact ih _ hcs
      · exact ih _ hcs
    · exact ih _ hcs

theorem processRequest_total (add : Int → Int → Int) {g : Graph} {n : Nat} (h : WF g n)
    (req : DisasterRequest)
    (hs : g.city_count = 0 ∨ (0 ≤ req.city_id ∧ req.city_id < g.city_count)) :
    ∃ out, processRequest add g req = .ok out := by
  obtain ⟨out, hout⟩ := scanDonors_total add h.1 h.2.1 req hs g.cities (-1, INT_MAX) h.2.2
  unfold processRequest
  rw [hout]
  simp only
  split
  · exact ⟨_, rfl⟩
  · exact ⟨_, rfl⟩

theorem processRequests_total (add : Int → Int → Int) {n : Nat} :
    ∀ (reqs : List DisasterRequest) (g : Graph), WF g n → validRequests g reqs = true →
      ∃ out, processRequests add g reqs = .ok out := by
  intro reqs
  induction reqs with
  | nil => intro g _ _; exact ⟨_, rfl⟩
  | cons r rest ih =>
    intro g hwf hv
    unfold validRequests at hv
    simp only [List.all_cons, Bool.and_eq_true, decide_eq_true_eq] at hv
    obtain ⟨hr, hrest⟩ := hv
    by_cases hst : r.status = "pending"
    · obtain ⟨⟨res, g1, r1⟩, hone⟩ := processRequest_total add hwf r hr
      have hsh := processRequest_shape hone
      have hv1 : validRequests g1 rest = true := by
        unfold validRequests
        rw [hsh.2.1]
        exact hrest
      obtain ⟨⟨results, g2, rest1⟩, hrec⟩ := ih g1 (wf_sameShape hsh hwf) hv1
      exact ⟨_, processRequests_step hst hone hrec⟩
    · obtain ⟨⟨results, g2, rest1⟩, hrec⟩ := ih g hwf hrest
      exact ⟨_, processRequests_skip hst hrec⟩

theorem process_allocations_total (add : Int → Int → Int) (rm : ResourceManager) (g : Graph)
    (hwf : g.wellFormed = true) (hv : validRequests g rm.requests = true) :
    ∃ out, rm.process_allocations add g = .ok out := by
  obtain ⟨n, hn⟩ := wellFormed_spec hwf
  obtain ⟨⟨results, g2, rest1⟩, hrec⟩ := processRequests_total add rm.requests g hn hv
  unfold ResourceManager.process_allocations
  rw [hrec]
  exact ⟨_, rfl⟩

theorem viable_iff (req : DisasterRequest) (c : City) :
    viable req c = true ↔
      (c.id ≠ req.city_id ∧ c.resources ≥ req.required_resources ∧ c.damage_level < 5) := by
  unfold viable
  simp only [Bool.and_eq_true, decide_eq_true_eq, and_assoc]

theorem dense_pairwise {g : Graph} (h : g.denseIds = true) :
    List.Pairwise (fun a b : City => a.id < b.id) g.cities := by
  unfold Graph.denseIds at h
  simp only [Bool.and_eq_true, decide_eq_true_eq] at h
  have h1 : List.Pairwise (· < ·) (g.cities.map (·.id)) := by
    rw [h.2]
    exact (List.pairwise_lt_range _).map _ (fun a b hab => Int.ofNat_lt.mpr hab)
  exact List.pairwise_map.mp h1

/-! ## The allocator: the claims -/

theorem nearestDonor_of_spec {add : Int → Int → Int} {g : Graph} {req req1 : DisasterRequest}
    {res : AllocationResult} {g1 : Graph} (hdense : g.denseIds = true)
    (h : processRequest add g req = .ok (res, g1, req1)) (hst : res.status = "allocated") :
    NearestDonor add g req res := by
  rcases processRequest_spec h with
    ⟨pre, k, post, d, i, hcs, hk, hpre, hpost, hres, _, _, _, _⟩ | ⟨_, hres, _, _⟩
  · have hpw := dense_pairwise hdense
    rw [hcs, List.pairwise_append] at hpw
    obtain ⟨_, hpw2, hpw3⟩ := hpw
    have hpost_id : ∀ c ∈ post, k.id < c.id := (List.pairwise_cons.mp hpw2).1
    have hpre_id : ∀ c ∈ pre, c.id < k.id := fun c hc => hpw3 c hc k (List.mem_cons_self _ _)
    obtain ⟨hkv, p, hp, hps, hp0, hpd⟩ := hk
    have hk1 : Candidate add g req k d := ⟨hkv, p, hp, hps, hp0, hpd⟩
    rw [hres]
    refine ⟨k, by rw [hcs]; simp, rfl, (viable_iff req k).mp hkv,
      ⟨p, hp, hps, hpd, by rw [← hpd]; exact hp0⟩, ?_⟩
    intro j hj hjk hjv q hq hqs hq0
    have hjc : Candidate add g req j q.total_distance :=
      ⟨(viable_iff req j).mpr hjv, q, hq, hqs, hq0, rfl⟩
    rw [hcs] at hj
    simp only [allocatedResult]
    rcases List.mem_append.mp hj with hj | hj
    · exact Or.inl (hpre j hj _ hjc)
    · rcases List.mem_cons.mp hj with rfl | hj
      · exact absurd rfl hjk
      · have h1 := hpost j hj _ hjc
        have h2 := hpost_id j hj
        omega
  · rw [hres] at hst
    have hne : ("no_resources" : String) ≠ "allocated" := by decide
    exact absurd hst hne

/-- C5 as stated fails: on cities 0 (res 0), 1 (res 10), 2 (res 10) with roads (0,1,-5) and
(0,2,50), the request on city 0 for 5 units is allocated from city 2 at distance 50, although
city 1 is a viable donor that `dijkstra` reaches with total distance -5: the scan skips totals
below 0. -/
theorem nearest_donor_counterexample :
    (requestsS5.process_allocations exactAdd graphNeg).map (fun out => out.1) =
      .ok [{ request_id := 1, affected_city_id := 0, support_city_id := 2,
             allocated_resources := 5, distance := 50, status := "allocated" }] ∧
    mkCity 1 10 0 ∈ graphNeg.cities ∧
    ((mkCity 1 10 0).id ≠ 0 ∧ (mkCity 1 10 0).resources ≥ 5 ∧ (mkCity 1 10 0).damage_level < 5) ∧
    dijkstra exactAdd graphNeg 0 1 =
      .ok { path := [0, 1], total_distance := -5, success := true } ∧
    ¬ ((50 : Int) < -5 ∨ ((50 : Int) = -5 ∧ (2 : Int) < 1)) := by
  decide!

/-- C5, amended.  For a graph with dense city ids and every result with status "allocated" of
a pass of `process_allocations`: in the graph state in which the pass reached its request, the
support city is a viable donor (other than the affected city, resources at least the
requirement, damage level below 5), `dijkstra` from the affected city to it succeeds with a
total equal to the distance of the result, which is `≥ 0`, and every other viable donor that
`dijkstra` reaches with a total `≥ 0` is farther, or equally far with a higher id.  The reading
of the addition is arbitrary. -/
theorem nearest_donor_wins (add : Int → Int → Int) (rm rm1 : ResourceManager) (g g1 : Graph)
    (results : List AllocationResult) (res : AllocationResult) (hdense : g.denseIds = true)
    (hrun : rm.process_allocations add g = .ok (results, rm1, g1)) (hres : res ∈ results)
    (hst : res.status = "allocated") :
    ∃ gpre req req1, StateBefore add g rm.requests rm1.requests gpre req req1 res ∧
      res.affected_city_id = req.city_id ∧ NearestDonor add gpre req res := by
  obtain ⟨reqs1, hpass, hrm⟩ := process_allocations_inv hrun
  obtain ⟨gpre, req, req1, hsb⟩ := processRequests_mem add _ _ _ _ _ hpass res hres
  have hsb1 := hsb
  obtain ⟨pre, post, rs, pre1, post1, ga, _, _, _, _, hpre0, hone⟩ := hsb1
  have hd1 := sameShape_dense (processRequests_shape add _ _ _ _ _ hpre0) hdense
  refine ⟨gpre, req, req1, by rw [hrm]; exact hsb, ?_, nearestDonor_of_spec hd1 hone hst⟩
  rcases processRequest_spec hone with
    ⟨_, _, _, _, _, _, _, _, _, h, _⟩ | ⟨_, h, _⟩ <;> rw [h] <;> rfl

theorem nearest_donor_wins_witness :
    ∃ gpre req req1,
      StateBefore exactAdd graphS5 requestsS5.requests
        [{ id := 1, city_id := 0, priority := 1, required_resources := 5, status := "allocated" }]
        gpre req req1
        { request_id := 1, affected_city_id := 0, support_city_id := 2,
          allocated_resources := 5, distance := 50, status := "allocated" } ∧
      (0 : Int) = req.city_id ∧
      NearestDonor exactAdd gpre req
        { request_id := 1, affected_city_id := 0, support_city_id := 2,
          allocated_resources := 5, distance := 50, status := "allocated" } :=
  nearest_donor_wins exactAdd requestsS5
    { requests := [{ id := 1, city_id := 0, priority := 1, required_resources := 5,
                     status := "allocated" }], next_id := 2 }
    graphS5 { graphS5 with cities := [mkCity 0 0 5, mkCity 1 10 0, mkCity 2 5 0] }
    [{ request_id := 1, affected_city_id := 0, support_city_id := 2,
       allocated_resources := 5, distance := 50, status := "allocated" }]
    { request_id := 1, affected_city_id := 0, support_city_id := 2,
      allocated_resources := 5, distance := 50, status := "allocated" }
    (by decide!) (by decide!) (by decide!) (by decide!)

/-- C7 as stated fails: on cities 0 (res 0) and 1 (res 10) joined by a road of distance -5, the
request on city 0 for 5 units gets the result "no_resources", although city 1 is a viable
donor and `dijkstra` from 0 to 1 succeeds (with total distance -5, which the scan skips). -/
theorem no_donor_counterexample :
    (requestsS5.process_allocations exactAdd graphNegOnly).map (fun out => out.1) =
      .ok [{ request_id := 1, affected_city_id := 0, support_city_id := -1,
             allocated_resources := 0, distance := 2147483647, status := "no_resources" }] ∧
    mkCity 1 10 0 ∈ graphNegOnly.cities ∧
    ((mkCity 1 10 0).id ≠ 0 ∧ (mkCity 1 10 0).resources ≥ 5 ∧ (mkCity 1 10 0).damage_level < 5) ∧
    dijkstra exactAdd graphNegOnly 0 1 =
      .ok { path := [0, 1], total_distance := -5, success := true } := by
  decide!

/-- C7, amended.  For every result of a pass of `process_allocations`, in the graph state in
which the pass reached its (pending) request: the status is "no_resources" if and only if no
city is both a viable donor and reached by a successful `dijkstra` from the affected city with
a total distance `≥ 0`; and in that case the result has `support_city_id = -1`,
`distance = INT_MAX` and `allocated_resources = 0`, the loop body leaves the graph as it is, and
the request is unchanged, its status still "pending". -/
theorem no_donor_outcome (add : Int → Int → Int) (rm rm1 : ResourceManager) (g g1 : Graph)
    (results : List AllocationResult) (res : AllocationResult)
    (hrun : rm.process_allocations add g = .ok (results, rm1, g1)) (hres : res ∈ results) :
    ∃ gpre req req1, StateBefore add g rm.requests rm1.requests gpre req req1 res ∧
      (res.status = "no_resources" ↔ ¬ HasDonor add gpre req) ∧
      (res.status = "no_resources" →
        res.support_city_id = -1 ∧ res.distance = INT_MAX ∧ res.allocated_resources = 0 ∧
        processRequest add gpre req = .ok (res, gpre, req) ∧ req1 = req ∧
        req1.status = "pending") := by
  obtain ⟨reqs1, hpass, hrm⟩ := process_allocations_inv hrun
  obtain ⟨gpre, req, req1, hsb⟩ := processRequests_mem add _ _ _ _ _ hpass res hres
  have hsb1 := hsb
  obtain ⟨pre, post, rs, pre1, post1, ga, _, _, _, hpend, _, hone⟩ := hsb1
  refine ⟨gpre, req, req1, by rw [hrm]; exact hsb, ?_⟩
  have hne : ("allocated" : String) ≠ "no_resources" := by decide
  rcases processRequest_spec hone with
    ⟨_, k, _, d, _, hcs, hk, _, _, h, _⟩ | ⟨hnone, h, hg, hr⟩
  · have hdonor : HasDonor add gpre req := by
      obtain ⟨hkv, p, hp, hps, hp0, _⟩ := hk
      exact ⟨k, by rw [hcs]; simp, (viable_iff req k).mp hkv, p, hp, hps, hp0⟩
    rw [h]
    exact ⟨⟨fun h1 => absurd h1 hne, fun h1 => absurd hdonor h1⟩, fun h1 => absurd h1 hne⟩
  · have hno : ¬ HasDonor add gpre req := by
      rintro ⟨c, hc, hv, p, hp, hps, hp0⟩
      exact hnone c hc p.total_distance ⟨(viable_iff req c).mpr hv, p, hp, hps, hp0, rfl⟩
    rw [hg, hr] at hone
    rw [h] at hone ⊢
    exact ⟨⟨fun _ => hno, fun _ => rfl⟩, fun _ => ⟨rfl, rfl, rfl, hone, hr, by rw [hr]; exact hpend⟩⟩

theorem no_donor_outcome_witness :
    ∃ gpre req req1,
      StateBefore exactAdd graphS6 requestsS5.requests requestsS5.requests gpre req req1
        { request_id := 1, affected_city_id := 0, support_city_id := -1,
          allocated_resources := 0, distance := 2147483647, status := "no_resources" } ∧
      (("no_resources" : String) = "no_resources" ↔ ¬ HasDonor exactAdd gpre req) ∧
      (("no_resources" : String) = "no_resources" →
        (-1 : Int) = -1 ∧ (2147483647 : Int) = INT_MAX ∧ (0 : Int) = 0 ∧
        processRequest exactAdd gpre req =
          .ok ({ request_id := 1, affected_city_id := 0, support_city_id := -1,
                 allocated_resources := 0, distance := 2147483647, status := "no_resources" },
               gpre, req) ∧
        req1 = req ∧ req1.status = "pending") :=
  no_donor_outcome exactAdd requestsS5 requestsS5 graphS6 graphS6
    [{ request_id := 1, affected_city_id := 0, support_city_id := -1,
       allocated_resources := 0, distance := 2147483647, status := "no_resources" }]
    { request_id := 1, affected_city_id := 0, support_city_id := -1,
      allocated_resources := 0, distance := 2147483647, status := "no_resources" }
    (by decide!) (by decide!)

theorem processRequest_ids {add : Int → Int → Int} {g g1 : Graph} {req req1 : DisasterRequest}
    {res : AllocationResult} (h : processRequest add g req = .ok (res, g1, req1)) :
    res.request_id = req.id ∧ res.affected_city_id = req.city_id := by
  rcases processRequest_spec h with
    ⟨_, _, _, _, _, _, _, _, _, h, _⟩ | ⟨_, h, _⟩ <;> rw [h] <;> exact ⟨rfl, rfl⟩

theorem processRequests_ids (add : Int → Int → Int) :
    ∀ (reqs : List DisasterRequest) (g g2 : Graph) (results : List AllocationResult)
      (reqs1 : List DisasterRequest), processRequests add g reqs = .ok (results, g2, reqs1) →
      results.map (fun r => (r.request_id, r.affected_city_id)) =
        (reqs.filter isPending).map (fun q => (q.id, q.city_id)) := by
  intro reqs
  induction reqs with
  | nil =>
    intro g g2 results reqs1 h
    simp only [processRequests] at h
    injection h with h
    injection h with h1 _
    subst h1
    rfl
  | cons r rest ih =>
    intro g g2 results reqs1 h
    rcases processRequests_inv h with ⟨hst, rest1, hrec, _⟩ |
      ⟨hst, res0, g1, r1, results1, rest1, hone, hrec, rfl, _⟩
    · have hp : isPending r = false := by simp [isPending, hst]
      rw [List.filter_cons, hp]
      exact ih g g2 results rest1 hrec
    · have hp : isPending r = true := by simp [isPending, hst]
      have hid := processRequest_ids hone
      rw [List.filter_cons, hp]
      simp only [if_true, List.map_cons, ih g1 g2 results1 rest1 hrec, hid.1, hid.2]

/-- C8. One result per pending request, in list order: whenever `process_allocations` returns,
the `request_id` and `affected_city_id` of its results are, in order, the `id` and `city_id` of
the requests whose status is "pending" at pass entry, in the order of the request list (so a
request that is not pending at entry has no result); and on a well-formed graph with requests
on cities of the graph it does return. -/
theorem one_result_per_pending (add : Int → Int → Int) (rm : ResourceManager) (g : Graph) :
    (g.wellFormed = true → validRequests g rm.requests = true →
      ∃ out, rm.process_allocations add g = .ok out) ∧
    ∀ (results : List AllocationResult) (rm1 : ResourceManager) (g1 : Graph),
      rm.process_allocations add g = .ok (results, rm1, g1) →
      results.map (·.request_id) = (rm.requests.filter isPending).map (·.id) ∧
      results.map (·.affected_city_id) = (rm.requests.filter isPending).map (·.city_id) := by
  refine ⟨process_allocations_total add rm g, ?_⟩
  intro results rm1 g1 hrun
  obtain ⟨reqs1, hpass, _⟩ := process_allocations_inv hrun
  have h := processRequests_ids add _ _ _ _ _ hpass
  have h1 := congrArg (List.map Prod.fst) h
  have h2 := congrArg (List.map Prod.snd) h
  simp only [List.map_map, Function.comp_def] at h1 h2
  exact ⟨h1, h2⟩

theorem one_result_per_pending_witness :
    (∃ out, requestsS4.process_allocations exactAdd graphS5 = .ok out) ∧
    (requestsS4.process_allocations exactAdd graphS5).map (fun out => out.1.map (·.request_id)) =
      .ok [2, 3, 1] :=
  ⟨(one_result_per_pending exactAdd requestsS4 graphS5).1 (by decide!) (by decide!),
    by decide!⟩

/-! ## A second pass -/

theorem cityLe_refl (c : City) : CityLe c c := ⟨rfl, rfl, le_refl _⟩

theorem forall2_cityLe_refl : ∀ cs : List City, List.Forall₂ CityLe cs cs
  | [] => List.Forall₂.nil
  | c :: cs => List.Forall₂.cons (cityLe_refl c) (forall2_cityLe_refl cs)

theorem forall2_cityLe_trans : ∀ {l1 l2 l3 : List City}, List.Forall₂ CityLe l1 l2 →
    List.Forall₂ CityLe l2 l3 → List.Forall₂ CityLe l1 l3
  | _, _, _, List.Forall₂.nil, List.Forall₂.nil => List.Forall₂.nil
  | _, _, _, List.Forall₂.cons h1 t1, List.Forall₂.cons h2 t2 =>
    List.Forall₂.cons ⟨h2.1.trans h1.1, h2.2.1.trans h1.2.1, le_trans h2.2.2 h1.2.2⟩
      (forall2_cityLe_trans t1 t2)

theorem resLe_refl (g : Graph) : ResLe g g := ⟨rfl, rfl, forall2_cityLe_refl _⟩

theorem resLe_trans {g g1 g2 : Graph} (h1 : ResLe g g1) (h2 : ResLe g1 g2) : ResLe g g2 :=
  ⟨h2.1.trans h1.1, h2.2.1.trans h1.2.1, forall2_cityLe_trans h1.2.2 h2.2.2⟩

theorem deductAt_cityLe (amount : Int) (ha : 0 ≤ amount) :
    ∀ (cs : List City) (i : Nat), List.Forall₂ CityLe cs (deductAt cs i amount) := by
  intro cs
  induction cs with
  | nil => intro i; exact List.Forall₂.nil
  | cons c cs ih =>
    intro i
    cases i with
    | zero =>
      exact List.Forall₂.cons ⟨rfl, rfl, by simp only; omega⟩ (forall2_cityLe_refl cs)
    | succ i => exact List.Forall₂.cons (cityLe_refl c) (ih i)

theorem processRequest_resLe {add : Int → Int → Int} {g g1 : Graph}
    {req req1 : DisasterRequest} {res : AllocationResult} (ha : 0 ≤ req.required_resources)
    (h : processRequest add g req = .ok (res, g1, req1)) : ResLe g g1 := by
  rcases processRequest_spec h with ⟨_, _, _, _, i, _, _, _, _, _, _, _, _, hg⟩ | ⟨_, _, hg, _⟩
  · rw [hg]
    exact ⟨rfl, rfl, deductAt_cityLe _ ha _ _⟩
  · rw [hg]
    exact resLe_refl g

theorem processRequests_resLe (add : Int → Int → Int) :
    ∀ (reqs : List DisasterRequest) (g g2 : Graph) (results : List AllocationResult)
      (reqs1 : List DisasterRequest), (∀ r ∈ reqs, 0 ≤ r.required_resources) →
      processRequests add g reqs = .ok (results, g2, reqs1) → ResLe g g2 := by
  intro reqs
  induction reqs with
  | nil =>
    intro g g2 results reqs1 _ h
    simp only [processRequests] at h
    injection h with h
    injection h with _ h2
    injection h2 with h2 _
    subst h2
    exact resLe_refl g
  | cons r rest ih =>
    intro g g2 results reqs1 hreq h
    have hrest : ∀ r1 ∈ rest, 0 ≤ r1.required_resources :=
      fun r1 h1 => hreq r1 (List.mem_cons_of_mem _ h1)
    rcases processRequests_inv h with ⟨_, rest1, hrec, _⟩ |
      ⟨_, res0, g1, r1, results1, rest1, hone, hrec, _, _⟩
    · exact ih g g2 results rest1 hrest hrec
    · exact resLe_trans (processRequest_resLe (hreq r (List.mem_cons_self _ _)) hone)
        (ih g1 g2 results1 rest1 hrest hrec)

theorem scan_defined (add : Int → Int → Int) (g : Graph) (req : DisasterRequest) :
    ∀ (cs : List City) (best out : Int × Int), scanDonors add g req cs best = .ok out →
      ∀ c ∈ cs, viable req c = true → ∃ p, dijkstra add g req.city_id c.id = .ok p := by
  intro cs
  induction cs with
  | nil => intro best out _ c hc; cases hc
  | cons a cs ih =>
    intro best out h c hc hv
    simp only [scanDonors] at h
    split at h
    · split at h
      · cases h
      · rename_i p hp
        rcases List.mem_cons.mp hc with rfl | hc
        · exact ⟨p, hp⟩
        · split at h
          · exact ih _ out h c hc hv
          · exact ih _ out h c hc hv
    · rename_i hva
      rcases List.mem_cons.mp hc with rfl | hc
      · exact absurd hv hva
      · exact ih _ out h c hc hv

theorem scan_none (add : Int → Int → Int) (g : Graph) (req : DisasterRequest) :
    ∀ (cs : List City) (best : Int × Int),
      (∀ c ∈ cs, viable req c = true →
        ∃ p, dijkstra add g req.city_id c.id = .ok p ∧
          ¬ (p.success = true ∧ 0 ≤ p.total_distance)) →
      scanDonors add g req cs best = .ok best := by
  intro cs
  induction cs with
  | nil => intro best _; rfl
  | cons a cs ih =>
    intro best h
    have hcs := ih best (fun c hc => h c (List.mem_cons_of_mem _ hc))
    simp only [scanDonors]
    split
    · rename_i hv
      obtain ⟨p, hp, hrej⟩ := h a (List.mem_cons_self _ _) hv
      rw [hp]
      simp only
      rw [if_neg (fun hacc => hrej ⟨hacc.1, hacc.2.1⟩)]
      exact hcs
    · exact hcs

theorem forall2_mem_right {R : City → City → Prop} {l1 l2 : List City}
    (h : List.Forall₂ R l1 l2) : ∀ b ∈ l2, ∃ a ∈ l1, R a b := by
  induction h with
  | nil => intro b hb; cases hb
  | cons hab _ ih =>
    intro b hb
    rcases List.mem_cons.mp hb with rfl | hb
    · exact ⟨_, List.mem_cons_self _ _, hab⟩
    · obtain ⟨a2, ha2, hr⟩ := ih b hb
      exact ⟨a2, List.mem_cons_of_mem _ ha2, hr⟩

/-- A request that finds no donor finds none either after resources have gone down. -/
theorem processRequest_none_mono {add : Int → Int → Int} {g g1 g2 : Graph}
    {req req1 : DisasterRequest} {res : AllocationResult}
    (h : processRequest add g req = .ok (res, g1, req1))
    (hnone : ∀ c ∈ g.cities, ∀ d, ¬ Candidate add g req c d) (hle : ResLe g g2) :
    processRequest add g2 req = .ok (noResourcesResult req, g2, req) := by
  have hdef : ∀ c ∈ g.cities, viable req c = true →
      ∃ p, dijkstra add g req.city_id c.id = .ok p := by
    unfold processRequest at h
    split at h
    · cases h
    · rename_i bid bd hscan
      exact scan_defined add g req _ _ _ hscan
  have hscan2 : scanDonors add g2 req g2.cities (-1, INT_MAX) = .ok (-1, INT_MAX) := by
    apply scan_none
    intro c2 hc2 hv2
    obtain ⟨c, hc, hid, hdmg, hres⟩ := forall2_mem_right hle.2.2 c2 hc2
    have hv : viable req c = true := by
      rw [viable_iff] at hv2 ⊢
      rw [hid, hdmg] at hv2
      exact ⟨hv2.1, by omega, hv2.2.2⟩
    obtain ⟨p, hp⟩ := hdef c hc hv
    refine ⟨p, ?_, ?_⟩
    · rw [hid, dijkstra_congr add _ _ hle.1 hle.2.1]
      exact hp
    · intro hacc
      exact hnone c hc p.total_distance ⟨hv, p, hp, hacc.1, hacc.2, rfl⟩
  unfold processRequest
  rw [hscan2]
  rfl

theorem second_pass (add : Int → Int → Int) :
    ∀ (reqs : List DisasterRequest) (g gF : Graph) (results : List AllocationResult)
      (reqs1 : List DisasterRequest), (∀ r ∈ reqs, 0 ≤ r.required_resources) →
      processRequests add g reqs = .ok (results, gF, reqs1) →
      ∀ g2, ResLe gF g2 →
        processRequests add g2 reqs1 =
          .ok ((reqs1.filter isPending).map noResourcesResult, g2, reqs1) := by
  intro reqs
  induction reqs with
  | nil =>
    intro g gF results reqs1 _ h g2 _
    simp only [processRequests] at h
    injection h with h
    injection h with _ h2
    injection h2 with _ h3
    subst h3
    rfl
  | cons r rest ih =>
    intro g gF results reqs1 hreq h g2 hle
    have hrest : ∀ r1 ∈ rest, 0 ≤ r1.required_resources :=
      fun r1 h1 => hreq r1 (List.mem_cons_of_mem _ h1)
    rcases processRequests_inv h with ⟨hst, rest1, hrec, rfl⟩ |
      ⟨hst, res0, g1, r1, results1, rest1, hone, hrec, _, rfl⟩
    · have hp : isPending r = false := by simp [isPending, hst]
      rw [List.filter_cons, hp]
      exact processRequests_skip hst (ih g gF results rest1 hrest hrec g2 hle)
    · have h2 := ih g1 gF results1 rest1 hrest hrec g2 hle
      rcases processRequest_spec hone with
        ⟨_, _, _, _, _, _, _, _, _, _, hr1, _⟩ | ⟨hnone, _, hg1, hr1⟩
      · have hsne : ("allocated" : String) ≠ "pending" := by decide
        have hne : r1.status ≠ "pending" := by rw [hr1]; exact hsne
        have hp : isPending r1 = false := by simp [isPending, hne]
        rw [List.filter_cons, hp]
        exact processRequests_skip hne h2
      · have hp : isPending r1 = true := by simp [isPending, hr1, hst]
        rw [List.filter_cons, hp]
        rw [hg1] at hrec
        have hle1 := resLe_trans (processRequests_resLe add _ _ _ _ _ hrest hrec) hle
        have hone2 := processRequest_none_mono hone hnone hle1
        rw [hr1]
        simp only [if_true, List.map_cons]
        exact processRequests_step hst hone2 h2

/-- C9. `process_allocations` is idempotent: when every `required_resources` is `≥ 0` and a
first pass has returned, a second pass right after it returns as well, leaves the graph and the
request list exactly as the first pass left them, and its results are, in list order, one
record per request still pending after the first pass, each with status "no_resources" (no
support city, distance `INT_MAX`, nothing allocated). -/
theorem process_allocations_idempotent (add : Int → Int → Int) (rm rm1 : ResourceManager)
    (g g1 : Graph) (results : List AllocationResult)
    (hreq : ∀ r ∈ rm.requests, 0 ≤ r.required_resources)
    (hrun : rm.process_allocations add g = .ok (results, rm1, g1)) :
    rm1.process_allocations add g1 =
      .ok ((rm1.requests.filter isPending).map noResourcesResult, rm1, g1) := by
  obtain ⟨reqs1, hpass, hrm⟩ := process_allocations_inv hrun
  have h2 := second_pass add _ _ _ _ _ hreq hpass g1 (resLe_refl g1)
  unfold ResourceManager.process_allocations
  rw [hrm]
  simp only [h2]

theorem process_allocations_idempotent_witness :
    requestsS5.process_allocations exactAdd graphS6 =
      .ok ((requestsS5.requests.filter isPending).map noResourcesResult, requestsS5, graphS6) :=
  process_allocations_idempotent exactAdd requestsS5 requestsS5 graphS6 graphS6
    [{ request_id := 1, affected_city_id := 0, support_city_id := -1,
       allocated_resources := 0, distance := 2147483647, status := "no_resources" }]
    (by decide!) (by decide!)

/-! ## The order of the request list -/

theorem mem_insertRequest (req : DisasterRequest) :
    ∀ (reqs : List DisasterRequest) (b : DisasterRequest),
      b ∈ insertRequest req reqs ↔ b = req ∨ b ∈ reqs := by
  intro reqs
  induction reqs with
  | nil => intro b; simp [insertRequest]
  | cons r rs ih =>
    intro b
    simp only [insertRequest]
    split
    · simp only [List.mem_cons, ih]
      tauto
    · simp only [List.mem_cons]

theorem insertRequest_ordered (req : DisasterRequest) :
    ∀ reqs : List DisasterRequest, Ordered reqs → (∀ r ∈ reqs, r.id < req.id) →
      Ordered (insertRequest req reqs) := by
  intro reqs
  induction reqs with
  | nil => intro _ _; simp [insertRequest, Ordered]
  | cons r rs ih =>
    intro ho hid
    unfold Ordered at ho
    obtain ⟨hr, hrs⟩ := List.pairwise_cons.mp ho
    simp only [insertRequest]
    split
    · rename_i hge
      refine List.pairwise_cons.mpr ⟨?_, ih hrs (fun r1 h1 => hid r1 (List.mem_cons_of_mem _ h1))⟩
      intro b hb
      rcases (mem_insertRequest req rs b).mp hb with rfl | hb
      · exact ⟨hge, fun _ => hid r (List.mem_cons_self _ _)⟩
      · exact hr b hb
    · rename_i hlt
      refine List.pairwise_cons.mpr ⟨?_, ho⟩
      intro b hb
      rcases List.mem_cons.mp hb with rfl | hb
      · exact ⟨by omega, fun h => by omega⟩
      · have := (hr b hb).1
        exact ⟨by omega, fun h => by omega⟩

theorem processRequest_keys {add : Int → Int → Int} {g g1 : Graph} {req req1 : DisasterRequest}
    {res : AllocationResult} (h : processRequest add g req = .ok (res, g1, req1)) :
    req1.id = req.id ∧ req1.priority = req.priority := by
  rcases processRequest_spec h with
    ⟨_, _, _, _, _, _, _, _, _, _, h, _⟩ | ⟨_, _, _, h⟩ <;> rw [h] <;> exact ⟨rfl, rfl⟩

theorem processRequests_keys (add : Int → Int → Int) :
    ∀ (reqs : List DisasterRequest) (g g2 : Graph) (results : List AllocationResult)
      (reqs1 : List DisasterRequest), processRequests add g reqs = .ok (results, g2, reqs1) →
      reqs1.map (fun r => (r.priority, r.id)) = reqs.map (fun r => (r.priority, r.id)) := by
  intro reqs
  induction reqs with
  | nil =>
    intro g g2 results reqs1 h
    simp only [processRequests] at h
    injection h with h
    injection h with _ h2
    injection h2 with _ h3
    subst h3
    rfl
  | cons r rest ih =>
    intro g g2 results reqs1 h
    rcases processRequests_inv h with ⟨_, rest1, hrec, rfl⟩ |
      ⟨_, res0, g1, r1, results1, rest1, hone, hrec, _, rfl⟩
    · simp only [List.map_cons, ih g g2 results rest1 hrec]
    · have hk := processRequest_keys hone
      simp only [List.map_cons, ih g1 g2 results1 rest1 hrec, hk.1, hk.2]

theorem ordered_iff_keys (reqs : List DisasterRequest) :
    Ordered reqs ↔
      List.Pairwise (fun a b : Int × Int => a.1 ≥ b.1 ∧ (a.1 = b.1 → a.2 < b.2))
        (reqs.map (fun r => (r.priority, r.id))) := by
  unfold Ordered
  rw [List.pairwise_map]

theorem reachable_ordered {rm : ResourceManager} (h : RMReachable rm) :
    Ordered rm.requests ∧ ∀ r ∈ rm.requests, r.id < rm.next_id := by
  induction h with
  | init => exact ⟨by simp [Ordered, ResourceManager.init], fun r hr => by cases hr⟩
  | add_request rm city_id priority required_resources _ ih =>
    obtain ⟨ho, hid⟩ := ih
    refine ⟨insertRequest_ordered _ _ ho hid, ?_⟩
    intro r hr
    simp only [ResourceManager.add_request] at hr ⊢
    rcases (mem_insertRequest _ _ r).mp hr with rfl | hr
    · simp
    · have := hid r hr
      omega
  | process_allocations add rm rm1 g g1 results _ hrun ih =>
    obtain ⟨ho, hid⟩ := ih
    obtain ⟨reqs1, hpass, hrm⟩ := process_allocations_inv hrun
    have hk := processRequests_keys add _ _ _ _ _ hpass
    rw [hrm]
    refine ⟨?_, ?_⟩
    · rw [ordered_iff_keys] at ho ⊢
      simp only
      rw [hk]
      exact ho
    · intro r hr
      simp only at hr ⊢
      have hmem : (r.priority, r.id) ∈ reqs1.map (fun r => (r.priority, r.id)) :=
        List.mem_map_of_mem _ hr
      rw [hk, List.mem_map] at hmem
      obtain ⟨r0, hr0, he⟩ := hmem
      have := hid r0 hr0
      have hid2 : r0.id = r.id := congrArg Prod.snd he
      omega
  | clear rm _ _ => exact ⟨by simp [Ordered, ResourceManager.clear], fun r hr => by cases hr⟩

/-- C10. Request-list order invariant: in every state of the resource manager reached from the
initial state by calls of `add_request`, `process_allocations` and `clear`, a request that
stands earlier in the list has a priority at least that of a later one, and at equal priority
the strictly smaller id (first in, first out: a later-added request stands after every earlier
request of priority at least its own).  After `add_request(0,1,5)`, `add_request(1,5,3)`,
`add_request(2,5,2)` the list holds the ids `[2, 3, 1]`. -/
theorem request_order_invariant (rm : ResourceManager) (h : RMReachable rm) :
    List.Pairwise (fun a b : DisasterRequest =>
        a.priority ≥ b.priority ∧ (a.priority = b.priority → a.id < b.id)) rm.requests ∧
      requestsS4.requests.map (·.id) = [2, 3, 1] :=
  ⟨(reachable_ordered h).1, by decide!⟩

theorem request_order_invariant_witness :
    List.Pairwise (fun a b : DisasterRequest =>
        a.priority ≥ b.priority ∧ (a.priority = b.priority → a.id < b.id))
        requestsS4.requests ∧
      requestsS4.requests.map (·.id) = [2, 3, 1] :=
  request_order_invariant requestsS4
    (RMReachable.add_request _ 2 5 2
      (RMReachable.add_request _ 1 5 3
        (RMReachable.add_request _ 0 1 5 RMReachable.init)))

/-! ## Graph operations -/

theorem lookup_adjUpdate (f : List Edge → List Edge) (key : Int) :
    ∀ (l : List (Int × List Edge)) (k : Int),
      (adjUpdate f key l).lookup k =
        if k = key then some (f ((l.lookup key).getD [])) else l.lookup k := by
  intro l
  induction l with
  | nil =>
    intro k
    by_cases hk : k = key
    · simp [adjUpdate, List.lookup, hk]
    · have hb : (k == key) = false := by simpa using hk
      simp [adjUpdate, List.lookup, hk, hb]
  | cons p l ih =>
    intro k
    obtain ⟨a, es⟩ := p
    by_cases ha : a = key
    · subst ha
      by_cases hk : k = a
      · simp [adjUpdate, List.lookup, hk]
      · have hb : (k == a) = false := by simpa using hk
        simp [adjUpdate, List.lookup, hk, hb]
    · have hka : (key == a) = false := by simpa using fun h => ha h.symm
      by_cases hk : k = key
      · subst hk
        simp [adjUpdate, List.lookup, ha, hka, ih]
      · by_cases hk2 : k = a
        · simp [adjUpdate, List.lookup, ha, hk, hk2, hka]
        · have hb : (k == a) = false := by simpa using hk2
          simp [adjUpdate, List.lookup, ha, hk, hk2, hka, hb, ih]

theorem get_edges_adjUpdate (g : Graph) (f : List Edge → List Edge) (key k : Int) :
    ({ g with adj_list := adjUpdate f key g.adj_list } : Graph).get_edges k =
      if k = key then f (g.get_edges key) else g.get_edges k := by
  unfold Graph.get_edges
  simp only [lookup_adjUpdate]
  by_cases hk : k = key
  · simp only [hk, if_true]
    cases List.lookup key g.adj_list <;> rfl
  · simp only [hk, if_false]

theorem get_edges_add_city (g : Graph) (name : String) (pop damage res : Int) (lat lon : Nat)
    (k : Int) :
    (g.add_city name pop damage res lat lon).1.get_edges k =
      if k = g.city_count then [] else g.get_edges k := by
  have h := get_edges_adjUpdate g (fun _ => []) g.city_count k
  unfold Graph.get_edges at h ⊢
  exact h

theorem get_edges_add_road (g : Graph) (src dest dist k : Int) :
    (g.add_road src dest dist).get_edges k =
      g.get_edges k ++ (if k = src then [{ dest_id := dest, distance := dist }] else []) ++
        (if k = dest then [{ dest_id := src, distance := dist }] else []) := by
  have h1 := get_edges_adjUpdate g (fun es => es ++ [{ dest_id := dest, distance := dist }]) src
  have h2 := get_edges_adjUpdate
    { g with adj_list :=
        adjUpdate (fun es => es ++ [{ dest_id := dest, distance := dist }]) src g.adj_list }
    (fun es => es ++ [{ dest_id := src, distance := dist }]) dest k
  have h3 : (g.add_road src dest dist).get_edges k = _ := h2
  rw [h3, h1 k, h1 dest]
  by_cases hd : k = dest
  · by_cases hs : k = src
    · have hds : dest = src := hd.symm.trans hs
      rw [if_pos hd, if_pos hs, if_pos hd, if_pos hds, ← hs]
    · have hds : ¬ dest = src := fun h => hs (hd.trans h)
      rw [if_pos hd, if_neg hs, if_pos hd, if_neg hds, hd]
      simp
  · by_cases hs : k = src
    · rw [if_neg hd, if_pos hs, if_neg hd, hs]
      simp
    · rw [if_neg hd, if_neg hs, if_neg hd]
      simp [hs]

theorem get_edges_clear (g : Graph) (k : Int) : g.clear.get_edges k = [] := rfl

theorem dense_spec {g : Graph} (h : g.denseIds = true) :
    g.city_count = g.cities.length ∧
      ∀ (i : Nat) (hi : i < g.cities.length), (g.cities[i]).id = i := by
  unfold Graph.denseIds at h
  simp only [Bool.and_eq_true, decide_eq_true_eq] at h
  refine ⟨h.1, ?_⟩
  intro i hi
  have h1 : (g.cities.map (·.id))[i]? = ((List.range g.cities.length).map
      (fun (i : Nat) => (i : Int)))[i]? := by rw [h.2]
  simp only [List.getElem?_map, List.getElem?_eq_getElem hi, List.getElem?_range hi,
    Option.map_some'] at h1
  injection h1

theorem dense_empty : Graph.empty.denseIds = true := by decide

theorem dense_add_city {g : Graph} (h : g.denseIds = true) (name : String)
    (pop damage res : Int) (lat lon : Nat) :
    (g.add_city name pop damage res lat lon).1.denseIds = true := by
  unfold Graph.denseIds at h ⊢
  simp only [Bool.and_eq_true, decide_eq_true_eq] at h ⊢
  simp only [Graph.add_city, List.length_append, List.length_singleton, List.map_append,
    List.map_cons, List.map_nil, List.range_succ]
  refine ⟨by rw [h.1]; simp, ?_⟩
  rw [h.2, h.1]

theorem reachable_dense {g : Graph} (h : GraphReachable g) : g.denseIds = true := by
  induction h with
  | empty => exact dense_empty
  | add_city g name pop damage res lat lon _ ih => exact dense_add_city ih _ _ _ _ _ _
  | add_road g src dest dist _ ih => exact ih
  | clear g _ _ => exact dense_empty

/-- C11. City ids are dense: in every graph state reached from the empty graph by calls of
`add_city`, `add_road` and `clear`, `city_count` is the length of the city list and the `i`-th
city has id `i`; `add_city` returns the `city_count` of the state it is called on, and after
`clear` the next `add_city` returns `0`. -/
theorem city_ids_dense (g : Graph) (h : GraphReachable g) :
    g.city_count = g.cities.length ∧
      (∀ (i : Nat) (hi : i < g.cities.length), (g.cities[i]).id = i) ∧
      (∀ (name : String) (pop damage res : Int) (lat lon : Nat),
        (g.add_city name pop damage res lat lon).2 = g.city_count ∧
        (g.clear.add_city name pop damage res lat lon).2 = 0) := by
  obtain ⟨h1, h2⟩ := dense_spec (reachable_dense h)
  exact ⟨h1, h2, fun _ _ _ _ _ _ => ⟨rfl, rfl⟩⟩

theorem city_ids_dense_witness :
    graphS5.city_count = graphS5.cities.length ∧
      (∀ (i : Nat) (hi : i < graphS5.cities.length), (graphS5.cities[i]).id = i) ∧
      (∀ (name : String) (pop damage res : Int) (lat lon : Nat),
        (graphS5.add_city name pop damage res lat lon).2 = graphS5.city_count ∧
        (graphS5.clear.add_city name pop damage res lat lon).2 = 0) :=
  city_ids_dense graphS5
    (GraphReachable.add_road _ 1 2 10
      (GraphReachable.add_road _ 0 2 50
        (GraphReachable.add_road _ 0 1 100
          (GraphReachable.add_city _ "" 0 0 10 0 0
            (GraphReachable.add_city _ "" 0 0 10 0 0
              (GraphReachable.add_city _ "" 0 5 0 0 0 GraphReachable.empty))))))

theorem valid_invariant {g : Graph} (h : GraphValid g) : Mirrored g ∧ KeysInRange g := by
  induction h with
  | empty =>
    refine ⟨fun u e he => ?_, le_refl _, fun k hk => ?_⟩
    · cases he
    · exact absurd rfl hk
  | add_city g name pop damage res lat lon _ ih =>
    obtain ⟨hm, h0, hk⟩ := ih
    have hsame : ∀ k, (g.add_city name pop damage res lat lon).1.get_edges k = g.get_edges k := by
      intro k
      rw [get_edges_add_city]
      split
      · rename_i hkc
        by_contra hne
        have := hk k (fun h => hne h.symm)
        omega
      · rfl
    refine ⟨fun u e he => ?_, ?_, fun k hk1 => ?_⟩
    · rw [hsame] at he ⊢
      exact hm u e he
    · show 0 ≤ g.city_count + 1
      omega
    · rw [hsame] at hk1
      have := hk k hk1
      show 0 ≤ k ∧ k < g.city_count + 1
      omega
  | add_road g src dest dist _ hs hd ih =>
    obtain ⟨hm, h0, hk⟩ := ih
    refine ⟨fun u e he => ?_, h0, fun k hk1 => ?_⟩
    · rw [get_edges_add_road] at he ⊢
      simp only [List.mem_append] at he ⊢
      rcases he with (he | he) | he
      · exact Or.inl (Or.inl (hm u e he))
      · split at he
        · rename_i hu
          rw [List.mem_singleton] at he
          subst he
          right
          simp [hu]
        · cases he
      · split at he
        · rename_i hu
          rw [List.mem_singleton] at he
          subst he
          left; right
          simp [hu]
        · cases he
    · show 0 ≤ k ∧ k < g.city_count
      rw [get_edges_add_road] at hk1
      by_cases h1 : k = src
      · rw [h1]; exact hs
      · by_cases h2 : k = dest
        · rw [h2]; exact hd
        · simp only [h1, h2, if_false, List.append_nil] at hk1
          exact hk k hk1
  | clear g _ _ =>
    refine ⟨fun u e he => ?_, le_refl _, fun k hk => ?_⟩
    · cases he
    · exact absurd rfl hk

/-- C12. Mirror-edge invariant: in every graph state reached from the empty graph by
`add_city`, `add_road` and `clear`, with every `add_road(u, v, d)` called on ids in
`[0, city_count)`, each edge `(v, d)` in `get_edges(u)` has the edge `(u, d)` in
`get_edges(v)`; and right after `add_road(u, v, d)`, `get_edges(u)` contains `(v, d)` and
`get_edges(v)` contains `(u, d)`. -/
theorem mirror_edges (g : Graph) (h : GraphValid g) :
    (∀ (u : Int) (e : Edge), e ∈ g.get_edges u →
      ({ dest_id := u, distance := e.distance } : Edge) ∈ g.get_edges e.dest_id) ∧
    ∀ u v d : Int, 0 ≤ u ∧ u < g.city_count → 0 ≤ v ∧ v < g.city_count →
      ({ dest_id := v, distance := d } : Edge) ∈ (g.add_road u v d).get_edges u ∧
      ({ dest_id := u, distance := d } : Edge) ∈ (g.add_road u v d).get_edges v := by
  refine ⟨(valid_invariant h).1, ?_⟩
  intro u v d _ _
  rw [get_edges_add_road, get_edges_add_road]
  simp

theorem mirror_edges_witness :
    (∀ (u : Int) (e : Edge), e ∈ graphS1.get_edges u →
      ({ dest_id := u, distance := e.distance } : Edge) ∈ graphS1.get_edges e.dest_id) ∧
    ∀ u v d : Int, 0 ≤ u ∧ u < graphS1.city_count → 0 ≤ v ∧ v < graphS1.city_count →
      ({ dest_id := v, distance := d } : Edge) ∈ (graphS1.add_road u v d).get_edges u ∧
      ({ dest_id := u, distance := d } : Edge) ∈ (graphS1.add_road u v d).get_edges v :=
  mirror_edges graphS1
    (GraphValid.add_road _ 0 1 10
      (GraphValid.add_city _ "" 0 0 0 0 0 (GraphValid.add_city _ "" 0 0 0 0 0 GraphValid.empty))
      (by decide!) (by decide!))

/-- C13 as stated fails: the graph after `add_road(0, 1, 7)` on the empty graph is reachable and
has the edge `(1, 7)` in `get_edges(0)`; the call of `add_city` that follows assigns the id 0
and resets that adjacency entry, so `get_edges(0)` is empty afterwards and the edge sequence
before the call is not an initial part of the one after it. -/
theorem append_only_counterexample :
    GraphReachable graphEarlyRoad ∧
      graphEarlyRoad.get_edges 0 = [{ dest_id := 1, distance := 7 }] ∧
      (graphEarlyRoad.add_city "" 0 0 0 0 0).1.get_edges 0 = [] ∧
      ¬ ∃ t, graphEarlyRoad.get_edges 0 ++ t = (graphEarlyRoad.add_city "" 0 0 0 0 0).1.get_edges 0 :=
  ⟨GraphReachable.add_road _ 0 1 7 GraphReachable.empty, by decide!, by decide!, by
    rintro ⟨t, ht⟩
    have h1 : graphEarlyRoad.get_edges 0 = [{ dest_id := 1, distance := 7 }] := by decide!
    have h2 : (graphEarlyRoad.add_city "" 0 0 0 0 0).1.get_edges 0 = [] := by decide!
    rw [h1, h2] at ht
    cases ht⟩

/-- C13, amended.  For every graph state: `add_road` leaves the city list as it is and extends
every `get_edges(id)` at its end; `add_city` extends the city list at its end by one record,
leaves `get_edges(id)` as it is for every id other than the id it assigns (`city_count`), and
resets the adjacency entry of that id to the empty sequence; in a state reached with every
`add_road` called on ids in `[0, city_count)` that entry was empty already, so that `add_city`
leaves every `get_edges(id)` as it is. -/
theorem append_only (g : Graph) :
    (∀ src dest dist : Int,
      (g.add_road src dest dist).cities = g.cities ∧
      ∀ k : Int, ∃ t, g.get_edges k ++ t = (g.add_road src dest dist).get_edges k) ∧
    (∀ (name : String) (pop damage res : Int) (lat lon : Nat),
      (∃ c, (g.add_city name pop damage res lat lon).1.cities = g.cities ++ [c]) ∧
      (∀ k : Int, k ≠ g.city_count →
        (g.add_city name pop damage res lat lon).1.get_edges k = g.get_edges k) ∧
      (g.add_city name pop damage res lat lon).1.get_edges g.city_count = [] ∧
      (GraphValid g → ∀ k : Int,
        (g.add_city name pop damage res lat lon).1.get_edges k = g.get_edges k)) := by
  refine ⟨fun src dest dist => ⟨rfl, fun k => ?_⟩, fun name pop damage res lat lon =>
    ⟨⟨_, rfl⟩, fun k hk => ?_, ?_, fun hv k => ?_⟩⟩
  · rw [get_edges_add_road, List.append_assoc]
    exact ⟨_, rfl⟩
  · rw [get_edges_add_city, if_neg hk]
  · rw [get_edges_add_city, if_pos rfl]
  · rw [get_edges_add_city]
    split
    · rename_i hkc
      by_contra hne
      have := (valid_invariant hv).2.2 k (fun h => hne h.symm)
      omega
    · rfl

theorem append_only_witness :
    (graphS1.add_road 0 1 3).cities = graphS1.cities ∧
      (graphS1.add_road 0 1 3).get_edges 0 =
        graphS1.get_edges 0 ++ [{ dest_id := 1, distance := 3 }] ∧
      (∃ t, graphS1.get_edges 0 ++ t = (graphS1.add_road 0 1 3).get_edges 0) :=
  ⟨((append_only graphS1).1 0 1 3).1, by decide!, ((append_only graphS1).1 0 1 3).2 0⟩

/-! ## Requests across a pass -/

theorem evolves_refl (r : DisasterRequest) : Evolves r r := ⟨rfl, rfl, rfl, rfl, Or.inl rfl⟩

theorem processRequests_evolves (add : Int → Int → Int) :
    ∀ (reqs : List DisasterRequest) (g g2 : Graph) (results : List AllocationResult)
      (reqs1 : List DisasterRequest), processRequests add g reqs = .ok (results, g2, reqs1) →
      List.Forall₂ Evolves reqs reqs1 ∧ reqs1 = statusAfter reqs results := by
  intro reqs
  induction reqs with
  | nil =>
    intro g g2 results reqs1 h
    simp only [processRequests] at h
    injection h with h
    injection h with _ h2
    injection h2 with _ h3
    subst h3
    exact ⟨List.Forall₂.nil, rfl⟩
  | cons r rest ih =>
    intro g g2 results reqs1 h
    rcases processRequests_inv h with ⟨hst, rest1, hrec, rfl⟩ |
      ⟨hst, res0, g1, r1, results1, rest1, hone, hrec, rfl, rfl⟩
    · obtain ⟨h1, h2⟩ := ih g g2 results rest1 hrec
      refine ⟨List.Forall₂.cons (evolves_refl r) h1, ?_⟩
      simp only [statusAfter, hst, ne_eq, not_false_eq_true, if_true, ← h2]
    · obtain ⟨h1, h2⟩ := ih g1 g2 results1 rest1 hrec
      have hnp : ¬ r.status ≠ "pending" := by simpa using hst
      rcases processRequest_spec hone with
        ⟨_, _, _, _, _, _, _, _, _, hres, hr1, _⟩ | ⟨_, hres, _, hr1⟩
      · refine ⟨List.Forall₂.cons ?_ h1, ?_⟩
        · rw [hr1]
          exact ⟨rfl, rfl, rfl, rfl, Or.inr ⟨hst, rfl⟩⟩
        · have hs : res0.status = "allocated" := by rw [hres]; rfl
          simp only [statusAfter, hnp, if_false, hs, if_true, ← h2, hr1]
      · refine ⟨List.Forall₂.cons ?_ h1, ?_⟩
        · rw [hr1]
          exact evolves_refl r
        · have hne : ("no_resources" : String) ≠ "allocated" := by decide
          have hs : ¬ res0.status = "allocated" := by rw [hres]; exact hne
          simp only [statusAfter, hnp, if_false, hs, ← h2, hr1]

theorem insertRequest_split (req : DisasterRequest) :
    ∀ reqs : List DisasterRequest, ∃ pre post, reqs = pre ++ post ∧
      insertRequest req reqs = pre ++ req :: post := by
  intro reqs
  induction reqs with
  | nil => exact ⟨[], [], rfl, rfl⟩
  | cons r rs ih =>
    simp only [insertRequest]
    split
    · obtain ⟨pre, post, h1, h2⟩ := ih
      exact ⟨r :: pre, post, by rw [h1]; rfl, by rw [h2]; rfl⟩
    · exact ⟨[], r :: rs, rfl, rfl⟩

/-- C14. Request status is the only mutable field and never reverts: a pass of
`process_allocations` that returns leaves the request list with the same length and order,
every request with its `id`, `city_id`, `priority` and `required_resources`, and its status
either as it was or changed from "pending" to "allocated" (so an "allocated" request stays
"allocated"); a pending request is "allocated" afterwards exactly when its result in this pass
has the status "allocated" and is unchanged otherwise (`statusAfter`); `next_id` is unchanged;
and `add_request` inserts the new request between the existing ones, which it leaves as they
are. -/
theorem status_only_mutable (add : Int → Int → Int) (rm rm1 : ResourceManager) (g g1 : Graph)
    (results : List AllocationResult)
    (hrun : rm.process_allocations add g = .ok (results, rm1, g1)) :
    List.Forall₂ (fun r r1 : DisasterRequest =>
        r1.id = r.id ∧ r1.city_id = r.city_id ∧ r1.priority = r.priority ∧
        r1.required_resources = r.required_resources ∧
        (r1.status = r.status ∨ (r.status = "pending" ∧ r1.status = "allocated")))
      rm.requests rm1.requests ∧
    rm1.requests = statusAfter rm.requests results ∧
    rm1.next_id = rm.next_id ∧
    ∀ city_id priority required_resources : Int, ∃ pre post,
      rm.requests = pre ++ post ∧
      (rm.add_request city_id priority required_resources).1.requests =
        pre ++ { id := rm.next_id, city_id := city_id, priority := priority,
                 required_resources := required_resources, status := "pending" } :: post := by
  obtain ⟨reqs1, hpass, hrm⟩ := process_allocations_inv hrun
  obtain ⟨h1, h2⟩ := processRequests_evolves add _ _ _ _ _ hpass
  rw [hrm]
  exact ⟨h1, h2, rfl, fun c p q => insertRequest_split _ _⟩

theorem status_only_mutable_witness :
    List.Forall₂ (fun r r1 : DisasterRequest =>
        r1.id = r.id ∧ r1.city_id = r.city_id ∧ r1.priority = r.priority ∧
        r1.required_resources = r.required_resources ∧
        (r1.status = r.status ∨ (r.status = "pending" ∧ r1.status = "allocated")))
      requestsS5.requests
      [{ id := 1, city_id := 0, priority := 1, required_resources := 5, status := "allocated" }] ∧
    [({ id := 1, city_id := 0, priority := 1, required_resources := 5,
        status := "allocated" } : DisasterRequest)] =
      statusAfter requestsS5.requests
        [{ request_id := 1, affected_city_id := 0, support_city_id := 2,
           allocated_resources := 5, distance := 50, status := "allocated" }] ∧
    (2 : Int) = requestsS5.next_id ∧
    ∀ city_id priority required_resources : Int, ∃ pre post,
      requestsS5.requests = pre ++ post ∧
      (requestsS5.add_request city_id priority required_resources).1.requests =
        pre ++ { id := requestsS5.next_id, city_id := city_id, priority := priority,
                 required_resources := required_resources, status := "pending" } :: post :=
  status_only_mutable exactAdd requestsS5
    { requests := [{ id := 1, city_id := 0, priority := 1, required_resources := 5,
                     status := "allocated" }], next_id := 2 }
    graphS5 { graphS5 with cities := [mkCity 0 0 5, mkCity 1 10 0, mkCity 2 5 0] }
    [{ request_id := 1, affected_city_id := 0, support_city_id := 2,
       allocated_resources := 5, distance := 50, status := "allocated" }]
    (by decide!)

/-! ## The graph across a pass -/

theorem charge_zero (c : City) : c.charge 0 = c := by
  cases c
  simp [City.charge]

theorem charge_charge (c : City) (a b : Int) : (c.charge a).charge b = c.charge (a + b) := by
  cases c
  simp only [City.charge, sub_sub]

theorem charge_id (c : City) (a : Int) : (c.charge a).id = c.id := rfl

theorem chargedTo_cons (res : AllocationResult) (results : List AllocationResult) (id : Int) :
    chargedTo (res :: results) id =
      (if res.support_city_id = id then res.allocated_resources else 0) +
        chargedTo results id := by
  unfold chargedTo
  by_cases h : res.support_city_id = id
  · simp [List.filter_cons, h]
  · simp [List.filter_cons, h]

theorem chargedTo_nil (id : Int) : chargedTo [] id = 0 := rfl

theorem dense_nodup {g : Graph} (h : g.denseIds = true) : (g.cities.map (·.id)).Nodup := by
  unfold Graph.denseIds at h
  simp only [Bool.and_eq_true, decide_eq_true_eq] at h
  rw [h.2]
  exact (List.nodup_range _).map Nat.cast_injective

theorem deductAt_eq_map :
    ∀ (cs : List City) (id : Int) (i : Nat) (amount : Int), (cs.map (·.id)).Nodup →
      findCityIdx cs id = some i →
      deductAt cs i amount = cs.map (fun c => if c.id = id then c.charge amount else c) := by
  intro cs
  induction cs with
  | nil => intro id i amount _ h; simp [findCityIdx] at h
  | cons c cs ih =>
    intro id i amount hnd hfind
    rw [List.map_cons, List.nodup_cons] at hnd
    simp only [findCityIdx] at hfind
    by_cases hc : c.id = id
    · rw [if_pos hc] at hfind
      injection hfind with hi
      subst hi
      have hrest : cs.map (fun c => if c.id = id then c.charge amount else c) = cs := by
        have : ∀ c1 ∈ cs, (fun c => if c.id = id then c.charge amount else c) c1 = c1 := by
          intro c1 hc1
          have hne : c1.id ≠ id := by
            intro h
            apply hnd.1
            rw [hc, ← h]
            exact List.mem_map_of_mem _ hc1
          simp [hne]
        rw [List.map_congr_left this, List.map_id'']
        intro x; rfl
      simp only [deductAt, List.map_cons, if_pos hc, hrest]
      rfl
    · rw [if_neg hc] at hfind
      cases hj : findCityIdx cs id with
      | none => rw [hj] at hfind; cases hfind
      | some j =>
        rw [hj] at hfind
        injection hfind with hi
        subst hi
        simp only [deductAt, List.map_cons, if_neg hc, ih id j amount hnd.2 hj]

/-- The cities after one request: every record as before, with the allocated amount taken off
the resources of the support city. -/
theorem processRequest_charge {add : Int → Int → Int} {g g1 : Graph}
    {req req1 : DisasterRequest} {res : AllocationResult}
    (hnd : (g.cities.map (·.id)).Nodup)
    (h : processRequest add g req = .ok (res, g1, req1)) :
    g1.cities = g.cities.map (fun c => c.charge (chargedTo [res] c.id)) := by
  rcases processRequest_spec h with
    ⟨_, k, _, d, i, _, _, _, _, hres, _, hfind, _, hg⟩ | ⟨_, hres, hg, _⟩
  · rw [hg, hres]
    show deductAt g.cities i req.required_resources = _
    rw [deductAt_eq_map g.cities k.id i req.required_resources hnd hfind]
    apply List.map_congr_left
    intro c _
    rw [chargedTo_cons, chargedTo_nil]
    simp only [allocatedResult, add_zero]
    by_cases hc : c.id = k.id
    · rw [if_pos hc, if_pos hc.symm]
    · rw [if_neg hc, if_neg (fun h => hc h.symm), charge_zero]
  · rw [hg, hres]
    have : ∀ c ∈ g.cities, (fun c : City => c.charge (chargedTo [noResourcesResult req] c.id)) c = c := by
      intro c _
      have hz : chargedTo [noResourcesResult req] c.id = 0 := by
        rw [chargedTo_cons, chargedTo_nil]
        simp [noResourcesResult]
      simp only [hz, charge_zero]
    rw [List.map_congr_left this, List.map_id'']
    intro x; rfl

theorem processRequests_charge (add : Int → Int → Int) :
    ∀ (reqs : List DisasterRequest) (g g2 : Graph) (results : List AllocationResult)
      (reqs1 : List DisasterRequest), (g.cities.map (·.id)).Nodup →
      processRequests add g reqs = .ok (results, g2, reqs1) →
      g2.cities = g.cities.map (fun c => c.charge (chargedTo results c.id)) := by
  intro reqs
  induction reqs with
  | nil =>
    intro g g2 results reqs1 _ h
    simp only [processRequests] at h
    injection h with h
    injection h with h1 h2
    injection h2 with h2 _
    subst h1; subst h2
    have : ∀ c ∈ g.cities, (fun c : City => c.charge (chargedTo [] c.id)) c = c := by
      intro c _
      simp only [chargedTo_nil, charge_zero]
    rw [List.map_congr_left this, List.map_id'']
    intro x; rfl
  | cons r rest ih =>
    intro g g2 results reqs1 hnd h
    rcases processRequests_inv h with ⟨_, rest1, hrec, _⟩ |
      ⟨_, res0, g1, r1, results1, rest1, hone, hrec, rfl, _⟩
    · exact ih g g2 results rest1 hnd hrec
    · have h1 := processRequest_charge hnd hone
      have hnd1 : (g1.cities.map (·.id)).Nodup := by
        rw [sameShape_ids (processRequest_shape hone)]
        exact hnd
      rw [ih g1 g2 results1 rest1 hnd1 hrec, h1, List.map_map]
      apply List.map_congr_left
      intro c _
      simp only [Function.comp, charge_charge, charge_id]
      rw [chargedTo_cons res0 results1, chargedTo_cons res0 [], chargedTo_nil, add_zero]

theorem processRequest_nonneg {add : Int → Int → Int} {g g1 : Graph}
    {req req1 : DisasterRequest} {res : AllocationResult}
    (hnd : (g.cities.map (·.id)).Nodup) (hnn : ∀ c ∈ g.cities, 0 ≤ c.resources)
    (h : processRequest add g req = .ok (res, g1, req1)) :
    ∀ c ∈ g1.cities, 0 ≤ c.resources := by
  rcases processRequest_spec h with
    ⟨pre, k, post, d, i, hcs, hk, _, _, _, _, hfind, _, hg⟩ | ⟨_, _, hg, _⟩
  · rw [hg]
    show ∀ c ∈ deductAt g.cities i req.required_resources, 0 ≤ c.resources
    rw [deductAt_eq_map g.cities k.id i req.required_resources hnd hfind]
    intro c hc
    rw [List.mem_map] at hc
    obtain ⟨c0, hc0, rfl⟩ := hc
    by_cases hid : c0.id = k.id
    · have hkm : k ∈ g.cities := by rw [hcs]; simp
      have heq : c0 = k := List.inj_on_of_nodup_map hnd hc0 hkm hid
      have hv := (viable_iff req k).mp hk.1
      rw [if_pos hid, heq]
      show 0 ≤ k.resources - req.required_resources
      omega
    · rw [if_neg hid]
      exact hnn c0 hc0
  · rw [hg]
    exact hnn

theorem processRequests_nonneg (add : Int → Int → Int) :
    ∀ (reqs : List DisasterRequest) (g g2 : Graph) (results : List AllocationResult)
      (reqs1 : List DisasterRequest), (g.cities.map (·.id)).Nodup →
      (∀ c ∈ g.cities, 0 ≤ c.resources) →
      processRequests add g reqs = .ok (results, g2, reqs1) →
      ∀ c ∈ g2.cities, 0 ≤ c.resources := by
  intro reqs
  induction reqs with
  | nil =>
    intro g g2 results reqs1 _ hnn h
    simp only [processRequests] at h
    injection h with h
    injection h with _ h2
    injection h2 with h2 _
    subst h2
    exact hnn
  | cons r rest ih =>
    intro g g2 results reqs1 hnd hnn h
    rcases processRequests_inv h with ⟨_, rest1, hrec, _⟩ |
      ⟨_, res0, g1, r1, results1, rest1, hone, hrec, _, _⟩
    · exact ih g g2 results rest1 hnd hnn hrec
    · have hnd1 : (g1.cities.map (·.id)).Nodup := by
        rw [sameShape_ids (processRequest_shape hone)]
        exact hnd
      exact ih g1 g2 results1 rest1 hnd1 (processRequest_nonneg hnd hnn hone) hrec

/-! ## Shortest path: faults, termination, simple paths -/

/-- C18. `dijkstra` never faults under its precondition: on a graph with `city_count > 0` whose
edges of every city lead to ids in `[0, city_count)`, and with `src` and `dest` in that range,
the call returns a `PathResult`, whatever the reading of the addition; since every access to
`dist`, `parent` and `visited` of the embedding is a fault `outOfBounds` when its index is not
an index of the vector, no index used in the search or in the path reconstruction leaves
`[0, city_count)`. -/
theorem dijkstra_never_faults (add : Int → Int → Int) (g : Graph) (src dest : Int)
    (hpos : 0 < g.city_count) (hr : g.edgesInRange = true)
    (hs : 0 ≤ src ∧ src < g.city_count) (hd : 0 ≤ dest ∧ dest < g.city_count) :
    (∃ r, dijkstra add g src dest = .ok r) ∧
      dijkstra add g src dest ≠ .error .outOfBounds := by
  obtain ⟨n, hn⟩ : ∃ n : Nat, g.city_count = n := ⟨g.city_count.toNat, by omega⟩
  have hr1 := edgesInRange_spec hn hr
  rw [hn] at hs hd hpos
  obtain ⟨t, _, h⟩ := dijkstra_basic add hn (by omega) hr1 hs hd
  rcases h with ⟨_, hrun⟩ | ⟨_, l, _, hrun⟩
  · exact ⟨⟨_, hrun⟩, by rw [hrun]; intro h; cases h⟩
  · exact ⟨⟨_, hrun⟩, by rw [hrun]; intro h; cases h⟩

theorem dijkstra_never_faults_witness :
    (∃ r, dijkstra wrapAdd graphS3 0 3 = .ok r) ∧
      dijkstra wrapAdd graphS3 0 3 ≠ .error .outOfBounds :=
  dijkstra_never_faults wrapAdd graphS3 0 3 (by decide!) (by decide!) (by decide!) (by decide!)

/-- C20. Returned paths are simple: on a graph whose edges of every city lead to ids in
`[0, city_count)`, with `src` and `dest` in that range and any reading of the addition,
`dijkstra` returns a result, and when it is a success no city id occurs twice in its path,
every id of the path is in `[0, city_count)`, and the path has at most `city_count` entries,
whatever the distances are (zero, negative, self-loops, duplicate roads). -/
theorem dijkstra_path_simple (add : Int → Int → Int) (g : Graph) (src dest : Int)
    (hpos : 0 < g.city_count) (hr : g.edgesInRange = true)
    (hs : 0 ≤ src ∧ src < g.city_count) (hd : 0 ≤ dest ∧ dest < g.city_count) :
    ∃ r, dijkstra add g src dest = .ok r ∧
      (r.success = true →
        r.path.Nodup ∧ (∀ x ∈ r.path, 0 ≤ x ∧ x < g.city_count) ∧
        (r.path.length : Int) ≤ g.city_count) := by
  obtain ⟨n, hn⟩ : ∃ n : Nat, g.city_count = n := ⟨g.city_count.toNat, by omega⟩
  have hr1 := edgesInRange_spec hn hr
  rw [hn] at hs hd hpos ⊢
  obtain ⟨t, _, h⟩ := dijkstra_basic add hn (by omega) hr1 hs hd
  rcases h with ⟨_, hrun⟩ | ⟨_, l, hl, hrun⟩
  · exact ⟨_, hrun, fun h => by cases h⟩
  · refine ⟨_, hrun, fun _ => ?_⟩
    have hnd := chain_nodup l dest hl
    have hrange : ∀ x ∈ dest :: l, 0 ≤ x ∧ x < (n : Int) := by
      intro x hx
      rcases List.mem_cons.mp hx with rfl | hx
      · exact hd
      · exact (chain_visited l dest hl x hx).2
    have hlen := nodup_range_length n _ hnd hrange
    refine ⟨List.nodup_reverse.mpr hnd, fun x hx => hrange x (List.mem_reverse.mp hx), ?_⟩
    simp only [List.length_reverse]
    exact_mod_cast hlen

theorem dijkstra_path_simple_witness :
    ∃ r, dijkstra exactAdd graphS3 0 3 = .ok r ∧
      (r.success = true →
        r.path.Nodup ∧ (∀ x ∈ r.path, 0 ≤ x ∧ x < graphS3.city_count) ∧
        (r.path.length : Int) ≤ graphS3.city_count) :=
  dijkstra_path_simple exactAdd graphS3 0 3 (by decide!) (by decide!) (by decide!) (by decide!)

theorem searchLoop_zero (add : Int → Int → Int) (g : Graph) (dest : Int) (s : DState) :
    searchLoop add g dest 0 s =
      match pqTop s.pq with
      | none => .ok s
      | some _ => .error .outOfFuel := by
  rw [searchLoop.eq_def]

theorem searchLoop_succ (add : Int → Int → Int) (g : Graph) (dest : Int) (fuel : Nat)
    (s : DState) :
    searchLoop add g dest (fuel + 1) s =
      match pqTop s.pq with
      | none => .ok s
      | some top => loopBody add g dest (searchLoop add g dest fuel) s top := by
  rw [searchLoop.eq_def]
  rfl

theorem loopBody_mono {add : Int → Int → Int} {g : Graph} {dest : Int}
    {k1 k2 : DState → Except Fault DState} (hk : ∀ s t, k1 s = .ok t → k2 s = .ok t)
    {s t : DState} {top : Int × Int} (h : loopBody add g dest k1 s top = .ok t) :
    loopBody add g dest k2 s top = .ok t := by
  cases hvis : rd s.visited top.2 with
  | error f =>
    simp only [loopBody, hvis] at h
    cases h
  | ok vis =>
    simp only [loopBody, hvis] at h ⊢
    cases vis with
    | true =>
      simp only [↓reduceIte] at h ⊢
      exact hk _ _ h
    | false =>
      simp only [Bool.false_eq_true, ↓reduceIte] at h ⊢
      cases hw : wr s.visited top.2 true with
      | error f =>
        simp only [hw] at h
        cases h
      | ok v1 =>
        simp only [hw] at h ⊢
        by_cases hd : top.2 = dest
        · simp only [hd, ↓reduceIte] at h ⊢
          exact h
        · simp only [hd, ↓reduceIte] at h ⊢
          cases hs3 : relaxEdges add top.2 (g.get_edges top.2)
              { s with pq := pqPop s.pq, visited := v1 } with
          | error f =>
            simp only [hs3] at h
            cases h
          | ok s3 =>
            simp only [hs3] at h ⊢
            exact hk _ _ h

/-- A larger budget does not change the result of the search loop. -/
theorem searchLoop_fuel_succ (add : Int → Int → Int) (g : Graph) (dest : Int) :
    ∀ (fuel : Nat) (s t : DState), searchLoop add g dest fuel s = .ok t →
      searchLoop add g dest (fuel + 1) s = .ok t := by
  intro fuel
  induction fuel with
  | zero =>
    intro s t h
    rw [searchLoop_zero] at h
    rw [searchLoop_succ]
    cases hq : pqTop s.pq with
    | none => rw [hq] at h; exact h
    | some top => rw [hq] at h; cases h
  | succ fuel ih =>
    intro s t h
    rw [searchLoop_succ] at h
    rw [searchLoop_succ]
    cases hq : pqTop s.pq with
    | none => rw [hq] at h; exact h
    | some top =>
      rw [hq] at h
      exact loopBody_mono ih h

theorem searchLoop_fuel_le (add : Int → Int → Int) (g : Graph) (dest : Int) {s t : DState}
    {fuel : Nat} (h : searchLoop add g dest fuel s = .ok t) :
    ∀ fuel2, fuel ≤ fuel2 → searchLoop add g dest fuel2 s = .ok t := by
  intro fuel2 hle
  induction fuel2 with
  | zero =>
    have : fuel = 0 := by omega
    rw [← this]; exact h
  | succ m ih =>
    by_cases hm : fuel = m + 1
    · rw [← hm]; exact h
    · exact searchLoop_fuel_succ add g dest m s t (ih (by omega))

/-- C19. `dijkstra` terminates: on a graph whose edges of every city lead to ids in
`[0, city_count)` (distances of any sign, any reading of the addition), with `src` and `dest`
in that range, the search loop stops within `searchFuel` iterations (one more than the number
of edge records of the cities, since a city is expanded at most once and pushes at most one
entry per edge record), in a state `t` that no larger budget changes; when `dest` was reached,
following the parent links from `dest` arrives at `-1` after at most `city_count` steps, with
the same path for every budget that long; and `dijkstra` returns a result. -/
theorem dijkstra_terminates (add : Int → Int → Int) (g : Graph) (src dest : Int)
    (hpos : 0 < g.city_count) (hr : g.edgesInRange = true)
    (hs : 0 ≤ src ∧ src < g.city_count) (hd : 0 ≤ dest ∧ dest < g.city_count) :
    ∃ t,
      (∀ fuel, searchFuel g g.city_count.toNat ≤ fuel →
        searchLoop add g dest fuel (initState g.city_count.toNat src) = .ok t) ∧
      (t.dAt dest ≠ INT_MAX →
        ∃ path, path.length ≤ g.city_count.toNat ∧
          ∀ fuel, path.length ≤ fuel → reconstruct t.parent fuel dest [] = .ok path) ∧
      ∃ r, dijkstra add g src dest = .ok r := by
  obtain ⟨n, hn⟩ : ∃ n : Nat, g.city_count = n := ⟨g.city_count.toNat, by omega⟩
  have hr1 := edgesInRange_spec hn hr
  have hn2 : g.city_count.toNat = n := by omega
  rw [hn] at hs hd hpos
  rw [hn2]
  have hpos1 : 0 < n := by omega
  obtain ⟨t, hrun, hstop⟩ := searchLoop_rule (Basic add g n src) (fun s h => h.shape) hr1
    (fun s _ hP _ _ => basic_pop hP) (fun s top hP ht _ _ => basic_expand hr1 hP ht)
    (searchFuel g n) (initState n src) (basic_init add g n src hs) (by rw [measure_init])
  have hB : Basic add g n src t := stopped_basic (fun _ h => h) hstop
  refine ⟨t, fun fuel hf => searchLoop_fuel_le add g dest hrun fuel hf, ?_, ?_⟩
  · intro hdd
    obtain ⟨l, hl⟩ := hB.chain dest hd.1 hd.2 hdd
    have hlen : (dest :: l).length ≤ n := by
      apply nodup_range_length n _ (chain_nodup l dest hl)
      intro y hy
      rcases List.mem_cons.mp hy with rfl | hy
      · exact hd
      · exact (chain_visited l dest hl y hy).2
    refine ⟨dest :: l, hlen, fun fuel hf => ?_⟩
    have := reconstruct_chain hB.shape hB.src_range hB.src_parent l dest [] fuel hl hd
      (by simpa using hf)
    simpa using this
  · obtain ⟨t1, _, h⟩ := dijkstra_basic add hn hpos1 hr1 hs hd
    rcases h with ⟨_, h⟩ | ⟨_, _, _, h⟩
    · exact ⟨_, h⟩
    · exact ⟨_, h⟩

theorem dijkstra_terminates_witness :
    ∃ t,
      (∀ fuel, searchFuel graphS3 graphS3.city_count.toNat ≤ fuel →
        searchLoop exactAdd graphS3 3 fuel (initState graphS3.city_count.toNat 0) = .ok t) ∧
      (t.dAt 3 ≠ INT_MAX →
        ∃ path, path.length ≤ graphS3.city_count.toNat ∧
          ∀ fuel, path.length ≤ fuel → reconstruct t.parent fuel 3 [] = .ok path) ∧
      ∃ r, dijkstra exactAdd graphS3 0 3 = .ok r :=
  dijkstra_terminates exactAdd graphS3 0 3 (by decide!) (by decide!) (by decide!) (by decide!)

/-! ## No overflow in the relaxation -/

theorem dist_le_walkLen : ∀ (es : List Edge), (∀ e ∈ es, 0 ≤ e.distance) →
    0 ≤ walkLen es ∧ ∀ e ∈ es, e.distance ≤ walkLen es := by
  intro es
  induction es with
  | nil => intro _; exact ⟨le_refl _, fun e he => by cases he⟩
  | cons a es ih =>
    intro h
    have ha := h a (List.mem_cons_self _ _)
    obtain ⟨h0, h1⟩ := ih (fun e he => h e (List.mem_cons_of_mem _ he))
    rw [walkLen_cons]
    refine ⟨by omega, ?_⟩
    intro e he
    rcases List.mem_cons.mp he with rfl | he
    · omega
    · have := h1 e he
      omega

theorem sum_range_le (f f1 : Nat → Int) : ∀ n : Nat, (∀ i, i < n → f i ≤ f1 i) →
    ((List.range n).map f).sum ≤ ((List.range n).map f1).sum := by
  intro n
  induction n with
  | zero => intro _; simp
  | succ n ih =>
    intro h
    rw [List.range_succ, List.map_append, List.map_append, List.sum_append, List.sum_append]
    simp only [List.map_cons, List.map_nil, List.sum_cons, List.sum_nil, add_zero]
    have h1 := ih (fun i hi => h i (by omega))
    have h2 := h n (by omega)
    omega

theorem sum_range_nonneg (f : Nat → Int) : ∀ n : Nat, (∀ i, i < n → 0 ≤ f i) →
    0 ≤ ((List.range n).map f).sum := by
  intro n
  induction n with
  | zero => intro _; simp
  | succ n ih =>
    intro h
    rw [List.range_succ, List.map_append, List.sum_append]
    simp only [List.map_cons, List.map_nil, List.sum_cons, List.sum_nil, add_zero]
    have h1 := ih (fun i hi => h i (by omega))
    have h2 := h n (by omega)
    omega

theorem sum_range_raise (f f1 : Nat → Int) (k : Nat) (d : Int) :
    ∀ n : Nat, k < n → (∀ i, i ≠ k → f1 i = f i) → f1 k = f k + d →
      ((List.range n).map f1).sum = ((List.range n).map f).sum + d := by
  intro n
  induction n with
  | zero => intro h; omega
  | succ n ih =>
    intro hk hne hd
    rw [List.range_succ, List.map_append, List.map_append, List.sum_append, List.sum_append]
    simp only [List.map_cons, List.map_nil, List.sum_cons, List.sum_nil, add_zero]
    by_cases hkn : k = n
    · subst hkn
      have hsame : (List.range k).map f1 = (List.range k).map f := by
        apply List.map_congr_left
        intro i hi
        rw [List.mem_range] at hi
        exact hne i (by omega)
      rw [hsame, hd]
      omega
    · have := ih (by omega) hne hd
      rw [hne n (fun h => hkn h.symm)]
      omega

theorem visitedWeight_le {g : Graph} {n : Nat} (hnn : NonNeg g n) (s : DState) :
    visitedWeight g n s ≤ edgeTotal g n := by
  unfold visitedWeight edgeTotal
  apply sum_range_le
  intro i hi
  have h0 := (dist_le_walkLen (g.get_edges (i : Int)) (hnn i (by omega) (by omega))).1
  split
  · exact le_refl _
  · exact h0

theorem visitedWeight_mark {g : Graph} {n : Nat} {s : DState} {u : Int} (hs : Shape n s)
    (hu : 0 ≤ u ∧ u < n) (hv : s.vAt u = false) :
    visitedWeight g n (s.mark u) = visitedWeight g n s + walkLen (g.get_edges u) := by
  have hcast : ((u.toNat : Nat) : Int) = u := Int.toNat_of_nonneg hu.1
  unfold visitedWeight
  refine sum_range_raise _ _ u.toNat _ n (by omega) ?_ ?_
  · intro i hi
    have hne : (i : Int) ≠ u := by omega
    simp only [mark_vAt hs hu.1 hu.2, hne, if_false]
  · simp [hcast, mark_vAt hs hu.1 hu.2, hv]

theorem relaxAll_vAt (add : Int → Int → Int) (u : Int) :
    ∀ (es : List Edge) (t : DState) (x : Int), (relaxAll add u es t).vAt x = t.vAt x := by
  intro es
  induction es with
  | nil => intro t x; rfl
  | cons e es ih => intro t x; exact (ih _ x).trans (relaxStep_vAt _ _ _ _ _)

theorem relaxStep_dAt_self {add : Int → Int → Int} {n : Nat} {u : Int} {e : Edge} {s : DState}
    (hs : Shape n s) (he : 0 ≤ e.dest_id ∧ e.dest_id < n) (huv : s.vAt u = true) :
    (relaxStep add u e s).dAt u = s.dAt u := by
  by_cases h : relaxes add u e s
  · have hne : u ≠ e.dest_id := by
      intro h2
      have h3 := h.1
      rw [← h2, huv] at h3
      cases h3
    rw [relaxStep_dAt hs he h, if_neg hne]
  · rw [relaxStep_of_not h]

theorem bounded_init (g : Graph) (n : Nat) (src : Int) (hs : 0 ≤ src ∧ src < n) :
    Bounded g n (initState n src) := by
  intro x _ _ hx
  have hw : 0 ≤ visitedWeight g n (initState n src) := by
    unfold visitedWeight
    apply sum_range_nonneg
    intro i _
    simp only [initState_vAt]
    exact le_refl _
  rw [initState_dAt n src hs] at hx ⊢
  by_cases hxs : x = src
  · rw [if_pos hxs]
    exact hw
  · rw [if_neg hxs] at hx
    exact absurd rfl hx

theorem bounded_pop {g : Graph} {n : Nat} {s : DState} (hb : Bounded g n s) :
    Bounded g n s.pop := hb

theorem within_relaxStep {n : Nat} {u : Int} {e : Edge} {s : DState} (W L : Int)
    (hs : Shape n s) (he : 0 ≤ e.dest_id ∧ e.dest_id < n) (hw : e.distance ≤ L)
    (hin : ∀ x : Int, 0 ≤ x → x < n → s.dAt x ≠ INT_MAX → s.dAt x ≤ W)
    (hcur : s.dAt u + L ≤ W) :
    ∀ x : Int, 0 ≤ x → x < n → (relaxStep exactAdd u e s).dAt x ≠ INT_MAX →
      (relaxStep exactAdd u e s).dAt x ≤ W := by
  intro x h0 h1
  by_cases h : relaxes exactAdd u e s
  · rw [relaxStep_dAt hs he h]
    split
    · intro _
      simp only [exactAdd]
      omega
    · exact hin x h0 h1
  · rw [relaxStep_of_not h]
    exact hin x h0 h1

theorem within_relaxAll {n : Nat} {u : Int} (W L : Int) :
    ∀ (es : List Edge) (s : DState), Shape n s →
      (∀ e ∈ es, (0 ≤ e.dest_id ∧ e.dest_id < n) ∧ e.distance ≤ L) →
      s.vAt u = true →
      (∀ x : Int, 0 ≤ x → x < n → s.dAt x ≠ INT_MAX → s.dAt x ≤ W) →
      s.dAt u + L ≤ W →
      ∀ x : Int, 0 ≤ x → x < n → (relaxAll exactAdd u es s).dAt x ≠ INT_MAX →
        (relaxAll exactAdd u es s).dAt x ≤ W := by
  intro es
  induction es with
  | nil => intro s _ _ _ hin _; exact hin
  | cons e es ih =>
    intro s hs hes huv hin hcur
    have he := hes e (List.mem_cons_self _ _)
    exact ih (relaxStep exactAdd u e s) (shape_relaxStep hs he.1)
      (fun e1 he1 => hes e1 (List.mem_cons_of_mem _ he1))
      (by rw [relaxStep_vAt]; exact huv)
      (within_relaxStep W L hs he.1 he.2 hin hcur)
      (by rw [relaxStep_dAt_self hs he.1 huv]; exact hcur)

theorem bounded_expand {g : Graph} {n : Nat} {src : Int} {s : DState} {top : Int × Int}
    (hr : InRange g n) (hnn : NonNeg g n) (hB : Basic exactAdd g n src s) (hb : Bounded g n s)
    (ht : pqTop s.pq = some top) (hv : s.vAt top.2 = false) :
    Bounded g n (relaxAll exactAdd top.2 (g.get_edges top.2) (s.mark top.2)) := by
  have hu := hB.shape.hq top (pqTop_mem ht)
  have hreach := hB.pq_reached top (pqTop_mem ht)
  have hW : visitedWeight g n (s.mark top.2) =
      visitedWeight g n s + walkLen (g.get_edges top.2) := visitedWeight_mark hB.shape hu hv
  have hL := dist_le_walkLen (g.get_edges top.2) (hnn top.2 hu.1 hu.2)
  have hvm : (s.mark top.2).vAt top.2 = true := by
    rw [mark_vAt hB.shape hu.1 hu.2, if_pos rfl]
  have hvw : visitedWeight g n (relaxAll exactAdd top.2 (g.get_edges top.2) (s.mark top.2)) =
      visitedWeight g n (s.mark top.2) := by
    simp only [visitedWeight, relaxAll_vAt]
  have hbu := hb top.2 hu.1 hu.2 hreach
  intro x h0 h1 hx
  rw [hvw]
  refine within_relaxAll (visitedWeight g n (s.mark top.2)) (walkLen (g.get_edges top.2))
    (g.get_edges top.2) (s.mark top.2) (shape_mark hB.shape _)
    (fun e he => ⟨hr top.2 hu.1 hu.2 e he, hL.2 e he⟩) hvm ?_ ?_ x h0 h1 hx
  · intro y hy0 hy1 hy
    have := hb y hy0 hy1 hy
    rw [mark_dAt, hW]
    omega
  · rw [mark_dAt, hW]
    omega

theorem relaxStep_agree {add : Int → Int → Int} (hadd : ExactInRange add) {u : Int} {e : Edge}
    {s : DState} (h0 : 0 ≤ s.dAt u) (hw : 0 ≤ e.distance)
    (hle : s.dAt u + e.distance ≤ INT_MAX) :
    relaxStep add u e s = relaxStep exactAdd u e s := by
  by_cases hdu : s.dAt u = INT_MAX
  · have h1 : ¬ relaxes add u e s := fun h => h.2.1 hdu
    have h2 : ¬ relaxes exactAdd u e s := fun h => h.2.1 hdu
    rw [relaxStep_of_not h1, relaxStep_of_not h2]
  · have h : add (s.dAt u) e.distance = s.dAt u + e.distance := hadd _ _ hdu h0 hw hle
    unfold relaxStep exactAdd
    rw [h]

theorem relaxAll_agree {add : Int → Int → Int} (hadd : ExactInRange add) {n : Nat} {u : Int}
    (d : Int) (hd0 : 0 ≤ d) :
    ∀ (es : List Edge) (s : DState), Shape n s → s.dAt u = d → s.vAt u = true →
      (∀ e ∈ es, (0 ≤ e.dest_id ∧ e.dest_id < n) ∧ 0 ≤ e.distance ∧ d + e.distance ≤ INT_MAX) →
      relaxAll add u es s = relaxAll exactAdd u es s := by
  intro es
  induction es with
  | nil => intro s _ _ _ _; rfl
  | cons e es ih =>
    intro s hs hd huv hes
    have he := hes e (List.mem_cons_self _ _)
    have h1 : relaxAll add u (e :: es) s = relaxAll add u es (relaxStep add u e s) := rfl
    have h2 : relaxAll exactAdd u (e :: es) s =
        relaxAll exactAdd u es (relaxStep exactAdd u e s) := rfl
    rw [h1, h2, relaxStep_agree hadd (by rw [hd]; exact hd0) he.2.1 (by rw [hd]; exact he.2.2)]
    exact ih (relaxStep exactAdd u e s) (shape_relaxStep hs he.1)
      (by rw [relaxStep_dAt_self hs he.1 huv]; exact hd)
      (by rw [relaxStep_vAt]; exact huv)
      (fun e1 he1 => hes e1 (List.mem_cons_of_mem _ he1))

theorem relaxSums_cons {add : Int → Int → Int} {n : Nat} {u : Int} (hu : 0 ≤ u ∧ u < n)
    (e : Edge) (es : List Edge) (s : DState) (hs : Shape n s)
    (he : 0 ≤ e.dest_id ∧ e.dest_id < n) :
    relaxSums add u (e :: es) s =
      if s.vAt e.dest_id = true ∨ s.dAt u = INT_MAX then relaxSums add u es s
      else (s.dAt u, e.distance) :: relaxSums add u es (relaxStep add u e s) := by
  have hvis : rd s.visited e.dest_id = .ok (s.vAt e.dest_id) :=
    rd_ok _ _ _ he.1 (by rw [hs.hv]; exact he.2)
  have hdu : rd s.dist u = .ok (s.dAt u) := rd_ok _ _ _ hu.1 (by rw [hs.hd]; exact hu.2)
  have hdv : rd s.dist e.dest_id = .ok (s.dAt e.dest_id) :=
    rd_ok _ _ _ he.1 (by rw [hs.hd]; exact he.2)
  have hwd := fun x => wr_ok s.dist e.dest_id x he.1 (by rw [hs.hd]; exact he.2)
  have hwp := fun x => wr_ok s.parent e.dest_id x he.1 (by rw [hs.hp]; exact he.2)
  simp only [relaxSums, hvis, hdu, hdv, hwd, hwp]
  by_cases h1 : s.vAt e.dest_id = true
  · simp [h1]
  · by_cases h2 : s.dAt u = INT_MAX
    · simp [h1, h2]
    · by_cases h3 : add (s.dAt u) e.distance < s.dAt e.dest_id
      · have hstep : relaxStep add u e s =
            { s with dist := s.dist.set e.dest_id.toNat (add (s.dAt u) e.distance),
                     parent := s.parent.set e.dest_id.toNat u,
                     pq := pqPush s.pq (add (s.dAt u) e.distance, e.dest_id) } := by
          unfold relaxStep
          rw [if_pos ⟨by simpa using h1, h2, h3⟩]
        simp [h1, h2, h3, hstep]
      · have hstep : relaxStep add u e s = s := relaxStep_of_not (fun h => h3 h.2.2)
        simp [h1, h2, h3, hstep]

theorem relaxSums_spec {add : Int → Int → Int} {n : Nat} {u : Int} (hu : 0 ≤ u ∧ u < n) :
    ∀ (es : List Edge) (s : DState), Shape n s →
      (∀ e ∈ es, 0 ≤ e.dest_id ∧ e.dest_id < n) → s.vAt u = true →
      ∀ p ∈ relaxSums add u es s,
        p.1 = s.dAt u ∧ p.1 ≠ INT_MAX ∧ ∃ e ∈ es, p.2 = e.distance := by
  intro es
  induction es with
  | nil => intro s _ _ _ p hp; cases hp
  | cons e es ih =>
    intro s hs hes huv p hp
    have he := hes e (List.mem_cons_self _ _)
    have hes1 : ∀ e1 ∈ es, 0 ≤ e1.dest_id ∧ e1.dest_id < n :=
      fun e1 he1 => hes e1 (List.mem_cons_of_mem _ he1)
    rw [relaxSums_cons hu e es s hs he] at hp
    by_cases hc : s.vAt e.dest_id = true ∨ s.dAt u = INT_MAX
    · rw [if_pos hc] at hp
      obtain ⟨h1, h2, e1, he1, h3⟩ := ih s hs hes1 huv p hp
      exact ⟨h1, h2, e1, List.mem_cons_of_mem _ he1, h3⟩
    · rw [if_neg hc] at hp
      rcases List.mem_cons.mp hp with rfl | hp
      · exact ⟨rfl, fun h => hc (Or.inr h), e, List.mem_cons_self _ _, rfl⟩
      · obtain ⟨h1, h2, e1, he1, h3⟩ := ih (relaxStep add u e s) (shape_relaxStep hs he) hes1
          (by rw [relaxStep_vAt]; exact huv) p hp
        rw [relaxStep_dAt_self hs he huv] at h1
        exact ⟨h1, h2, e1, List.mem_cons_of_mem _ he1, h3⟩

theorem searchSums_zero (add : Int → Int → Int) (g : Graph) (dest : Int) (s : DState) :
    searchSums add g dest 0 s = [] := by
  rw [searchSums.eq_def]
  cases hq : pqTop s.pq <;> simp only [hq]

theorem searchSums_empty (add : Int → Int → Int) (g : Graph) (dest : Int) (fuel : Nat)
    (s : DState) (h : pqTop s.pq = none) : searchSums add g dest fuel s = [] := by
  rw [searchSums.eq_def]
  simp only [h]

theorem searchSums_step {add : Int → Int → Int} {g : Graph} {n : Nat} {dest : Int}
    {s : DState} {top : Int × Int} (fuel : Nat) (hs : Shape n s) (hr : InRange g n)
    (ht : pqTop s.pq = some top) :
    searchSums add g dest (fuel + 1) s =
      if s.vAt top.2 = true then searchSums add g dest fuel s.pop
      else if top.2 = dest then []
      else relaxSums add top.2 (g.get_edges top.2) (s.mark top.2) ++
        searchSums add g dest fuel (relaxAll add top.2 (g.get_edges top.2) (s.mark top.2)) := by
  have hu := hs.hq top (pqTop_mem ht)
  have hvis : rd s.visited top.2 = .ok (s.vAt top.2) :=
    rd_ok _ _ _ hu.1 (by rw [hs.hv]; exact hu.2)
  have hw : wr s.visited top.2 true = .ok (s.visited.set top.2.toNat true) :=
    wr_ok _ _ _ hu.1 (by rw [hs.hv]; exact hu.2)
  have hrel := @relaxEdges_eq add n top.2 hu (g.get_edges top.2) (s.mark top.2)
    (shape_mark hs _) (hr top.2 hu.1 hu.2)
  rw [searchSums]
  simp only [ht, hvis, hw]
  have hrel1 : relaxEdges add top.2 (g.get_edges top.2)
      { dist := s.dist, parent := s.parent, visited := s.visited.set top.2.toNat true,
        pq := pqPop s.pq } =
      .ok (relaxAll add top.2 (g.get_edges top.2) (s.mark top.2)) := hrel
  rw [hrel1]
  rfl

/-- Under the bound on the summed distances the search loop takes the same steps with every
addition that is exact in range, and every sum it evaluates is in range. -/
theorem searchLoop_agree {add : Int → Int → Int} (hadd : ExactInRange add) {g : Graph}
    {n : Nat} {src : Int} (dest : Int) (hr : InRange g n) (hnn : NonNeg g n)
    (hsum : edgeTotal g n ≤ INT_MAX) :
    ∀ (fuel : Nat) (s : DState), Full g n src s → Bounded g n s →
      searchLoop add g dest fuel s = searchLoop exactAdd g dest fuel s ∧
      ∀ p ∈ searchSums add g dest fuel s,
        p.1 ≠ INT_MAX ∧ 0 ≤ p.1 + p.2 ∧ p.1 + p.2 ≤ INT_MAX := by
  intro fuel
  induction fuel with
  | zero =>
    intro s _ _
    refine ⟨by rw [searchLoop_zero, searchLoop_zero], ?_⟩
    intro p hp
    rw [searchSums_zero] at hp
    cases hp
  | succ fuel ih =>
    intro s hF hb
    cases hq : pqTop s.pq with
    | none =>
      have he := pqTop_eq_none hq
      refine ⟨by rw [searchLoop_empty _ _ _ _ _ he, searchLoop_empty _ _ _ _ _ he], ?_⟩
      intro p hp
      rw [searchSums_empty _ _ _ _ _ hq] at hp
      cases hp
    | some top =>
      have hs := hF.1.shape
      have hu := hs.hq top (pqTop_mem hq)
      rw [@searchLoop_step add g n dest s top fuel hs hr hq,
        @searchLoop_step exactAdd g n dest s top fuel hs hr hq,
        @searchSums_step add g n dest s top fuel hs hr hq]
      by_cases hv : s.vAt top.2 = true
      · rw [if_pos hv, if_pos hv, if_pos hv]
        exact ih s.pop (full_pop hF hq hv) (bounded_pop hb)
      · rw [if_neg hv, if_neg hv, if_neg hv]
        by_cases hd : top.2 = dest
        · rw [if_pos hd, if_pos hd, if_pos hd]
          exact ⟨rfl, fun p hp => by cases hp⟩
        · rw [if_neg hd, if_neg hd, if_neg hd]
          have hv0 : s.vAt top.2 = false := by simpa using hv
          obtain ⟨hBm, _, hvm⟩ := basic_mark hF.1 hq
          have hdu0 : 0 ≤ s.dAt top.2 := hF.2.core.nonneg top.2 hu.1 hu.2
          have hreach := hF.1.pq_reached top (pqTop_mem hq)
          have hL := dist_le_walkLen (g.get_edges top.2) (hnn top.2 hu.1 hu.2)
          have hW : visitedWeight g n (s.mark top.2) =
              visitedWeight g n s + walkLen (g.get_edges top.2) := visitedWeight_mark hs hu hv0
          have hle := visitedWeight_le hnn (s.mark top.2)
          have hbu := hb top.2 hu.1 hu.2 hreach
          have hedges : ∀ e ∈ g.get_edges top.2, (0 ≤ e.dest_id ∧ e.dest_id < n) ∧
              0 ≤ e.distance ∧ s.dAt top.2 + e.distance ≤ INT_MAX := by
            intro e he
            have h1 := hL.2 e he
            exact ⟨hr top.2 hu.1 hu.2 e he, hnn top.2 hu.1 hu.2 e he, by omega⟩
          have hall := relaxAll_agree hadd (s.dAt top.2) hdu0 (g.get_edges top.2)
            (s.mark top.2) hBm.shape rfl hvm hedges
          rw [hall]
          obtain ⟨h1, h2⟩ := ih _ (full_expand hr hnn hF hq hv0)
            (bounded_expand hr hnn hF.1 hb hq hv0)
          refine ⟨h1, ?_⟩
          intro p hp
          rcases List.mem_append.mp hp with hp | hp
          · obtain ⟨hp1, hp2, e, he, hp3⟩ := relaxSums_spec hu (g.get_edges top.2)
              (s.mark top.2) hBm.shape (fun e he => (hedges e he).1) hvm p hp
            have h3 := hedges e he
            rw [mark_dAt] at hp1
            refine ⟨hp2, ?_, ?_⟩
            · rw [hp1, hp3]
              omega
            · rw [hp1, hp3]
              exact h3.2.2
          · exact h2 p hp

theorem dijkstraSums_unfold (add : Int → Int → Int) {g : Graph} {n : Nat} {src : Int}
    (dest : Int) (hn : g.city_count = n) (hpos : 0 < n) (hs : 0 ≤ src ∧ src < n) :
    dijkstraSums add g src dest = searchSums add g dest (searchFuel g n) (initState n src) := by
  have h0 : g.city_count ≠ 0 := by omega
  have h1 : ¬ g.city_count < 0 := by omega
  have h2 : g.city_count.toNat = n := by omega
  have hw : wr (List.replicate n INT_MAX) src 0 = .ok ((List.replicate n INT_MAX).set src.toNat 0) :=
    wr_ok _ _ _ hs.1 (by simp; exact hs.2)
  unfold dijkstraSums
  simp only [h0, h1, h2, if_false, hw]
  rfl

theorem wrapAdd_exact : ExactInRange wrapAdd := by
  intro a b _ h0 h1 h2
  unfold INT_MAX at h2
  unfold wrapAdd wrap32
  omega

theorem dijkstra_agree {add : Int → Int → Int} (hadd : ExactInRange add) {g : Graph} {n : Nat}
    {src : Int} (dest : Int) (hn : g.city_count = n) (hpos : 0 < n) (hr : InRange g n)
    (hnn : NonNeg g n) (hsum : edgeTotal g n ≤ INT_MAX) (hs : 0 ≤ src ∧ src < n) :
    dijkstra add g src dest = dijkstra exactAdd g src dest ∧
      ∀ p ∈ dijkstraSums add g src dest,
        p.1 ≠ INT_MAX ∧ 0 ≤ p.1 + p.2 ∧ p.1 + p.2 ≤ INT_MAX := by
  obtain ⟨h1, h2⟩ := searchLoop_agree hadd dest hr hnn hsum (searchFuel g n) (initState n src)
    (full_init g n src hs) (bounded_init g n src hs)
  rw [dijkstra_unfold add dest hn hpos hs, dijkstra_unfold exactAdd dest hn hpos hs, h1,
    dijkstraSums_unfold add dest hn hpos hs]
  exact ⟨rfl, h2⟩

/-- C17. No overflow in relaxation.  For every graph whose adjacency lists of the cities
`0 .. city_count-1` hold in-range `dest_id`s and distances `≥ 0` that sum to at most `INT_MAX`,
and every in-range `src` and `dest`: each sum `dist[u] + weight` that `dijkstra` evaluates with
32-bit wrap-around addition has `dist[u]` different from the `INT_MAX` sentinel and an exact
value in `[0, INT_MAX]`; the call returns a result, the same as with unbounded integers; and the
same holds for every addition that is exact on such operands, whatever it does elsewhere. -/
theorem relaxation_no_overflow (g : Graph) (src dest : Int)
    (hr : g.edgesInRange = true) (hnn : g.nonnegDistances = true)
    (hsum : edgeTotal g g.city_count.toNat ≤ INT_MAX)
    (hs : 0 ≤ src ∧ src < g.city_count) (hd : 0 ≤ dest ∧ dest < g.city_count) :
    (∀ p ∈ dijkstraSums wrapAdd g src dest,
        p.1 ≠ INT_MAX ∧ 0 ≤ p.1 + p.2 ∧ p.1 + p.2 ≤ INT_MAX) ∧
      dijkstra wrapAdd g src dest = dijkstra exactAdd g src dest ∧
      (∃ r, dijkstra wrapAdd g src dest = .ok r) ∧
      ∀ add : Int → Int → Int, ExactInRange add →
        dijkstra add g src dest = dijkstra exactAdd g src dest ∧
        ∀ p ∈ dijkstraSums add g src dest,
          p.1 ≠ INT_MAX ∧ 0 ≤ p.1 + p.2 ∧ p.1 + p.2 ≤ INT_MAX := by
  obtain ⟨n, hn⟩ : ∃ n : Nat, g.city_count = n := ⟨g.city_count.toNat, by omega⟩
  have hr1 := edgesInRange_spec hn hr
  have hnn1 := nonnegDistances_spec hn hnn
  have hn2 : g.city_count.toNat = n := by omega
  rw [hn2] at hsum
  rw [hn] at hs hd
  have hpos : 0 < n := by omega
  have hw := dijkstra_agree wrapAdd_exact dest hn hpos hr1 hnn1 hsum hs
  refine ⟨hw.2, hw.1, ?_, fun add hadd => dijkstra_agree hadd dest hn hpos hr1 hnn1 hsum hs⟩
  obtain ⟨t, _, h⟩ := dijkstra_basic wrapAdd hn hpos hr1 hs hd
  rcases h with ⟨_, h⟩ | ⟨_, l, _, h⟩
  · exact ⟨_, h⟩
  · exact ⟨_, h⟩

theorem relaxation_no_overflow_witness :
    (∀ p ∈ dijkstraSums wrapAdd graphS3 0 3,
        p.1 ≠ INT_MAX ∧ 0 ≤ p.1 + p.2 ∧ p.1 + p.2 ≤ INT_MAX) ∧
      dijkstra wrapAdd graphS3 0 3 = dijkstra exactAdd graphS3 0 3 ∧
      (∃ r, dijkstra wrapAdd graphS3 0 3 = .ok r) ∧
      ∀ add : Int → Int → Int, ExactInRange add →
        dijkstra add graphS3 0 3 = dijkstra exactAdd graphS3 0 3 ∧
        ∀ p ∈ dijkstraSums add graphS3 0 3,
          p.1 ≠ INT_MAX ∧ 0 ≤ p.1 + p.2 ∧ p.1 + p.2 ≤ INT_MAX :=
  relaxation_no_overflow graphS3 0 3 (by decide!) (by decide!) (by decide!) (by decide!)
    (by decide!)

/-- The sums evaluated on the four-city scenario for `(0,3)`. -/
theorem graphS3_sums :
    dijkstraSums wrapAdd graphS3 0 3 = [(0, 1), (0, 10), (1, 1), (2, 1)] := by decide!

/-- Beyond the bound the two readings of the addition part: on two roads of distance `2^30` in a
row the sum `2^30 + 2^30` is evaluated, and the wrap-around result differs from the exact one. -/
theorem graphWide_eval :
    (1073741824, 1073741824) ∈ dijkstraSums wrapAdd graphWide 0 2 ∧
      dijkstra wrapAdd graphWide 0 2 =
        .ok { path := [0, 1, 2], total_distance := -2147483648, success := true } ∧
      dijkstra exactAdd graphWide 0 2 = .ok noPath := by decide!

/-! ## The deduction in machine arithmetic -/

theorem exactSub_exact : ExactSubInRange exactSub := fun _ _ _ _ _ => rfl

theorem wrapSub_exact : ExactSubInRange wrapSub := by
  intro a b h0 h1 h2
  unfold INT_MAX at h2
  unfold wrapSub wrap32
  omega

theorem deductSub_exactSub : ∀ (cs : List City) (i : Nat) (amount : Int),
    deductSub exactSub cs i amount = deductAt cs i amount := by
  intro cs
  induction cs with
  | nil => intro i amount; rfl
  | cons c cs ih =>
    intro i amount
    cases i with
    | zero => rfl
    | succ i => simp only [deductSub, deductAt, ih]

theorem deductSub_shape (sub : Int → Int → Int) : ∀ (cs : List City) (i : Nat) (amount : Int),
    (deductSub sub cs i amount).map (fun c => { c with resources := 0 }) =
      cs.map (fun c => { c with resources := 0 }) := by
  intro cs
  induction cs with
  | nil => intro i amount; rfl
  | cons c cs ih =>
    intro i amount
    cases i with
    | zero => rfl
    | succ i =>
      simp only [deductSub, List.map_cons, ih]

/-- Where the subtraction is exact in range, the machine deduction from the first city with
the id `id` is the exact one, when the cities with that id hold at least the amount. -/
theorem deductSub_eq {sub : Int → Int → Int} (hsub : ExactSubInRange sub) (id amount : Int)
    (ha : 0 ≤ amount) :
    ∀ (cs : List City) (i : Nat), findCityIdx cs id = some i →
      (∀ c ∈ cs, c.id = id → amount ≤ c.resources ∧ c.resources ≤ INT_MAX) →
      deductSub sub cs i amount = deductAt cs i amount := by
  intro cs
  induction cs with
  | nil => intro i h; simp [findCityIdx] at h
  | cons c cs ih =>
    intro i hfind hc
    simp only [findCityIdx] at hfind
    by_cases hid : c.id = id
    · rw [if_pos hid] at hfind
      injection hfind with hi
      subst hi
      have h1 := hc c (List.mem_cons_self _ _) hid
      simp only [deductSub, deductAt, hsub _ _ ha h1.1 h1.2]
    · rw [if_neg hid] at hfind
      cases hj : findCityIdx cs id with
      | none => rw [hj] at hfind; cases hfind
      | some j =>
        rw [hj] at hfind
        injection hfind with hi
        subst hi
        simp only [deductSub, deductAt,
          ih j hj (fun c1 hc1 => hc c1 (List.mem_cons_of_mem _ hc1))]

theorem processRequestSub_exactSub (add : Int → Int → Int) (g : Graph) (req : DisasterRequest) :
    processRequestSub add exactSub g req = processRequest add g req := by
  unfold processRequestSub processRequest
  cases hscan : scanDonors add g req g.cities (-1, INT_MAX) with
  | error f => rfl
  | ok out =>
    obtain ⟨bid, bd⟩ := out
    simp only
    by_cases hb : bid ≠ -1
    · rw [if_pos hb, if_pos hb]
      cases hfind : g.find_city_by_id bid with
      | none => rfl
      | some i => simp only [deductSub_exactSub]
    · rw [if_neg hb, if_neg hb]

theorem processRequestsSub_exactSub (add : Int → Int → Int) :
    ∀ (reqs : List DisasterRequest) (g : Graph),
      processRequestsSub add exactSub g reqs = processRequests add g reqs := by
  intro reqs
  induction reqs with
  | nil => intro g; rfl
  | cons r rest ih =>
    intro g
    rw [processRequestsSub, processRequests, processRequestSub_exactSub, ih g]
    by_cases hst : r.status ≠ "pending"
    · rw [if_pos hst, if_pos hst]
    · rw [if_neg hst, if_neg hst]
      cases processRequest add g r with
      | error f => rfl
      | ok out =>
        obtain ⟨res, g1, r1⟩ := out
        simp only [ih g1]

/-- The pass `process_allocations add` is the pass with exact subtraction. -/
theorem process_allocations_sub_exactSub (add : Int → Int → Int) (rm : ResourceManager)
    (g : Graph) : rm.process_allocations_sub add exactSub g = rm.process_allocations add g := by
  unfold ResourceManager.process_allocations_sub ResourceManager.process_allocations
  rw [processRequestsSub_exactSub]

/-- One request in machine arithmetic is the request in exact arithmetic when the amount is not
negative and no city holds more than `INT_MAX`: the city charged is the viable donor. -/
theorem processRequestSub_eq {add sub : Int → Int → Int} (hsub : ExactSubInRange sub)
    {g : Graph} {req : DisasterRequest} (hnd : (g.cities.map (·.id)).Nodup)
    (hmax : ∀ c ∈ g.cities, c.resources ≤ INT_MAX) (ha : 0 ≤ req.required_resources) :
    processRequestSub add sub g req = processRequest add g req := by
  unfold processRequestSub processRequest
  cases hscan : scanDonors add g req g.cities (-1, INT_MAX) with
  | error f => rfl
  | ok out =>
    obtain ⟨bid, bd⟩ := out
    simp only
    by_cases hb : bid ≠ -1
    · rw [if_pos hb, if_pos hb]
      cases hfind : g.find_city_by_id bid with
      | none => rfl
      | some i =>
        simp only
        rcases scan_spec add g req _ _ _ hscan with ⟨ho, _⟩ | ⟨pre, k, post, hcs, hk, hkc, _, _, _⟩
        · injection ho with h1 _
          exact absurd h1 hb
        · simp only at hk hkc
          have hkm : k ∈ g.cities := by rw [hcs]; simp
          have hv := (viable_iff req k).mp hkc.1
          have heq : deductSub sub g.cities i req.required_resources =
              deductAt g.cities i req.required_resources := by
            refine deductSub_eq hsub bid _ ha g.cities i hfind ?_
            intro c hc hid
            have hck : c = k := List.inj_on_of_nodup_map hnd hc hkm (by rw [hid, hk])
            rw [hck]
            exact ⟨hv.2.1, hmax k hkm⟩
          rw [heq]
    · rw [if_neg hb, if_neg hb]

theorem resLe_max {g g1 : Graph} (h : ResLe g g1) (hmax : ∀ c ∈ g.cities, c.resources ≤ INT_MAX) :
    ∀ c ∈ g1.cities, c.resources ≤ INT_MAX := by
  intro c hc
  obtain ⟨a, ha, hle⟩ := forall2_mem_right h.2.2 c hc
  have := hmax a ha
  have := hle.2.2
  omega

/-- A pass in machine arithmetic is the pass in exact arithmetic when no amount is negative and
no city holds more than `INT_MAX`. -/
theorem processRequestsSub_eq {add sub : Int → Int → Int} (hsub : ExactSubInRange sub) :
    ∀ (reqs : List DisasterRequest) (g : Graph), (g.cities.map (·.id)).Nodup →
      (∀ c ∈ g.cities, c.resources ≤ INT_MAX) → (∀ r ∈ reqs, 0 ≤ r.required_resources) →
      processRequestsSub add sub g reqs = processRequests add g reqs := by
  intro reqs
  induction reqs with
  | nil => intro g _ _ _; rfl
  | cons r rest ih =>
    intro g hnd hmax hreq
    have hr := hreq r (List.mem_cons_self _ _)
    have hrest : ∀ r1 ∈ rest, 0 ≤ r1.required_resources :=
      fun r1 h1 => hreq r1 (List.mem_cons_of_mem _ h1)
    rw [processRequestsSub, processRequests, processRequestSub_eq hsub hnd hmax hr,
      ih g hnd hmax hrest]
    by_cases hst : r.status ≠ "pending"
    · rw [if_pos hst, if_pos hst]
    · rw [if_neg hst, if_neg hst]
      cases hone : processRequest add g r with
      | error f => rfl
      | ok out =>
        obtain ⟨res, g1, r1⟩ := out
        have hnd1 : (g1.cities.map (·.id)).Nodup := by
          rw [sameShape_ids (processRequest_shape hone)]
          exact hnd
        have hmax1 := resLe_max (processRequest_resLe hr hone) hmax
        simp only [ih g1 hnd1 hmax1 hrest]

theorem processRequestSub_shape {add sub : Int → Int → Int} {g g1 : Graph}
    {req req1 : DisasterRequest} {res : AllocationResult}
    (h : processRequestSub add sub g req = .ok (res, g1, req1)) : SameShape g g1 := by
  unfold processRequestSub at h
  cases hscan : scanDonors add g req g.cities (-1, INT_MAX) with
  | error f => rw [hscan] at h; cases h
  | ok out =>
    obtain ⟨bid, bd⟩ := out
    rw [hscan] at h
    simp only at h
    by_cases hb : bid ≠ -1
    · rw [if_pos hb] at h
      injection h with h
      injection h with _ h2
      injection h2 with h2 _
      rw [← h2]
      cases g.find_city_by_id bid with
      | none => exact sameShape_refl g
      | some i => exact ⟨rfl, rfl, deductSub_shape _ _ _ _⟩
    · rw [if_neg hb] at h
      injection h with h
      injection h with _ h2
      injection h2 with h2 _
      rw [← h2]
      exact sameShape_refl g

theorem processRequestsSub_inv {add sub : Int → Int → Int} {g g2 : Graph}
    {req : DisasterRequest} {rest reqs1 : List DisasterRequest}
    {results : List AllocationResult}
    (h : processRequestsSub add sub g (req :: rest) = .ok (results, g2, reqs1)) :
    (req.status ≠ "pending" ∧
        ∃ rest1, processRequestsSub add sub g rest = .ok (results, g2, rest1) ∧
          reqs1 = req :: rest1) ∨
    (req.status = "pending" ∧ ∃ res g1 req1 results1 rest1,
        processRequestSub add sub g req = .ok (res, g1, req1) ∧
        processRequestsSub add sub g1 rest = .ok (results1, g2, rest1) ∧
        results = res :: results1 ∧ reqs1 = req1 :: rest1) := by
  rw [processRequestsSub] at h
  split at h
  · rename_i hst
    left
    split at h
    · cases h
    · rename_i r1 ga rest1 hrec
      injection h with h
      injection h with h1 h2
      injection h2 with h2 h3
      subst h1; subst h2
      exact ⟨hst, rest1, hrec, h3.symm⟩
  · rename_i hst
    right
    split at h
    · cases h
    · rename_i res g1 req1 hone
      split at h
      · cases h
      · rename_i r1 ga rest1 hrec
        injection h with h
        injection h with h1 h2
        injection h2 with h2 h3
        subst h2
        exact ⟨by simpa using hst, res, g1, req1, r1, rest1, hone, hrec, h1.symm, h3.symm⟩

/-- For every reading of the subtraction a pass changes nothing of the graph but the resources
of its cities. -/
theorem processRequestsSub_shape (add sub : Int → Int → Int) :
    ∀ (reqs : List DisasterRequest) (g g2 : Graph) (results : List AllocationResult)
      (reqs1 : List DisasterRequest),
      processRequestsSub add sub g reqs = .ok (results, g2, reqs1) → SameShape g g2 := by
  intro reqs
  induction reqs with
  | nil =>
    intro g g2 results reqs1 h
    simp only [processRequestsSub] at h
    injection h with h
    injection h with _ h2
    injection h2 with h2 _
    subst h2
    exact sameShape_refl g
  | cons r rest ih =>
    intro g g2 results reqs1 h
    rcases processRequestsSub_inv h with ⟨_, rest1, hrec, _⟩ |
      ⟨_, res0, g1, r1, results1, rest1, hone, hrec, _, _⟩
    · exact ih g g2 results rest1 hrec
    · exact sameShape_trans (processRequestSub_shape hone) (ih g1 g2 results1 rest1 hrec)

theorem process_allocations_sub_inv {add sub : Int → Int → Int} {rm rm1 : ResourceManager}
    {g g1 : Graph} {results : List AllocationResult}
    (h : rm.process_allocations_sub add sub g = .ok (results, rm1, g1)) :
    ∃ reqs1, processRequestsSub add sub g rm.requests = .ok (results, g1, reqs1) ∧
      rm1 = { rm with requests := reqs1 } := by
  unfold ResourceManager.process_allocations_sub at h
  split at h
  · cases h
  · rename_i r ga reqs1 hrun
    injection h with h
    injection h with h1 h2
    injection h2 with h2 h3
    subst h1; subst h3
    exact ⟨reqs1, hrun, h2.symm⟩

/-- Two city lists that agree once the resources are blanked agree record by record in every
other field. -/
theorem shape_fields : ∀ (cs cs1 : List City),
    cs1.map (fun c => { c with resources := 0 }) = cs.map (fun c => { c with resources := 0 }) →
    List.Forall₂ (fun c c1 : City => c1.id = c.id ∧ c1.name = c.name ∧
      c1.population = c.population ∧ c1.damage_level = c.damage_level ∧
      c1.latitude = c.latitude ∧ c1.longitude = c.longitude) cs cs1 := by
  intro cs
  induction cs with
  | nil =>
    intro cs1 h
    cases cs1 with
    | nil => exact List.Forall₂.nil
    | cons a l => cases h
  | cons c cs ih =>
    intro cs1 h
    cases cs1 with
    | nil => cases h
    | cons a l =>
      simp only [List.map_cons] at h
      injection h with h1 h2
      refine List.Forall₂.cons ?_ (ih l h2)
      cases a
      cases c
      simp only [City.mk.injEq] at h1
      simp only
      exact ⟨h1.1, h1.2.1, h1.2.2.1, h1.2.2.2.1, h1.2.2.2.2.2.1, h1.2.2.2.2.2.2⟩

/-! ## The graph across a pass, in machine arithmetic -/

/-- C15 as stated fails: cities 0 (resources 0) and 1 (resources `INT_MAX`) joined by one road,
and one request on city 0 for `-1` units.  The city ids are dense; the pass allocates from
city 1, which passes the test `resources >= required_resources`, and `resources -= -1` leaves
the range of `int`: with 32-bit wrap-around city 1 holds `-2147483648` after the pass, while
its resources before the pass minus the allocated `-1` are `2147483648`. -/
theorem allocation_frame_counterexample :
    graphRich.denseIds = true ∧
      graphRich.cities = [mkCity 0 0 0, mkCity 1 2147483647 0] ∧
      requestsNeg.process_allocations_sub wrapAdd wrapSub graphRich =
        .ok ([{ request_id := 1, affected_city_id := 0, support_city_id := 1,
                allocated_resources := -1, distance := 1, status := "allocated" }],
             { requests := [{ id := 1, city_id := 0, priority := 1, required_resources := -1,
                              status := "allocated" }], next_id := 2 },
             { graphRich with cities := [mkCity 0 0 0, mkCity 1 (-2147483648) 0] }) ∧
      (2147483647 : Int) - chargedTo
        [{ request_id := 1, affected_city_id := 0, support_city_id := 1,
           allocated_resources := -1, distance := 1, status := "allocated" }] 1 = 2147483648 ∧
      [mkCity 0 0 0, mkCity 1 (-2147483648) 0] ≠ graphRich.cities.map
        (fun c => { c with resources := c.resources - (chargedTo
          [{ request_id := 1, affected_city_id := 0, support_city_id := 1,
             allocated_resources := -1, distance := 1, status := "allocated" }] c.id) }) := by
  decide!

/-- C15, amended.  Graph frame of an allocation pass: on a graph with dense city ids a pass of
`process_allocations` that returns, over any request list and with any reading of the `int`
subtraction, leaves `city_count` and the adjacency lists as they are, and every city record
with its id, name, population, damage level, latitude and longitude.  When moreover no city
holds more than `INT_MAX` resources and no request asks for a negative amount (the subtraction
being exact on `0 ≤ b ≤ a ≤ INT_MAX`, whatever it does on overflow), the resources of every
city after the pass are those before it minus the sum of `allocated_resources` over the
returned results whose `support_city_id` is the id of the city. -/
theorem allocation_frame (add sub : Int → Int → Int) (rm rm1 : ResourceManager) (g g1 : Graph)
    (results : List AllocationResult) (hdense : g.denseIds = true)
    (hrun : rm.process_allocations_sub add sub g = .ok (results, rm1, g1)) :
    g1.city_count = g.city_count ∧ g1.adj_list = g.adj_list ∧
      (∀ k : Int, g1.get_edges k = g.get_edges k) ∧
      List.Forall₂ (fun c c1 : City => c1.id = c.id ∧ c1.name = c.name ∧
        c1.population = c.population ∧ c1.damage_level = c.damage_level ∧
        c1.latitude = c.latitude ∧ c1.longitude = c.longitude) g.cities g1.cities ∧
      (ExactSubInRange sub → (∀ c ∈ g.cities, c.resources ≤ INT_MAX) →
        (∀ r ∈ rm.requests, 0 ≤ r.required_resources) →
        g1.cities = g.cities.map
          (fun c => { c with resources := c.resources - chargedTo results c.id })) := by
  obtain ⟨reqs1, hpass, _⟩ := process_allocations_sub_inv hrun
  have hsh := processRequestsSub_shape add sub _ _ _ _ _ hpass
  refine ⟨hsh.2.1, hsh.1, fun k => ?_, shape_fields _ _ hsh.2.2, ?_⟩
  · unfold Graph.get_edges
    rw [hsh.1]
  · intro hsub hmax hreq
    rw [processRequestsSub_eq hsub _ _ (dense_nodup hdense) hmax hreq] at hpass
    exact processRequests_charge add _ _ _ _ _ (dense_nodup hdense) hpass

theorem allocation_frame_witness :
    graphS5.city_count = graphS5.city_count ∧ graphS5.adj_list = graphS5.adj_list ∧
      (∀ k : Int, ({ graphS5 with cities := [mkCity 0 0 5, mkCity 1 10 0, mkCity 2 5 0] } :
          Graph).get_edges k = graphS5.get_edges k) ∧
      List.Forall₂ (fun c c1 : City => c1.id = c.id ∧ c1.name = c.name ∧
        c1.population = c.population ∧ c1.damage_level = c.damage_level ∧
        c1.latitude = c.latitude ∧ c1.longitude = c.longitude) graphS5.cities
        [mkCity 0 0 5, mkCity 1 10 0, mkCity 2 5 0] ∧
      (ExactSubInRange wrapSub → (∀ c ∈ graphS5.cities, c.resources ≤ INT_MAX) →
        (∀ r ∈ requestsS5.requests, 0 ≤ r.required_resources) →
        [mkCity 0 0 5, mkCity 1 10 0, mkCity 2 5 0] = graphS5.cities.map
          (fun c => { c with resources := c.resources - (chargedTo
            [{ request_id := 1, affected_city_id := 0, support_city_id := 2,
               allocated_resources := 5, distance := 50, status := "allocated" }] c.id) })) :=
  allocation_frame wrapAdd wrapSub requestsS5
    { requests := [{ id := 1, city_id := 0, priority := 1, required_resources := 5,
                     status := "allocated" }], next_id := 2 }
    graphS5 { graphS5 with cities := [mkCity 0 0 5, mkCity 1 10 0, mkCity 2 5 0] }
    [{ request_id := 1, affected_city_id := 0, support_city_id := 2,
       allocated_resources := 5, distance := 50, status := "allocated" }]
    (by decide!) (by decide!)

/-- C16 as stated fails: cities 0 (resources 0) and 1 (resources `INT_MAX`) joined by one road,
and one request on city 0 for `-1` units.  The city ids are dense and every city has resources
`≥ 0`; city 1 passes the test `resources >= required_resources` and is charged `-1`, which
leaves the range of `int`: with 32-bit wrap-around it holds `-2147483648` after the pass. -/
theorem resources_nonneg_counterexample :
    graphRich.denseIds = true ∧ (∀ c ∈ graphRich.cities, 0 ≤ c.resources) ∧
      requestsNeg.requests = [{ id := 1, city_id := 0, priority := 1,
                                required_resources := -1, status := "pending" }] ∧
      requestsNeg.process_allocations_sub wrapAdd wrapSub graphRich =
        .ok ([{ request_id := 1, affected_city_id := 0, support_city_id := 1,
                allocated_resources := -1, distance := 1, status := "allocated" }],
             { requests := [{ id := 1, city_id := 0, priority := 1, required_resources := -1,
                              status := "allocated" }], next_id := 2 },
             { graphRich with cities := [mkCity 0 0 0, mkCity 1 (-2147483648) 0] }) ∧
      ¬ ∀ c ∈ [mkCity 0 0 0, mkCity 1 (-2147483648) 0], 0 ≤ c.resources := by
  decide!

/-- C16, amended.  Resources stay non-negative: on a graph with dense city ids in which every
city has resources in `[0, INT_MAX]`, after a pass of `process_allocations` over requests none
of which asks for a negative amount every city has resources in `[0, INT_MAX]` still, and no
more than before the pass: the city charged is the viable donor itself, whose resources are at
least the amount deducted, in the graph state the earlier requests of the pass left.  The
subtraction of `int` is any that is exact on `0 ≤ b ≤ a ≤ INT_MAX`, the wrap-around one
included; nothing is assumed of what it does on overflow. -/
theorem resources_nonneg (add sub : Int → Int → Int) (rm rm1 : ResourceManager) (g g1 : Graph)
    (results : List AllocationResult) (hsub : ExactSubInRange sub)
    (hdense : g.denseIds = true)
    (hnn : ∀ c ∈ g.cities, 0 ≤ c.resources ∧ c.resources ≤ INT_MAX)
    (hreq : ∀ r ∈ rm.requests, 0 ≤ r.required_resources)
    (hrun : rm.process_allocations_sub add sub g = .ok (results, rm1, g1)) :
    (∀ c ∈ g1.cities, 0 ≤ c.resources ∧ c.resources ≤ INT_MAX) ∧
      List.Forall₂ (fun c c1 : City => c1.resources ≤ c.resources) g.cities g1.cities := by
  obtain ⟨reqs1, hpass, _⟩ := process_allocations_sub_inv hrun
  have hnd := dense_nodup hdense
  rw [processRequestsSub_eq hsub _ _ hnd (fun c hc => (hnn c hc).2) hreq] at hpass
  have hle := processRequests_resLe add _ _ _ _ _ hreq hpass
  have h0 := processRequests_nonneg add _ _ _ _ _ hnd (fun c hc => (hnn c hc).1) hpass
  have h1 := resLe_max hle (fun c hc => (hnn c hc).2)
  exact ⟨fun c hc => ⟨h0 c hc, h1 c hc⟩, List.Forall₂.imp (fun _ _ h => h.2.2) hle.2.2⟩

theorem resources_nonneg_witness :
    (∀ c ∈ [mkCity 0 0 5, mkCity 1 10 0, mkCity 2 5 0],
        0 ≤ c.resources ∧ c.resources ≤ INT_MAX) ∧
      List.Forall₂ (fun c c1 : City => c1.resources ≤ c.resources) graphS5.cities
        [mkCity 0 0 5, mkCity 1 10 0, mkCity 2 5 0] :=
  resources_nonneg wrapAdd wrapSub requestsS5
    { requests := [{ id := 1, city_id := 0, priority := 1, required_resources := 5,
                     status := "allocated" }], next_id := 2 }
    graphS5 { graphS5 with cities := [mkCity 0 0 5, mkCity 1 10 0, mkCity 2 5 0] }
    [{ request_id := 1, affected_city_id := 0, support_city_id := 2,
       allocated_resources := 5, distance := 50, status := "allocated" }]
    wrapSub_exact (by decide!) (by decide!) (by decide!) (by decide!)

end Disaster
